import Mathlib

/-!
Verification of the mudlark-go-pkgs collections library: the left-leaning
red-black tree engine (`mudlark/tree/llrb_tree/ll_rb_tree.go`), the
heterogeneous set built on the same engine (`mudlark/set/heteroset/heteroset.go`)
and the sparse integer bitset (`mudlark/set/bitset/bitset.go`).

The Go code is shallowly embedded: tree nodes become an inductive `Link`
type, in-place pointer mutation becomes functional update, and operations
that can dereference a nil pointer (the deletion path and the facade's
unconditional `this.root.red = false`) return `Option`, with `none`
standing for a Go runtime panic.  Item comparison (`compare_item`, built
from `cmp_type` plus `Less`/`Precedes`) is abstracted as a parameter
`c : α → α → Int` returning negative / zero / positive exactly as the Go
function does.
-/

namespace Mudlark

/-- LLRB tree node (`ll_rb_node`): item, left and right child links and a
colour bit; the absent link (`nil` in Go) is the `nil` constructor. -/
inductive Link (α : Type) where
  | nil : Link α
  | node (item : α) (left : Link α) (right : Link α) (red : Bool) : Link α
deriving Repr, DecidableEq

namespace Link

/-- `node.left` field access; the Go code only reads `.left` on non-nil
nodes (a read on nil panics, modelled by `Option` at the sites where it can
happen). -/
def left : Link α → Link α
  | .nil => .nil
  | .node _ l _ _ => l

/-- `node.right` field access (see `Link.left`). -/
def right : Link α → Link α
  | .nil => .nil
  | .node _ _ r _ => r

/-- Number of nodes of the subtree. -/
def size : Link α → Nat
  | .nil => 0
  | .node _ l r _ => size l + size r + 1

/-- Depth (height) of the subtree, as measured by `max_depth` in the Go
tests: 0 for the absent link, 1 + max of the children otherwise. -/
def depth : Link α → Nat
  | .nil => 0
  | .node _ l r _ => max (depth l) (depth r) + 1

/-- The `node == nil` pointer test. -/
def isNil : Link α → Bool
  | .nil => true
  | .node _ _ _ _ => false

end Link

/-- `is_red(node)`: false for the absent link, else the node's colour bit. -/
def is_red : Link α → Bool
  | .nil => false
  | .node _ _ _ red => red

/-- `flip_colours(node)`: toggles the colour of the node and of both its
children.  The Go code dereferences both children, so both must be
non-nil; this total version is only used at call sites where the source
guarantees that (both children red, or both children non-nil), the
`Option` version `flip_coloursO` captures the panicking sites. -/
def flip_colours : Link α → Link α
  | .node x (.node lx ll lr lc) (.node rx rl rr rc) c =>
      .node x (.node lx ll lr (!lc)) (.node rx rl rr (!rc)) (!c)
  | t => t

/-- `flip_colours(node)` with the nil-pointer panic made explicit: `none`
when the node or either child is absent. -/
def flip_coloursO : Link α → Option (Link α)
  | .node x (.node lx ll lr lc) (.node rx rl rr rc) c =>
      some (.node x (.node lx ll lr (!lc)) (.node rx rl rr (!rc)) (!c))
  | _ => none

/-- `rotate_left(node)`: the right child becomes the new subtree root,
inheriting the old root's colour; the old root becomes red and takes the
rotated child's left subtree as its right subtree.  Only called when the
right child is red (hence non-nil); the fallback branch is unreachable at
every call site of the source. -/
def rotate_left : Link α → Link α
  | .node x l (.node rx rl rr _) c => .node rx (.node x l rl true) rr c
  | t => t

/-- `rotate_right(node)`: mirror image of `rotate_left`. -/
def rotate_right : Link α → Link α
  | .node x (.node lx ll lr _) r c => .node lx ll (.node x lr r true) c
  | t => t

/-- First statement of `fix_up`: rotate left if the right link is red and
the left link is not. -/
def fix_up1 (t : Link α) : Link α :=
  if is_red t.right && !is_red t.left then rotate_left t else t

/-- Second statement of `fix_up`: rotate right if the left link and the
left-left link are both red (the `node.left.left` read is protected by
Go's short-circuiting `&&`). -/
def fix_up2 (t : Link α) : Link α :=
  if is_red t.left && is_red t.left.left then rotate_right t else t

/-- Third statement of `fix_up`: flip colours if both links are red. -/
def fix_up3 (t : Link α) : Link α :=
  if is_red t.left && is_red t.right then flip_colours t else t

/-- `fix_up(node)`: the three corrective statements of the source applied
in order. -/
def fix_up (t : Link α) : Link α :=
  fix_up3 (fix_up2 (fix_up1 t))

/-- `new_ll_rb_node(item)`: a fresh red node with no children. -/
def new_ll_rb_node (item : α) : Link α :=
  .node item .nil .nil true

/-- `insert(node, item)` of package `llrb_tree` (the filtering policy):
descend by the comparison, create a red node at an absent link, and do
nothing on an equal comparison (the `default:` case is empty — the
existing item is kept).  Returns the new subtree and whether a node was
created. -/
def insert (c : α → α → Int) : Link α → α → Link α × Bool
  | .nil, item => (new_ll_rb_node item, true)
  | .node x l r co, item =>
      if c x item > 0 then
        let p := insert c l item
        (fix_up (.node x p.1 r co), p.2)
      else if c x item < 0 then
        let p := insert c r item
        (fix_up (.node x l p.1 co), p.2)
      else
        (fix_up (.node x l r co), false)

/-- `insert(node, item)` of package `heteroset`: identical to the
`llrb_tree` filtering insert except that the `default:` case overwrites
the stored item with the new one (`node.item = item`). -/
def insert_hetero (c : α → α → Int) : Link α → α → Link α × Bool
  | .nil, item => (new_ll_rb_node item, true)
  | .node x l r co, item =>
      if c x item > 0 then
        let p := insert_hetero c l item
        (fix_up (.node x p.1 r co), p.2)
      else if c x item < 0 then
        let p := insert_hetero c r item
        (fix_up (.node x l p.1 co), p.2)
      else
        (fix_up (.node item l r co), false)

/-- `insert_keep_duplicates(node, item)`: the duplicate-preserving policy;
equal items are pushed into the right subtree and a node is always
created. -/
def insert_keep_duplicates (c : α → α → Int) : Link α → α → Link α
  | .nil, item => new_ll_rb_node item
  | .node x l r co, item =>
      if c x item > 0 then
        fix_up (.node x (insert_keep_duplicates c l item) r co)
      else
        fix_up (.node x l (insert_keep_duplicates c r item) co)

/-- `iterate_inorder`: left, node, right; the channel send sequence is
modelled as the emitted list. -/
def iterate_inorder : Link α → List α
  | .nil => []
  | .node x l r _ => iterate_inorder l ++ x :: iterate_inorder r

/-- `iterate_preorder`: node, left, right. -/
def iterate_preorder : Link α → List α
  | .nil => []
  | .node x l r _ => x :: (iterate_preorder l ++ iterate_preorder r)

/-- `iterate_postorder`: left, right, node. -/
def iterate_postorder : Link α → List α
  | .nil => []
  | .node x l r _ => iterate_postorder l ++ iterate_postorder r ++ [x]

/-- `iterate_reverseorder`: right, node, left. -/
def iterate_reverseorder : Link α → List α
  | .nil => []
  | .node x l r _ => iterate_reverseorder r ++ x :: iterate_reverseorder l

/-- `copy(node)`: structurally independent deep clone (same items, same
colours). -/
def copy : Link α → Link α
  | .nil => .nil
  | .node x l r c => .node x (copy l) (copy r) c

/-- `move_red_left(node)`: flip colours, then if the right child's left
grandchild is red rotate the right child right, rotate the node left and
flip colours again.  `none` models the nil-pointer panic of
`flip_colours` on a node with an absent child. -/
def move_red_leftO (t : Link α) : Option (Link α) :=
  match flip_coloursO t with
  | none => none
  | some t1 =>
    match t1 with
    | .node x l (.node rx rl rr rc) c =>
        if is_red rl then
          flip_coloursO (rotate_left (.node x l (rotate_right (.node rx rl rr rc)) c))
        else some (.node x l (.node rx rl rr rc) c)
    | _ => none

/-- `move_red_right(node)`: flip colours, then if the left child's left
child is red rotate the node right and flip colours again. -/
def move_red_rightO (t : Link α) : Option (Link α) :=
  match flip_coloursO t with
  | none => none
  | some t1 =>
    match t1 with
    | .node x (.node lx ll lr lc) r c =>
        if is_red ll then
          flip_coloursO (rotate_right (.node x (.node lx ll lr lc) r c))
        else some (.node x (.node lx ll lr lc) r c)
    | _ => none

/-- The deletion guard `!is_red(node.left) && !is_red(node.left.left)`
followed by the conditional `move_red_left`.  Go's `&&` short-circuits, so
`node.left.left` is only read when `node.left` is not red; when
`node.left` is nil that read panics (`none`). -/
def step_left (t : Link α) : Option (Link α) :=
  match t with
  | .node _ (.node _ ll _ lred) _ _ =>
      if !lred && !is_red ll then move_red_leftO t else some t
  | _ => none

/-- The deletion guard `!is_red(node.right) && !is_red(node.right.left)`
followed by the conditional `move_red_right` (see `step_left`). -/
def step_right (t : Link α) : Option (Link α) :=
  match t with
  | .node _ _ (.node _ rl _ rred) _ =>
      if !rred && !is_red rl then move_red_rightO t else some t
  | _ => none

/-- The `left_most` search loop of `delete`: `left_most := node.right; for
left_most.left != nil { left_most = left_most.left }`; starting from an
absent link the loop guard dereferences nil (`none`). -/
def leftmostO : Link α → Option α
  | .nil => none
  | .node x .nil _ _ => some x
  | .node _ (.node a b d e) _ _ => leftmostO (.node a b d e)

theorem rotate_left_size (t : Link α) : (rotate_left t).size = t.size := by
  unfold rotate_left
  split <;> simp [Link.size] <;> omega

theorem rotate_right_size (t : Link α) : (rotate_right t).size = t.size := by
  unfold rotate_right
  split <;> simp [Link.size] <;> omega

theorem flip_coloursO_size {t t' : Link α} (h : flip_coloursO t = some t') :
    t'.size = t.size := by
  unfold flip_coloursO at h
  split at h
  · cases h; simp [Link.size]
  · cases h

theorem move_red_leftO_size {t t' : Link α} (h : move_red_leftO t = some t') :
    t'.size = t.size := by
  unfold move_red_leftO at h
  split at h
  · cases h
  next t1 hf =>
    split at h
    next x l rx rl rr rc c =>
      split at h
      · have := flip_coloursO_size h
        rw [this, rotate_left_size]
        simp [Link.size, rotate_right_size, flip_coloursO_size hf]
        have := flip_coloursO_size hf
        simp [Link.size] at this
        omega
      · cases h
        have := flip_coloursO_size hf
        simpa using this
    · cases h

theorem move_red_rightO_size {t t' : Link α} (h : move_red_rightO t = some t') :
    t'.size = t.size := by
  unfold move_red_rightO at h
  split at h
  · cases h
  next t1 hf =>
    split at h
    next x lx ll lr lc r c =>
      split at h
      · have := flip_coloursO_size h
        rw [this, rotate_right_size]
        exact flip_coloursO_size hf
      · cases h
        have := flip_coloursO_size hf
        simpa using this
    · cases h

theorem step_left_size {t t' : Link α} (h : step_left t = some t') :
    t'.size = t.size := by
  unfold step_left at h
  split at h
  · split at h
    · exact move_red_leftO_size h
    · cases h; rfl
  · cases h

theorem step_right_size {t t' : Link α} (h : step_right t = some t') :
    t'.size = t.size := by
  unfold step_right at h
  split at h
  · split at h
    · exact move_red_rightO_size h
    · cases h; rfl
  · cases h

/-- `delete_left_most(node)`: descend strictly left, applying
`move_red_left` as needed, and drop the left-most node (the node whose
left link is absent — note the source then discards that node's right
subtree as well).  `none` models a nil dereference. -/
def delete_left_mostO : Link α → Option (Link α)
  | .nil => none
  | .node _ .nil _ _ => some .nil
  | .node x (.node lx ll lr lc) r c =>
      match h1 : (if !lc && !is_red ll
                  then move_red_leftO (.node x (.node lx ll lr lc) r c)
                  else some (.node x (.node lx ll lr lc) r c)) with
      | none => none
      | some .nil => none
      | some (.node x1 l1 r1 c1) =>
          match delete_left_mostO l1 with
          | none => none
          | some l2 => some (fix_up (.node x1 l2 r1 c1))
termination_by t => t.size
decreasing_by
  split at h1
  · have hs := move_red_leftO_size h1
    simp [Link.size] at hs ⊢
    omega
  · cases h1
    simp [Link.size]
    omega

/-- `delete(node, item)`: the top-down LLRB deletion of the source.  The
receiver of `compare_item` is dereferenced immediately, so calling it on
an absent link panics (`none`), as do the unguarded `node.left.left` /
`node.right.left` reads and `flip_colours` on one-child nodes reached
through `move_red_left` / `move_red_right`. -/
def deleteO (c : α → α → Int) (t : Link α) (item : α) : Option (Link α × Bool) :=
  match t with
  | .nil => none
  | .node x l r co =>
    if c x item > 0 then
      match h1 : step_left (.node x l r co) with
      | none => none
      | some .nil => none
      | some (.node x1 l1 r1 c1) =>
          match deleteO c l1 item with
          | none => none
          | some (l2, d) => some (fix_up (.node x1 l2 r1 c1), d)
    else
      match h2 : (if is_red l then rotate_right (.node x l r co) else .node x l r co) with
      | .nil => none
      | .node y yl yr yc =>
        if (c y item == 0) && yr.isNil then some (.nil, true)
        else
          match h3 : step_right (.node y yl yr yc) with
          | none => none
          | some .nil => none
          | some (.node z zl zr zc) =>
            if c z item == 0 then
              match leftmostO zr with
              | none => none
              | some lm =>
                  match delete_left_mostO zr with
                  | none => none
                  | some zr2 => some (fix_up (.node lm zl zr2 zc), true)
            else
              match deleteO c zr item with
              | none => none
              | some (r2, d) => some (fix_up (.node z zl r2 zc), d)
termination_by t.size
decreasing_by
  · have hs := step_left_size h1
    simp [Link.size] at hs ⊢
    omega
  · have hs := step_right_size h3
    have hr := congrArg Link.size h2
    split at hr
    · rw [rotate_right_size] at hr
      simp [Link.size] at hs hr ⊢
      omega
    · simp [Link.size] at hs hr ⊢
      omega

/-- The tree facade (`ll_rb_tree`): root link, item count and the
duplicate policy flag. -/
structure ll_rb_tree (α : Type) where
  root : Link α
  count : Nat
  keep_duplicates : Bool
deriving Repr, DecidableEq

/-- `this.root.red = false` at the end of the facade's insert and delete:
panics (`none`) when the root is absent. -/
def set_root_black : Link α → Option (Link α)
  | .nil => none
  | .node x l r _ => some (.node x l r false)

/-- Total version of `set_root_black`; used for the insert facade, where
the root is provably non-nil after an insert. -/
def blacken : Link α → Link α
  | .nil => .nil
  | .node x l r _ => .node x l r false

/-- `Make(filtered)`: fresh tree, `keep_duplicates = !filtered`. -/
def Make (α : Type) (filtered : Bool) : ll_rb_tree α := ⟨.nil, 0, !filtered⟩

/-- `ll_rb_tree.insert(item)` exactly as in the source, with the final
`this.root.red = false` modelled by `set_root_black`. -/
def tree_insertO (c : α → α → Int) (t : ll_rb_tree α) (item : α) :
    Option (ll_rb_tree α) :=
  if t.keep_duplicates then
    (set_root_black (insert_keep_duplicates c t.root item)).map
      (fun rt => ⟨rt, t.count + 1, t.keep_duplicates⟩)
  else
    let p := insert c t.root item
    (set_root_black p.1).map
      (fun rt => ⟨rt, if p.2 then t.count + 1 else t.count, t.keep_duplicates⟩)

/-- `ll_rb_tree.insert(item)`, total form (the root returned by either
insert routine is never nil, see `tree_insertO_eq`). -/
def tree_insert (c : α → α → Int) (t : ll_rb_tree α) (item : α) : ll_rb_tree α :=
  if t.keep_duplicates then
    ⟨blacken (insert_keep_duplicates c t.root item), t.count + 1, t.keep_duplicates⟩
  else
    let p := insert c t.root item
    ⟨blacken p.1, if p.2 then t.count + 1 else t.count, t.keep_duplicates⟩

/-- `ll_rb_tree.delete(item)`: no guard for the empty tree, count
decremented only when a node was deleted, root forced black at the end
(a nil dereference when the tree became empty). -/
def tree_delete (c : α → α → Int) (t : ll_rb_tree α) (item : α) :
    Option (ll_rb_tree α) :=
  match deleteO c t.root item with
  | none => none
  | some (root, deleted) =>
    match set_root_black root with
    | none => none
    | some rt =>
        some ⟨rt, if deleted then t.count - 1 else t.count, t.keep_duplicates⟩

/-- The body of `ll_rb_tree.find`'s iterative descent, with the running
iteration count. -/
def find_loop (c : α → α → Int) : Link α → α → Nat → Bool × Nat
  | .nil, _, its => (false, its)
  | .node x l r _, item, its =>
      if c x item > 0 then find_loop c l item (its + 1)
      else if c x item < 0 then find_loop c r item (its + 1)
      else (true, its + 1)

/-- `ll_rb_tree.find(item) -> (found, iterations)`: returns immediately on
a zero count. -/
def find (c : α → α → Int) (t : ll_rb_tree α) (item : α) : Bool × Nat :=
  if t.count = 0 then (false, 0) else find_loop c t.root item 0

/-- `Tree.Has(item)`: the found component of `find`. -/
def tree_has (c : α → α → Int) (t : ll_rb_tree α) (item : α) : Bool :=
  (find c t item).1

/-- The descent of the heteroset `Set.Find` loop, returning the stored
instance that compares equal to the probe (the `llrb_tree` facade's `find`
performs the same descent, recording only the found flag). -/
def find_inst (c : α → α → Int) : Link α → α → Option α
  | .nil, _ => none
  | .node x l r _, item =>
      if c x item > 0 then find_inst c l item
      else if c x item < 0 then find_inst c r item
      else some x

/-- `compare_item` for machine integers: the `Item`/`Precedes` contract
instantiated at `Int` (types equal, then two `Less` probes). -/
def cmpInt (a b : Int) : Int :=
  if a < b then -1 else if b < a then 1 else 0

/-- `compare_item` for key-value pairs whose `Less` compares only the
key, as in the lookup-table use the heteroset documents. -/
def cmpPair (a b : Int × Int) : Int := cmpInt a.1 b.1

theorem flip_colours_size (t : Link α) : (flip_colours t).size = t.size := by
  unfold flip_colours
  split
  · simp [Link.size]
  · rfl

theorem fix_up_size (t : Link α) : (fix_up t).size = t.size := by
  unfold fix_up fix_up1 fix_up2 fix_up3
  split <;> split <;> split <;>
    simp [flip_colours_size, rotate_right_size, rotate_left_size]

theorem rotate_left_inorder (t : Link α) :
    iterate_inorder (rotate_left t) = iterate_inorder t := by
  unfold rotate_left
  split
  · simp [iterate_inorder]
  · rfl

theorem rotate_right_inorder (t : Link α) :
    iterate_inorder (rotate_right t) = iterate_inorder t := by
  unfold rotate_right
  split
  · simp [iterate_inorder]
  · rfl

theorem flip_colours_inorder (t : Link α) :
    iterate_inorder (flip_colours t) = iterate_inorder t := by
  unfold flip_colours
  split
  · simp [iterate_inorder]
  · rfl

theorem fix_up_inorder (t : Link α) :
    iterate_inorder (fix_up t) = iterate_inorder t := by
  unfold fix_up fix_up1 fix_up2 fix_up3
  split <;> split <;> split <;>
    simp [flip_colours_inorder, rotate_right_inorder, rotate_left_inorder]

theorem rotate_left_ne_nil {t : Link α} (h : t ≠ .nil) : rotate_left t ≠ .nil := by
  unfold rotate_left
  split
  · simp
  · exact h

theorem rotate_right_ne_nil {t : Link α} (h : t ≠ .nil) : rotate_right t ≠ .nil := by
  unfold rotate_right
  split
  · simp
  · exact h

theorem flip_colours_ne_nil {t : Link α} (h : t ≠ .nil) : flip_colours t ≠ .nil := by
  unfold flip_colours
  split
  · simp
  · exact h

theorem fix_up_ne_nil {t : Link α} (h : t ≠ .nil) : fix_up t ≠ .nil := by
  unfold fix_up fix_up1 fix_up2 fix_up3
  split <;> split <;> split <;>
    first
    | exact flip_colours_ne_nil (rotate_right_ne_nil (rotate_left_ne_nil h))
    | exact flip_colours_ne_nil (rotate_right_ne_nil h)
    | exact flip_colours_ne_nil (rotate_left_ne_nil h)
    | exact rotate_right_ne_nil (rotate_left_ne_nil h)
    | exact flip_colours_ne_nil h
    | exact rotate_right_ne_nil h
    | exact rotate_left_ne_nil h
    | exact h

theorem insert_fst_ne_nil (c : α → α → Int) (t : Link α) (item : α) :
    (insert c t item).1 ≠ .nil := by
  cases t with
  | nil => simp [insert, new_ll_rb_node]
  | node x l r co =>
      unfold insert
      split
      · exact fix_up_ne_nil (by simp)
      · split
        · exact fix_up_ne_nil (by simp)
        · exact fix_up_ne_nil (by simp)

theorem insert_hetero_fst_ne_nil (c : α → α → Int) (t : Link α) (item : α) :
    (insert_hetero c t item).1 ≠ .nil := by
  cases t with
  | nil => simp [insert_hetero, new_ll_rb_node]
  | node x l r co =>
      unfold insert_hetero
      split
      · exact fix_up_ne_nil (by simp)
      · split
        · exact fix_up_ne_nil (by simp)
        · exact fix_up_ne_nil (by simp)

theorem insert_keep_duplicates_ne_nil (c : α → α → Int) (t : Link α) (item : α) :
    insert_keep_duplicates c t item ≠ .nil := by
  cases t with
  | nil => simp [insert_keep_duplicates, new_ll_rb_node]
  | node x l r co =>
      unfold insert_keep_duplicates
      split
      · exact fix_up_ne_nil (by simp)
      · exact fix_up_ne_nil (by simp)

theorem set_root_black_eq_blacken {t : Link α} (h : t ≠ .nil) :
    set_root_black t = some (blacken t) := by
  cases t with
  | nil => exact absurd rfl h
  | node x l r c => rfl

/-- The faithful insert facade never panics: it agrees with the total
`tree_insert` (the root after an insert is never nil). -/
theorem tree_insertO_eq (c : α → α → Int) (t : ll_rb_tree α) (item : α) :
    tree_insertO c t item = some (tree_insert c t item) := by
  unfold tree_insertO tree_insert
  split
  · rw [set_root_black_eq_blacken (insert_keep_duplicates_ne_nil c t.root item)]
    rfl
  · simp only []
    rw [set_root_black_eq_blacken (insert_fst_ne_nil c t.root item)]
    rfl

/-- The laws the `Item` contract (`Less`/`Precedes` plus the type layer of
`compare_item`) guarantees for the comparison function: antisymmetry and
the transitivity forms used below.  They hold for any comparator derived
from a strict weak order as the Go interface demands. -/
structure LawfulCmp (c : α → α → Int) : Prop where
  swap : ∀ a b, c b a = -c a b
  le_trans : ∀ {a b d}, c a b ≤ 0 → c b d ≤ 0 → c a d ≤ 0
  lt_of_lt_of_le : ∀ {a b d}, c a b < 0 → c b d ≤ 0 → c a d < 0
  lt_of_le_of_lt : ∀ {a b d}, c a b ≤ 0 → c b d < 0 → c a d < 0

theorem lawfulCmpInt : LawfulCmp cmpInt := by
  constructor
  · intro a b
    unfold cmpInt
    rcases lt_trichotomy a b with h | h | h
    · have h1 : ¬ b < a := by omega
      rw [if_neg h1, if_pos h, if_pos h]
      norm_num
    · subst h
      simp
    · have h1 : ¬ a < b := by omega
      rw [if_pos h, if_neg h1, if_pos h]
  all_goals
    intro a b d h1 h2
  all_goals
    unfold cmpInt at h1 h2 ⊢
  all_goals
    split at h1 <;> split at h2 <;> split <;> omega

theorem lawfulCmpPair : LawfulCmp cmpPair := by
  constructor
  · intro a b
    exact lawfulCmpInt.swap a.1 b.1
  · intro a b d h1 h2
    exact lawfulCmpInt.le_trans h1 h2
  · intro a b d h1 h2
    exact lawfulCmpInt.lt_of_lt_of_le h1 h2
  · intro a b d h1 h2
    exact lawfulCmpInt.lt_of_le_of_lt h1 h2

/-- The binary-search-tree property induced by `compare_item`'s descent:
items of the left subtree compare greater-than (the comparator applied at
the node returns positive), items of the right subtree less-than; in the
strict form equal items may appear on neither side, in the weak form
(`strict = false`) equal items are allowed in either subtree, as the
duplicate-preserving insert produces and rotations redistribute. -/
def bst (c : α → α → Int) (strict : Bool) : Link α → Prop
  | .nil => True
  | .node x l r _ =>
      bst c strict l ∧ bst c strict r ∧
      (∀ y ∈ iterate_inorder l, if strict then c x y > 0 else c x y ≥ 0) ∧
      (∀ y ∈ iterate_inorder r, if strict then c x y < 0 else c x y ≤ 0)

instance bst.instDecidable (c : α → α → Int) (strict : Bool) :
    (t : Link α) → Decidable (bst c strict t)
  | .nil => .isTrue trivial
  | .node x l r _ =>
      letI := bst.instDecidable c strict l
      letI := bst.instDecidable c strict r
      decidable_of_iff
        (bst c strict l ∧ bst c strict r ∧
          (∀ y ∈ iterate_inorder l, if strict then c x y > 0 else c x y ≥ 0) ∧
          (∀ y ∈ iterate_inorder r, if strict then c x y < 0 else c x y ≤ 0))
        Iff.rfl

theorem bst_of_strict {c : α → α → Int} {t : Link α} (h : bst c true t) :
    bst c false t := by
  induction t with
  | nil => trivial
  | node x l r co ihl ihr =>
      obtain ⟨h1, h2, h3, h4⟩ := h
      refine ⟨ihl h1, ihr h2, ?_, ?_⟩
      · intro y hy
        have := h3 y hy
        simp at this ⊢
        omega
      · intro y hy
        have := h4 y hy
        simp at this ⊢
        omega

theorem bst_rotate_left {c : α → α → Int} (L : LawfulCmp c) {strict : Bool}
    {t : Link α} (h : bst c strict t) : bst c strict (rotate_left t) := by
  cases t with
  | nil => exact h
  | node x l r c1 =>
      cases r with
      | nil => exact h
      | node y rl rr c2 =>
          obtain ⟨hl, ⟨hrl, hrr, hyL, hyR⟩, hxL, hxR⟩ := h
          rw [rotate_left]
          refine ⟨⟨hl, hrl, hxL, ?_⟩, hrr, ?_, hyR⟩
          · intro z hz
            exact hxR z (by simp [iterate_inorder, hz])
          · intro z hz
            rw [iterate_inorder] at hz
            have hxy := hxR y (by simp [iterate_inorder])
            rcases List.mem_append.mp hz with hz | hz
            · have hxz := hxL z hz
              cases strict with
              | true =>
                  simp at hxy hxz ⊢
                  have h1 : c z x < 0 := by
                    have := L.swap z x
                    omega
                  have h2 : c x y ≤ 0 := by omega
                  have := L.lt_of_lt_of_le h1 h2
                  have := L.swap z y
                  omega
              | false =>
                  simp at hxy hxz ⊢
                  have h1 : c z x ≤ 0 := by
                    have := L.swap z x
                    omega
                  have h2 : c x y ≤ 0 := by omega
                  have := L.le_trans h1 h2
                  have := L.swap z y
                  omega
            · rcases List.mem_cons.mp hz with hz | hz
              · subst hz
                cases strict with
                | true =>
                    simp at hxy ⊢
                    have := L.swap z y
                    omega
                | false =>
                    simp at hxy ⊢
                    have := L.swap z y
                    omega
              · exact hyL z hz

theorem bst_rotate_right {c : α → α → Int} (L : LawfulCmp c) {strict : Bool}
    {t : Link α} (h : bst c strict t) : bst c strict (rotate_right t) := by
  cases t with
  | nil => exact h
  | node x l r c1 =>
      cases l with
      | nil => exact h
      | node y ll lr c2 =>
          obtain ⟨⟨hll, hlr, hyL, hyR⟩, hr, hxL, hxR⟩ := h
          rw [rotate_right]
          refine ⟨hll, ⟨hlr, hr, ?_, hxR⟩, hyL, ?_⟩
          · intro z hz
            exact hxL z (by simp [iterate_inorder, hz])
          · intro z hz
            rw [iterate_inorder] at hz
            have hxy := hxL y (by simp [iterate_inorder])
            rcases List.mem_append.mp hz with hz | hz
            · exact hyR z hz
            · rcases List.mem_cons.mp hz with hz | hz
              · subst hz
                cases strict with
                | true =>
                    simp at hxy ⊢
                    have := L.swap y z
                    omega
                | false =>
                    simp at hxy ⊢
                    have := L.swap y z
                    omega
              · have hxz := hxR z hz
                cases strict with
                | true =>
                    simp at hxy hxz ⊢
                    have h1 : c y x ≤ 0 := by
                      have := L.swap y x
                      omega
                    have := L.lt_of_le_of_lt h1 hxz
                    omega
                | false =>
                    simp at hxy hxz ⊢
                    have h1 : c y x ≤ 0 := by
                      have := L.swap y x
                      omega
                    have := L.le_trans h1 hxz
                    omega

theorem bst_flip_colours {c : α → α → Int} {strict : Bool} {t : Link α}
    (h : bst c strict t) : bst c strict (flip_colours t) := by
  unfold flip_colours
  split
  · obtain ⟨⟨a1, a2, a3, a4⟩, ⟨b1, b2, b3, b4⟩, h3, h4⟩ := h
    refine ⟨⟨a1, a2, a3, a4⟩, ⟨b1, b2, b3, b4⟩, ?_, ?_⟩
    · intro y hy
      exact h3 y (by simpa [iterate_inorder] using hy)
    · intro y hy
      exact h4 y (by simpa [iterate_inorder] using hy)
  · exact h

theorem bst_fix_up {c : α → α → Int} (L : LawfulCmp c) {strict : Bool}
    {t : Link α} (h : bst c strict t) : bst c strict (fix_up t) := by
  unfold fix_up fix_up1 fix_up2 fix_up3
  split
  all_goals split
  all_goals split
  all_goals
    first
    | exact bst_flip_colours (bst_rotate_right L (bst_rotate_left L h))
    | exact bst_rotate_right L (bst_rotate_left L h)
    | exact bst_flip_colours (bst_rotate_left L h)
    | exact bst_rotate_left L h
    | exact bst_flip_colours (bst_rotate_right L h)
    | exact bst_rotate_right L h
    | exact bst_flip_colours h
    | exact h

theorem mem_inorder_insert {c : α → α → Int} {t : Link α} {item z : α}
    (h : z ∈ iterate_inorder (insert c t item).1) :
    z ∈ iterate_inorder t ∨ z = item := by
  induction t with
  | nil =>
      simp [insert, new_ll_rb_node, iterate_inorder] at h
      exact Or.inr h
  | node x l r co ihl ihr =>
      simp only [insert] at h
      split at h
      · rw [fix_up_inorder, iterate_inorder] at h
        rcases List.mem_append.mp h with h | h
        · rcases ihl h with h | h
          · exact Or.inl (by simp [iterate_inorder, h])
          · exact Or.inr h
        · refine Or.inl ?_
          simp only [iterate_inorder, List.mem_append]
          exact Or.inr h
      · split at h
        · rw [fix_up_inorder, iterate_inorder] at h
          rcases List.mem_append.mp h with h | h
          · exact Or.inl (by simp [iterate_inorder, h])
          · rcases List.mem_cons.mp h with h | h
            · exact Or.inl (by simp [iterate_inorder, h])
            · rcases ihr h with h | h
              · exact Or.inl (by simp [iterate_inorder, h])
              · exact Or.inr h
        · rw [fix_up_inorder] at h
          exact Or.inl h

theorem mem_inorder_insert_hetero {c : α → α → Int} {t : Link α} {item z : α}
    (h : z ∈ iterate_inorder (insert_hetero c t item).1) :
    z ∈ iterate_inorder t ∨ z = item := by
  induction t with
  | nil =>
      simp [insert_hetero, new_ll_rb_node, iterate_inorder] at h
      exact Or.inr h
  | node x l r co ihl ihr =>
      simp only [insert_hetero] at h
      split at h
      · rw [fix_up_inorder, iterate_inorder] at h
        rcases List.mem_append.mp h with h | h
        · rcases ihl h with h | h
          · exact Or.inl (by simp [iterate_inorder, h])
          · exact Or.inr h
        · refine Or.inl ?_
          simp only [iterate_inorder, List.mem_append]
          exact Or.inr h
      · split at h
        · rw [fix_up_inorder, iterate_inorder] at h
          rcases List.mem_append.mp h with h | h
          · exact Or.inl (by simp [iterate_inorder, h])
          · rcases List.mem_cons.mp h with h | h
            · exact Or.inl (by simp [iterate_inorder, h])
            · rcases ihr h with h | h
              · exact Or.inl (by simp [iterate_inorder, h])
              · exact Or.inr h
        · rw [fix_up_inorder, iterate_inorder] at h
          rcases List.mem_append.mp h with h | h
          · exact Or.inl (by simp [iterate_inorder, h])
          · rcases List.mem_cons.mp h with h | h
            · exact Or.inr h
            · exact Or.inl (by simp [iterate_inorder, h])

theorem mem_inorder_insert_keep {c : α → α → Int} {t : Link α} {item z : α}
    (h : z ∈ iterate_inorder (insert_keep_duplicates c t item)) :
    z ∈ iterate_inorder t ∨ z = item := by
  induction t with
  | nil =>
      simp [insert_keep_duplicates, new_ll_rb_node, iterate_inorder] at h
      exact Or.inr h
  | node x l r co ihl ihr =>
      rw [insert_keep_duplicates] at h
      split at h
      · rw [fix_up_inorder, iterate_inorder] at h
        rcases List.mem_append.mp h with h | h
        · rcases ihl h with h | h
          · exact Or.inl (by simp [iterate_inorder, h])
          · exact Or.inr h
        · refine Or.inl ?_
          simp only [iterate_inorder, List.mem_append]
          exact Or.inr h
      · rw [fix_up_inorder, iterate_inorder] at h
        rcases List.mem_append.mp h with h | h
        · exact Or.inl (by simp [iterate_inorder, h])
        · rcases List.mem_cons.mp h with h | h
          · exact Or.inl (by simp [iterate_inorder, h])
          · rcases ihr h with h | h
            · exact Or.inl (by simp [iterate_inorder, h])
            · exact Or.inr h

theorem bst_insert {c : α → α → Int} (L : LawfulCmp c) {strict : Bool}
    {t : Link α} (h : bst c strict t) (item : α) :
    bst c strict (insert c t item).1 := by
  induction t with
  | nil =>
      exact ⟨trivial, trivial, by simp [iterate_inorder],
        by simp [iterate_inorder]⟩
  | node x l r co ihl ihr =>
      obtain ⟨h1, h2, h3, h4⟩ := h
      simp only [insert]
      split
      next hc =>
        refine bst_fix_up L ⟨ihl h1, h2, ?_, h4⟩
        intro z hz
        rcases mem_inorder_insert hz with hz | hz
        · exact h3 z hz
        · subst hz
          cases strict <;> simp <;> omega
      next hc =>
        split
        next hc2 =>
          refine bst_fix_up L ⟨h1, ihr h2, h3, ?_⟩
          intro z hz
          rcases mem_inorder_insert hz with hz | hz
          · exact h4 z hz
          · subst hz
            cases strict <;> simp <;> omega
        next hc2 =>
          exact bst_fix_up L ⟨h1, h2, h3, h4⟩

theorem bst_insert_hetero {c : α → α → Int} (L : LawfulCmp c) {strict : Bool}
    {t : Link α} (h : bst c strict t) (item : α) :
    bst c strict (insert_hetero c t item).1 := by
  induction t with
  | nil =>
      exact ⟨trivial, trivial, by simp [iterate_inorder],
        by simp [iterate_inorder]⟩
  | node x l r co ihl ihr =>
      obtain ⟨h1, h2, h3, h4⟩ := h
      simp only [insert_hetero]
      split
      next hc =>
        refine bst_fix_up L ⟨ihl h1, h2, ?_, h4⟩
        intro z hz
        rcases mem_inorder_insert_hetero hz with hz | hz
        · exact h3 z hz
        · subst hz
          cases strict <;> simp <;> omega
      next hc =>
        split
        next hc2 =>
          refine bst_fix_up L ⟨h1, ihr h2, h3, ?_⟩
          intro z hz
          rcases mem_inorder_insert_hetero hz with hz | hz
          · exact h4 z hz
          · subst hz
            cases strict <;> simp <;> omega
        next hc2 =>
          have h0 : c x item = 0 := by omega
          refine bst_fix_up L ⟨h1, h2, ?_, ?_⟩
          · intro z hz
            have h5 := h3 z hz
            have hs := L.swap z x
            have hs2 := L.swap z item
            cases strict
            · simp at h5 ⊢
              have := L.le_trans (show c z x ≤ 0 by omega)
                (show c x item ≤ 0 by omega)
              omega
            · simp at h5 ⊢
              have := L.lt_of_lt_of_le (show c z x < 0 by omega)
                (show c x item ≤ 0 by omega)
              omega
          · intro z hz
            have h5 := h4 z hz
            have hs := L.swap item x
            cases strict
            · simp at h5 ⊢
              exact L.le_trans (show c item x ≤ 0 by omega) h5
            · simp at h5 ⊢
              exact L.lt_of_le_of_lt (show c item x ≤ 0 by omega) h5

theorem bst_insert_keep {c : α → α → Int} (L : LawfulCmp c)
    {t : Link α} (h : bst c false t) (item : α) :
    bst c false (insert_keep_duplicates c t item) := by
  induction t with
  | nil =>
      exact ⟨trivial, trivial, by simp [iterate_inorder],
        by simp [iterate_inorder]⟩
  | node x l r co ihl ihr =>
      obtain ⟨h1, h2, h3, h4⟩ := h
      rw [insert_keep_duplicates]
      split
      next hc =>
        refine bst_fix_up L ⟨ihl h1, h2, ?_, h4⟩
        intro z hz
        rcases mem_inorder_insert_keep hz with hz | hz
        · exact h3 z hz
        · subst hz
          simp
          omega
      next hc =>
        refine bst_fix_up L ⟨h1, ihr h2, h3, ?_⟩
        intro z hz
        rcases mem_inorder_insert_keep hz with hz | hz
        · exact h4 z hz
        · subst hz
          simp
          omega

theorem bst_blacken {c : α → α → Int} {strict : Bool} {t : Link α}
    (h : bst c strict t) : bst c strict (blacken t) := by
  cases t with
  | nil => trivial
  | node x l r co => exact h

theorem bst_tree_insert {c : α → α → Int} (L : LawfulCmp c)
    {t : ll_rb_tree α} (h : bst c false t.root) (item : α) :
    bst c false (tree_insert c t item).root := by
  unfold tree_insert
  split
  · exact bst_blacken (bst_insert_keep L h item)
  · exact bst_blacken (bst_insert L h item)

theorem bst_foldl_tree_insert {c : α → α → Int} (L : LawfulCmp c)
    (xs : List α) (t : ll_rb_tree α) (h : bst c false t.root) :
    bst c false (xs.foldl (tree_insert c) t).root := by
  induction xs generalizing t with
  | nil => exact h
  | cons x xs ih =>
      exact ih (tree_insert c t x) (bst_tree_insert L h x)

theorem bst_pairwise_le {c : α → α → Int} (L : LawfulCmp c) {t : Link α}
    (h : bst c false t) :
    (iterate_inorder t).Pairwise (fun a b => c a b ≤ 0) := by
  induction t with
  | nil => simp [iterate_inorder]
  | node x l r co ihl ihr =>
      obtain ⟨h1, h2, h3, h4⟩ := h
      rw [iterate_inorder, List.pairwise_append]
      refine ⟨ihl h1, ?_, ?_⟩
      · rw [List.pairwise_cons]
        refine ⟨?_, ihr h2⟩
        intro z hz
        simpa using h4 z hz
      · intro a ha b hb
        have hax : c x a ≥ 0 := by simpa using h3 a ha
        have h5 : c a x ≤ 0 := by
          have := L.swap a x
          omega
        rcases List.mem_cons.mp hb with hb | hb
        · subst hb
          exact h5
        · have hxb : c x b ≤ 0 := by simpa using h4 b hb
          exact L.le_trans h5 hxb

theorem bst_pairwise_lt {c : α → α → Int} (L : LawfulCmp c) {t : Link α}
    (h : bst c true t) :
    (iterate_inorder t).Pairwise (fun a b => c a b < 0) := by
  induction t with
  | nil => simp [iterate_inorder]
  | node x l r co ihl ihr =>
      obtain ⟨h1, h2, h3, h4⟩ := h
      rw [iterate_inorder, List.pairwise_append]
      refine ⟨ihl h1, ?_, ?_⟩
      · rw [List.pairwise_cons]
        refine ⟨?_, ihr h2⟩
        intro z hz
        simpa using h4 z hz
      · intro a ha b hb
        have hax : c x a > 0 := by simpa using h3 a ha
        have h5 : c a x < 0 := by
          have := L.swap a x
          omega
        rcases List.mem_cons.mp hb with hb | hb
        · subst hb
          exact h5
        · have hxb : c x b < 0 := by simpa using h4 b hb
          exact L.lt_of_lt_of_le h5 (le_of_lt hxb)

theorem iterate_reverseorder_eq_reverse (t : Link α) :
    iterate_reverseorder t = (iterate_inorder t).reverse := by
  induction t with
  | nil => rfl
  | node x l r co ihl ihr =>
      rw [iterate_reverseorder, iterate_inorder, ihl, ihr]
      simp

/-- C7: for every tree built by any sequence of public inserts (either
policy, chosen by the `filtered` flag of `Make`) under a comparator
satisfying the `Item` ordering contract, the `IN_ORDER` traversal emits
the stored items in non-decreasing comparator order, and the
`REVERSE_ORDER` traversal emits them in non-increasing order. -/
theorem C7_traversal_sorted {α : Type} (c : α → α → Int) (L : LawfulCmp c)
    (filtered : Bool) (xs : List α) :
    (iterate_inorder (xs.foldl (tree_insert c) (Make α filtered)).root).Pairwise
      (fun a b => c a b ≤ 0) ∧
    (iterate_reverseorder
        (xs.foldl (tree_insert c) (Make α filtered)).root).Pairwise
      (fun a b => c b a ≤ 0) := by
  have hb : bst c false (xs.foldl (tree_insert c) (Make α filtered)).root :=
    bst_foldl_tree_insert L xs (Make α filtered) trivial
  refine ⟨bst_pairwise_le L hb, ?_⟩
  rw [iterate_reverseorder_eq_reverse, List.pairwise_reverse]
  exact bst_pairwise_le L hb

theorem C7_witness :
    LawfulCmp cmpInt ∧
    (((iterate_inorder
        (([5, 3, 8, 3, 1] : List Int).foldl (tree_insert cmpInt)
          (Make Int true)).root).Pairwise (fun a b => cmpInt a b ≤ 0) ∧
      (iterate_reverseorder
        (([5, 3, 8, 3, 1] : List Int).foldl (tree_insert cmpInt)
          (Make Int true)).root).Pairwise (fun a b => cmpInt b a ≤ 0)) ∧
     ((iterate_inorder
        (([5, 3, 8, 3, 1] : List Int).foldl (tree_insert cmpInt)
          (Make Int false)).root).Pairwise (fun a b => cmpInt a b ≤ 0) ∧
      (iterate_reverseorder
        (([5, 3, 8, 3, 1] : List Int).foldl (tree_insert cmpInt)
          (Make Int false)).root).Pairwise (fun a b => cmpInt b a ≤ 0))) :=
  ⟨lawfulCmpInt,
    C7_traversal_sorted cmpInt lawfulCmpInt true [5, 3, 8, 3, 1],
    C7_traversal_sorted cmpInt lawfulCmpInt false [5, 3, 8, 3, 1]⟩

/-- Structural validity of the red/black colouring as the LLRB insert
maintains it: the right child of every node is black (red links lean
left) and a red node never has a red left child; the root itself may be
red. -/
def okN : Link α → Prop
  | .nil => True
  | .node _ l r co =>
      okN l ∧ okN r ∧ is_red r = false ∧ (co = true → is_red l = false)

/-- `okN` weakened at the root only: the subtree returned by `insert` may
carry one pending violation, a red root whose left child is also red; the
caller's `fix_up` repairs it one level up. -/
def okd : Link α → Prop
  | .nil => True
  | .node _ l r _ => okN l ∧ okN r ∧ is_red r = false

/-- Perfect black balance: every path from the root to an absent link
passes the same number `n` of black nodes. -/
inductive Bal : Nat → Link α → Prop
  | nil : Bal 0 .nil
  | red {n : Nat} {x : α} {l r : Link α} :
      Bal n l → Bal n r → Bal n (.node x l r true)
  | black {n : Nat} {x : α} {l r : Link α} :
      Bal n l → Bal n r → Bal (n + 1) (.node x l r false)

theorem okd_of_okN {t : Link α} (h : okN t) : okd t := by
  cases t with
  | nil => trivial
  | node x l r co => exact ⟨h.1, h.2.1, h.2.2.1⟩

theorem okN_of_okd_black {t : Link α} (h : okd t) (hb : is_red t = false) :
    okN t := by
  cases t with
  | nil => trivial
  | node x l r co =>
      simp [is_red] at hb
      exact ⟨h.1, h.2.1, h.2.2, fun hh => absurd hh (by simp [hb])⟩

theorem okN_of_okd_left_black {t : Link α} (h : okd t)
    (hb : is_red t.left = false) : okN t := by
  cases t with
  | nil => trivial
  | node x l r co => exact ⟨h.1, h.2.1, h.2.2, fun _ => hb⟩

theorem okN_no_redred {t : Link α} (h : okN t) :
    (is_red t && is_red t.left) = false := by
  cases t with
  | nil => rfl
  | node x l r co =>
      cases co with
      | false => simp [is_red]
      | true =>
          have hb := h.2.2.2 rfl
          show (is_red (Link.node x l r true) && is_red l) = false
          rw [hb, Bool.and_false]

theorem okN_recolor {x : α} {l r : Link α} {co : Bool}
    (h : okN (Link.node x l r co)) : okN (Link.node x l r false) :=
  ⟨h.1, h.2.1, h.2.2.1, fun hh => Bool.noConfusion hh⟩

theorem fix_up1_of_black_right {t : Link α} (h : is_red t.right = false) :
    fix_up1 t = t := by
  unfold fix_up1
  rw [h]
  rfl

theorem fix_up1_of_red_left {t : Link α} (h : is_red t.left = true) :
    fix_up1 t = t := by
  unfold fix_up1
  rw [h]
  simp

theorem fix_up1_fires {t : Link α} (h1 : is_red t.right = true)
    (h2 : is_red t.left = false) : fix_up1 t = rotate_left t := by
  unfold fix_up1
  rw [h1, h2]
  rfl

theorem fix_up2_of_black_left {t : Link α} (h : is_red t.left = false) :
    fix_up2 t = t := by
  unfold fix_up2
  rw [h]
  rfl

theorem fix_up2_of_black_leftleft {t : Link α}
    (h : is_red t.left.left = false) : fix_up2 t = t := by
  unfold fix_up2
  rw [h, Bool.and_false]
  rfl

theorem fix_up2_of_no_redred {t : Link α}
    (h : (is_red t.left && is_red t.left.left) = false) : fix_up2 t = t := by
  unfold fix_up2
  rw [h]
  rfl

theorem fix_up2_fires {t : Link α} (h1 : is_red t.left = true)
    (h2 : is_red t.left.left = true) : fix_up2 t = rotate_right t := by
  unfold fix_up2
  rw [h1, h2]
  rfl

theorem fix_up3_of_black_left {t : Link α} (h : is_red t.left = false) :
    fix_up3 t = t := by
  unfold fix_up3
  rw [h]
  rfl

theorem fix_up3_of_black_right {t : Link α} (h : is_red t.right = false) :
    fix_up3 t = t := by
  unfold fix_up3
  rw [h, Bool.and_false]
  rfl

theorem fix_up3_fires {t : Link α} (h1 : is_red t.left = true)
    (h2 : is_red t.right = true) : fix_up3 t = flip_colours t := by
  unfold fix_up3
  rw [h1, h2]
  rfl

/-- Shape of `fix_up(node{x, l', r, co})` after an insert descended left:
`l'` may carry a root violation (`okd`), the untouched `r` is black. -/
theorem fix_up_shape_left {x : α} {l' r : Link α} {b : Bool} {m : Nat}
    (hd : okd l') (hbl : Bal m l') (hr : okN r) (hbr : Bal m r)
    (hrb : is_red r = false) (hred : b = true → okN l') :
    okd (fix_up (Link.node x l' r b)) ∧
    Bal (if b = true then m else m + 1) (fix_up (Link.node x l' r b)) ∧
    (b = false → okN (fix_up (Link.node x l' r b))) := by
  have e1 : fix_up1 (Link.node x l' r b) = Link.node x l' r b :=
    fix_up1_of_black_right (t := Link.node x l' r b) hrb
  cases hcl : is_red l' with
  | false =>
      have e2 : fix_up2 (Link.node x l' r b) = Link.node x l' r b :=
        fix_up2_of_black_left (t := Link.node x l' r b) hcl
      have e3 : fix_up3 (Link.node x l' r b) = Link.node x l' r b :=
        fix_up3_of_black_left (t := Link.node x l' r b) hcl
      have hR : fix_up (Link.node x l' r b) = Link.node x l' r b := by
        rw [fix_up, e1, e2, e3]
      rw [hR]
      refine ⟨⟨okN_of_okd_black hd hcl, hr, hrb⟩, ?_, ?_⟩
      · cases b with
        | true => exact Bal.red hbl hbr
        | false => exact Bal.black hbl hbr
      · intro hcof
        subst hcof
        exact ⟨okN_of_okd_black hd hcl, hr, hrb, fun hh => Bool.noConfusion hh⟩
  | true =>
      cases hll : l' with
      | nil => rw [hll] at hcl; exact absurd hcl (by simp [is_red])
      | node w wl wr cw =>
          rw [hll] at hcl
          simp only [is_red] at hcl
          subst hcl
          rw [hll] at hd hbl hred e1
          obtain ⟨hwl, hwr, hwrb⟩ := hd
          have hbwl : Bal m wl ∧ Bal m wr := by
            cases hbl with
            | red a b => exact ⟨a, b⟩
          cases hwlc : is_red wl with
          | false =>
              have e2 : fix_up2 (Link.node x (Link.node w wl wr true) r b) =
                  Link.node x (Link.node w wl wr true) r b :=
                fix_up2_of_black_leftleft
                  (t := Link.node x (Link.node w wl wr true) r b) hwlc
              have e3 : fix_up3 (Link.node x (Link.node w wl wr true) r b) =
                  Link.node x (Link.node w wl wr true) r b :=
                fix_up3_of_black_right
                  (t := Link.node x (Link.node w wl wr true) r b) hrb
              have hR : fix_up (Link.node x (Link.node w wl wr true) r b) =
                  Link.node x (Link.node w wl wr true) r b := by
                rw [fix_up, e1, e2, e3]
              rw [hR]
              refine ⟨⟨⟨hwl, hwr, hwrb, fun _ => hwlc⟩, hr, hrb⟩, ?_, ?_⟩
              · cases b with
                | true => exact Bal.red (Bal.red hbwl.1 hbwl.2) hbr
                | false => exact Bal.black (Bal.red hbwl.1 hbwl.2) hbr
              · intro hcof
                subst hcof
                exact ⟨⟨hwl, hwr, hwrb, fun _ => hwlc⟩, hr, hrb,
                  fun hh => Bool.noConfusion hh⟩
          | true =>
              have hcof : b = false := by
                cases b with
                | false => rfl
                | true =>
                    have h9 := hred rfl
                    rw [h9.2.2.2 rfl] at hwlc
                    exact Bool.noConfusion hwlc
              subst hcof
              cases hwl' : wl with
              | nil => rw [hwl'] at hwlc; exact absurd hwlc (by simp [is_red])
              | node u a b cu =>
                  rw [hwl'] at hwlc
                  simp only [is_red] at hwlc
                  subst hwlc
                  rw [hwl'] at hwl hbwl e1
                  have hbab : Bal m a ∧ Bal m b := by
                    cases hbwl.1 with
                    | red p q => exact ⟨p, q⟩
                  have e2 : fix_up2 (Link.node x
                        (Link.node w (Link.node u a b true) wr true) r false) =
                      Link.node w (Link.node u a b true)
                        (Link.node x wr r true) false :=
                    fix_up2_fires (t := Link.node x
                        (Link.node w (Link.node u a b true) wr true) r false)
                      rfl rfl
                  have e3 : fix_up3 (Link.node w (Link.node u a b true)
                        (Link.node x wr r true) false) =
                      Link.node w (Link.node u a b false)
                        (Link.node x wr r false) true :=
                    fix_up3_fires (t := Link.node w (Link.node u a b true)
                        (Link.node x wr r true) false) rfl rfl
                  have hR : fix_up (Link.node x
                        (Link.node w (Link.node u a b true) wr true) r false) =
                      Link.node w (Link.node u a b false)
                        (Link.node x wr r false) true := by
                    rw [fix_up, e1, e2, e3]
                  rw [hR]
                  refine ⟨⟨okN_recolor hwl, ⟨hwr, hr, hrb,
                    fun hh => Bool.noConfusion hh⟩, rfl⟩, ?_, ?_⟩
                  · exact Bal.red (Bal.black hbab.1 hbab.2)
                      (Bal.black hbwl.2 hbr)
                  · intro _
                    exact ⟨okN_recolor hwl, ⟨hwr, hr, hrb,
                      fun hh => Bool.noConfusion hh⟩, rfl, fun _ => rfl⟩

/-- Shape of `fix_up(node{x, l, r', b})` after an insert descended right
(or stopped at the node): the untouched `l` is fully valid, and `r'`,
grown from a black subtree, is fully valid too (possibly red-rooted). -/
theorem fix_up_shape_right {x : α} {l r' : Link α} {b : Bool} {m : Nat}
    (hl : okN l) (hbl : Bal m l) (hr : okN r') (hbr : Bal m r')
    (hco : b = true → is_red l = false) :
    okd (fix_up (Link.node x l r' b)) ∧
    Bal (if b = true then m else m + 1) (fix_up (Link.node x l r' b)) ∧
    (b = false → okN (fix_up (Link.node x l r' b))) := by
  have hnr : (is_red (Link.node x l r' b).left &&
      is_red (Link.node x l r' b).left.left) = false := okN_no_redred hl
  cases hcr : is_red r' with
  | false =>
      have e1 : fix_up1 (Link.node x l r' b) = Link.node x l r' b :=
        fix_up1_of_black_right (t := Link.node x l r' b) hcr
      have e2 : fix_up2 (Link.node x l r' b) = Link.node x l r' b :=
        fix_up2_of_no_redred (t := Link.node x l r' b) hnr
      have e3 : fix_up3 (Link.node x l r' b) = Link.node x l r' b :=
        fix_up3_of_black_right (t := Link.node x l r' b) hcr
      have hR : fix_up (Link.node x l r' b) = Link.node x l r' b := by
        rw [fix_up, e1, e2, e3]
      rw [hR]
      refine ⟨⟨hl, hr, hcr⟩, ?_, ?_⟩
      · cases b with
        | true => exact Bal.red hbl hbr
        | false => exact Bal.black hbl hbr
      · intro hcof
        subst hcof
        exact ⟨hl, hr, hcr, fun hh => Bool.noConfusion hh⟩
  | true =>
      cases hrr : r' with
      | nil => rw [hrr] at hcr; exact absurd hcr (by simp [is_red])
      | node y yl yr cy =>
          rw [hrr] at hcr
          simp only [is_red] at hcr
          subst hcr
          rw [hrr] at hr hbr
          obtain ⟨hyl, hyr, hyrb, hylb⟩ := hr
          have hbyl : Bal m yl ∧ Bal m yr := by
            cases hbr with
            | red a b => exact ⟨a, b⟩
          cases hlc : is_red l with
          | false =>
              have e1 : fix_up1 (Link.node x l (Link.node y yl yr true) b) =
                  rotate_left (Link.node x l (Link.node y yl yr true) b) :=
                fix_up1_fires
                  (t := Link.node x l (Link.node y yl yr true) b) rfl hlc
              have e1' : rotate_left (Link.node x l (Link.node y yl yr true) b) =
                  Link.node y (Link.node x l yl true) yr b := rfl
              have e2 : fix_up2 (Link.node y (Link.node x l yl true) yr b) =
                  Link.node y (Link.node x l yl true) yr b :=
                fix_up2_of_black_leftleft
                  (t := Link.node y (Link.node x l yl true) yr b) hlc
              have e3 : fix_up3 (Link.node y (Link.node x l yl true) yr b) =
                  Link.node y (Link.node x l yl true) yr b :=
                fix_up3_of_black_right
                  (t := Link.node y (Link.node x l yl true) yr b) hyrb
              have hR : fix_up (Link.node x l (Link.node y yl yr true) b) =
                  Link.node y (Link.node x l yl true) yr b := by
                rw [fix_up, e1, e1', e2, e3]
              rw [hR]
              refine ⟨⟨⟨hl, hyl, hylb rfl, fun _ => hlc⟩, hyr, hyrb⟩, ?_, ?_⟩
              · cases b with
                | true => exact Bal.red (Bal.red hbl hbyl.1) hbyl.2
                | false => exact Bal.black (Bal.red hbl hbyl.1) hbyl.2
              · intro hcof
                subst hcof
                exact ⟨⟨hl, hyl, hylb rfl, fun _ => hlc⟩, hyr, hyrb,
                  fun hh => Bool.noConfusion hh⟩
          | true =>
              have hcof : b = false := by
                cases b with
                | false => rfl
                | true =>
                    rw [hco rfl] at hlc
                    exact Bool.noConfusion hlc
              subst hcof
              cases hl' : l with
              | nil => rw [hl'] at hlc; exact absurd hlc (by simp [is_red])
              | node u a b cu =>
                  rw [hl'] at hlc
                  simp only [is_red] at hlc
                  subst hlc
                  rw [hl'] at hl hbl hnr
                  have hbab : Bal m a ∧ Bal m b := by
                    cases hbl with
                    | red p q => exact ⟨p, q⟩
                  have e1 : fix_up1 (Link.node x (Link.node u a b true)
                        (Link.node y yl yr true) false) =
                      Link.node x (Link.node u a b true)
                        (Link.node y yl yr true) false :=
                    fix_up1_of_red_left (t := Link.node x (Link.node u a b true)
                        (Link.node y yl yr true) false) rfl
                  have e2 : fix_up2 (Link.node x (Link.node u a b true)
                        (Link.node y yl yr true) false) =
                      Link.node x (Link.node u a b true)
                        (Link.node y yl yr true) false :=
                    fix_up2_of_no_redred (t := Link.node x (Link.node u a b true)
                        (Link.node y yl yr true) false) hnr
                  have e3 : fix_up3 (Link.node x (Link.node u a b true)
                        (Link.node y yl yr true) false) =
                      Link.node x (Link.node u a b false)
                        (Link.node y yl yr false) true :=
                    fix_up3_fires (t := Link.node x (Link.node u a b true)
                        (Link.node y yl yr true) false) rfl rfl
                  have hR : fix_up (Link.node x (Link.node u a b true)
                        (Link.node y yl yr true) false) =
                      Link.node x (Link.node u a b false)
                        (Link.node y yl yr false) true := by
                    rw [fix_up, e1, e2, e3]
                  rw [hR]
                  refine ⟨⟨okN_recolor hl, okN_recolor ⟨hyl, hyr, hyrb, hylb⟩,
                    rfl⟩, ?_, ?_⟩
                  · exact Bal.red (Bal.black hbab.1 hbab.2)
                      (Bal.black hbyl.1 hbyl.2)
                  · intro _
                    exact ⟨okN_recolor hl, okN_recolor ⟨hyl, hyr, hyrb, hylb⟩,
                      rfl, fun _ => rfl⟩

/-- The filtering insert keeps the tree an LLRB tree: the result is valid
up to one pending red-red violation at its root (repaired by the caller),
black balance is preserved exactly, and inserting below a black root
leaves no violation at all. -/
theorem insert_shape {c : α → α → Int} (item : α) {t : Link α} {n : Nat}
    (hok : okN t) (hbal : Bal n t) :
    okd (insert c t item).1 ∧ Bal n (insert c t item).1 ∧
      (is_red t = false → okN (insert c t item).1) := by
  induction t generalizing n with
  | nil =>
      cases hbal
      exact ⟨⟨trivial, trivial, rfl⟩, Bal.red Bal.nil Bal.nil,
        fun _ => ⟨trivial, trivial, rfl, fun _ => rfl⟩⟩
  | node x l r co ihl ihr =>
      obtain ⟨hl, hr, hrb, hco⟩ := hok
      have hinv : ∃ m, Bal m l ∧ Bal m r ∧
          n = (if co = true then m else m + 1) := by
        cases hbal with
        | red hbl hbr => exact ⟨_, hbl, hbr, by simp⟩
        | black hbl hbr => exact ⟨_, hbl, hbr, by simp⟩
      obtain ⟨m, hbl, hbr, hn⟩ := hinv
      simp only [insert]
      split
      next hc =>
        obtain ⟨ih1, ih2, ih3⟩ := ihl hl hbl
        have H := fix_up_shape_left (x := x) (b := co) ih1 ih2 hr hbr hrb
          (fun hcot => ih3 (hco hcot))
        refine ⟨H.1, ?_, ?_⟩
        · rw [hn]
          exact H.2.1
        · intro h
          simp only [is_red] at h
          exact H.2.2 h
      next hc =>
        split
        next hc2 =>
          obtain ⟨ih1, ih2, ih3⟩ := ihr hr hbr
          have H := fix_up_shape_right (x := x) (b := co) hl hbl
            (ih3 hrb) ih2 hco
          refine ⟨H.1, ?_, ?_⟩
          · rw [hn]
            exact H.2.1
          · intro h
            simp only [is_red] at h
            exact H.2.2 h
        next hc2 =>
          have H := fix_up_shape_right (x := x) (b := co) hl hbl hr hbr hco
          refine ⟨H.1, ?_, ?_⟩
          · rw [hn]
            exact H.2.1
          · intro h
            simp only [is_red] at h
            exact H.2.2 h

/-- The duplicate-preserving insert maintains the same shape invariants. -/
theorem insert_keep_shape {c : α → α → Int} (item : α) {t : Link α} {n : Nat}
    (hok : okN t) (hbal : Bal n t) :
    okd (insert_keep_duplicates c t item) ∧
      Bal n (insert_keep_duplicates c t item) ∧
      (is_red t = false → okN (insert_keep_duplicates c t item)) := by
  induction t generalizing n with
  | nil =>
      cases hbal
      exact ⟨⟨trivial, trivial, rfl⟩, Bal.red Bal.nil Bal.nil,
        fun _ => ⟨trivial, trivial, rfl, fun _ => rfl⟩⟩
  | node x l r co ihl ihr =>
      obtain ⟨hl, hr, hrb, hco⟩ := hok
      have hinv : ∃ m, Bal m l ∧ Bal m r ∧
          n = (if co = true then m else m + 1) := by
        cases hbal with
        | red hbl hbr => exact ⟨_, hbl, hbr, by simp⟩
        | black hbl hbr => exact ⟨_, hbl, hbr, by simp⟩
      obtain ⟨m, hbl, hbr, hn⟩ := hinv
      rw [insert_keep_duplicates]
      split
      next hc =>
        obtain ⟨ih1, ih2, ih3⟩ := ihl hl hbl
        have H := fix_up_shape_left (x := x) (b := co) ih1 ih2 hr hbr hrb
          (fun hcot => ih3 (hco hcot))
        refine ⟨H.1, ?_, ?_⟩
        · rw [hn]
          exact H.2.1
        · intro h
          simp only [is_red] at h
          exact H.2.2 h
      next hc =>
        obtain ⟨ih1, ih2, ih3⟩ := ihr hr hbr
        have H := fix_up_shape_right (x := x) (b := co) hl hbl
          (ih3 hrb) ih2 hco
        refine ⟨H.1, ?_, ?_⟩
        · rw [hn]
          exact H.2.1
        · intro h
          simp only [is_red] at h
          exact H.2.2 h

theorem Bal_size {t : Link α} {n : Nat} (h : Bal n t) : 2 ^ n ≤ t.size + 1 := by
  induction h with
  | nil => simp [Link.size]
  | red hl hr ihl ihr =>
      simp only [Link.size]
      omega
  | black hl hr ihl ihr =>
      simp only [Link.size]
      rw [pow_succ]
      omega

/-- On a valid LLRB subtree of black height `n` the depth is at most
`2n + 1`, and at most `2n` when the root is black. -/
theorem okN_depth {t : Link α} {n : Nat} (hbal : Bal n t) :
    okN t → t.depth ≤ 2 * n + 1 ∧ (is_red t = false → t.depth ≤ 2 * n) := by
  induction hbal with
  | nil =>
      intro _
      exact ⟨by simp [Link.depth], fun _ => by simp [Link.depth]⟩
  | red hbl hbr ihl ihr =>
      intro hok
      obtain ⟨h1, h2, h3, h4⟩ := hok
      have dl := (ihl h1).2 (h4 rfl)
      have dr := (ihr h2).2 h3
      constructor
      · simp only [Link.depth]
        omega
      · intro h
        simp only [is_red] at h
        exact Bool.noConfusion h
  | black hbl hbr ihl ihr =>
      intro hok
      obtain ⟨h1, h2, h3, h4⟩ := hok
      have dl := (ihl h1).1
      have dr := (ihr h2).2 h3
      refine ⟨?_, fun _ => ?_⟩ <;>
      · simp only [Link.depth]
        omega

theorem insert_size_le {c : α → α → Int} (t : Link α) (item : α) :
    (insert c t item).1.size ≤ t.size + 1 := by
  induction t with
  | nil => simp [insert, new_ll_rb_node, Link.size]
  | node x l r co ihl ihr =>
      simp only [insert]
      split
      · simp only [fix_up_size, Link.size]
        omega
      · split
        · simp only [fix_up_size, Link.size]
          omega
        · simp only [fix_up_size, Link.size]
          omega

theorem insert_keep_size (c : α → α → Int) (t : Link α) (item : α) :
    (insert_keep_duplicates c t item).size = t.size + 1 := by
  induction t with
  | nil => simp [insert_keep_duplicates, new_ll_rb_node, Link.size]
  | node x l r co ihl ihr =>
      rw [insert_keep_duplicates]
      split
      · simp only [fix_up_size, Link.size]
        omega
      · simp only [fix_up_size, Link.size]
        omega

theorem okN_blacken {t : Link α} (h : okN t) : okN (blacken t) := by
  cases t with
  | nil => trivial
  | node x l r co => exact okN_recolor h

theorem is_red_blacken (t : Link α) : is_red (blacken t) = false := by
  cases t <;> rfl

theorem Bal_blacken {t : Link α} {n : Nat} (h : Bal n t) :
    ∃ k, Bal k (blacken t) := by
  cases h with
  | nil => exact ⟨0, Bal.nil⟩
  | red hl hr => exact ⟨_, Bal.black hl hr⟩
  | black hl hr => exact ⟨_, Bal.black hl hr⟩

theorem blacken_size (t : Link α) : (blacken t).size = t.size := by
  cases t <;> rfl

theorem blacken_depth (t : Link α) : (blacken t).depth = t.depth := by
  cases t <;> rfl

/-- Facade-level invariant after any number of public inserts: the root
is a valid black-rooted LLRB tree. -/
def rootShapeInv (t : ll_rb_tree α) : Prop :=
  ∃ n, okN t.root ∧ Bal n t.root ∧ is_red t.root = false

theorem rootShapeInv_Make (α : Type) (filtered : Bool) :
    rootShapeInv (Make α filtered) :=
  ⟨0, trivial, Bal.nil, rfl⟩

theorem tree_insert_shape {c : α → α → Int} {t : ll_rb_tree α} (item : α)
    (h : rootShapeInv t) :
    rootShapeInv (tree_insert c t item) ∧
      (tree_insert c t item).root.size ≤ t.root.size + 1 := by
  obtain ⟨n, hok, hbal, hblack⟩ := h
  unfold tree_insert
  split
  · obtain ⟨h1, h2, h3⟩ := insert_keep_shape (c := c) item hok hbal
    obtain ⟨k, hk⟩ := Bal_blacken h2
    exact ⟨⟨k, okN_blacken (h3 hblack), hk, is_red_blacken _⟩,
      by simp [blacken_size, insert_keep_size]⟩
  · obtain ⟨h1, h2, h3⟩ := insert_shape (c := c) item hok hbal
    obtain ⟨k, hk⟩ := Bal_blacken h2
    exact ⟨⟨k, okN_blacken (h3 hblack), hk, is_red_blacken _⟩,
      by simp [blacken_size, insert_size_le]⟩

theorem foldl_tree_insert_shape (c : α → α → Int) (xs : List α)
    (t : ll_rb_tree α) (h : rootShapeInv t) :
    rootShapeInv (xs.foldl (tree_insert c) t) ∧
      (xs.foldl (tree_insert c) t).root.size ≤ t.root.size + xs.length := by
  induction xs generalizing t with
  | nil => exact ⟨h, by simp⟩
  | cons x xs ih =>
      obtain ⟨h1, h2⟩ := tree_insert_shape (c := c) x h
      obtain ⟨h3, h4⟩ := ih (tree_insert c t x) h1
      refine ⟨h3, ?_⟩
      simp only [List.foldl_cons, List.length_cons]
      omega

/-- C6: after `N` insertions into a fresh tree (either policy, any
insertion order, no deletions) the depth of the resulting tree is at most
`2 * ⌈log2 (N + 1)⌉`. -/
theorem C6_insert_depth_bound {α : Type} (c : α → α → Int) (filtered : Bool)
    (xs : List α) :
    ((xs.foldl (tree_insert c) (Make α filtered)).root).depth ≤
      2 * Nat.clog 2 (xs.length + 1) := by
  obtain ⟨⟨n, hok, hbal, hblack⟩, hsize⟩ :=
    foldl_tree_insert_shape c xs (Make α filtered)
      (rootShapeInv_Make α filtered)
  have hd := (okN_depth hbal hok).2 hblack
  have hs : 2 ^ n ≤ xs.length + 1 := by
    have hBS := Bal_size hbal
    have h0 : (Make α filtered).root.size = 0 := rfl
    rw [h0] at hsize
    omega
  have hn : n ≤ Nat.clog 2 (xs.length + 1) := by
    have h1 : xs.length + 1 ≤ 2 ^ Nat.clog 2 (xs.length + 1) :=
      Nat.le_pow_clog (by norm_num) _
    have h2 : (2 : Nat) ^ n ≤ 2 ^ Nat.clog 2 (xs.length + 1) :=
      le_trans hs h1
    exact (Nat.pow_le_pow_iff_right (by norm_num)).mp h2
  omega

/-- When the search descent finds a stored item comparing equal to the
probe, the `llrb_tree` filtering insert reports no insertion and leaves
the stored sequence of items (hence the matched item) untouched. -/
theorem insert_found (c : α → α → Int) (t : Link α) (item x : α)
    (h : find_inst c t item = some x) :
    (insert c t item).2 = false ∧
    iterate_inorder (insert c t item).1 = iterate_inorder t := by
  induction t with
  | nil => simp [find_inst] at h
  | node x0 l r co ihl ihr =>
      unfold find_inst at h
      unfold insert
      split at h
      next hgt =>
        obtain ⟨h1, h2⟩ := ihl h
        simp only [if_pos hgt]
        refine ⟨h1, ?_⟩
        rw [fix_up_inorder]
        simp [iterate_inorder, h2]
      next hgt =>
        split at h
        next hlt =>
          obtain ⟨h1, h2⟩ := ihr h
          simp only [if_neg hgt, if_pos hlt]
          refine ⟨h1, ?_⟩
          rw [fix_up_inorder]
          simp [iterate_inorder, h2]
        next hlt =>
          simp only [if_neg hgt, if_neg hlt]
          exact ⟨trivial, fix_up_inorder _⟩

/-- When the search descent finds a stored item `x` comparing equal to the
probe, the heteroset insert reports no insertion and replaces `x` by the
new item at its position in the stored sequence. -/
theorem insert_hetero_found (c : α → α → Int) (t : Link α) (item x : α)
    (h : find_inst c t item = some x) :
    (insert_hetero c t item).2 = false ∧
    ∃ pre post, iterate_inorder t = pre ++ x :: post ∧
      iterate_inorder (insert_hetero c t item).1 = pre ++ item :: post := by
  induction t with
  | nil => simp [find_inst] at h
  | node x0 l r co ihl ihr =>
      unfold find_inst at h
      unfold insert_hetero
      split at h
      next hgt =>
        obtain ⟨h1, pre, post, h2, h3⟩ := ihl h
        simp only [if_pos hgt]
        refine ⟨h1, pre, post ++ x0 :: iterate_inorder r, ?_, ?_⟩
        · simp [iterate_inorder, h2]
        · rw [fix_up_inorder]
          simp [iterate_inorder, h3]
      next hgt =>
        split at h
        next hlt =>
          obtain ⟨h1, pre, post, h2, h3⟩ := ihr h
          simp only [if_neg hgt, if_pos hlt]
          refine ⟨h1, iterate_inorder l ++ x0 :: pre, post, ?_, ?_⟩
          · simp [iterate_inorder, h2]
          · rw [fix_up_inorder]
            simp [iterate_inorder, h3]
        next hlt =>
          cases h
          simp only [if_neg hgt, if_neg hlt]
          refine ⟨trivial, iterate_inorder l, iterate_inorder r, rfl, ?_⟩
          rw [fix_up_inorder]
          rfl

theorem LawfulCmp.eq_trans {c : α → α → Int} (L : LawfulCmp c) {a b d : α}
    (h1 : c a b = 0) (h2 : c b d = 0) : c a d = 0 := by
  have t1 := L.le_trans (le_of_eq h1) (le_of_eq h2)
  have t2 := L.le_trans (show c d b ≤ 0 by rw [L.swap b d]; omega)
    (show c b a ≤ 0 by rw [L.swap a b]; omega)
  have := L.swap d a
  omega

/-- Whatever instance the `Find` descent returns is stored in the tree
and compares equal to the probe. -/
theorem find_inst_sound {c : α → α → Int} {t : Link α} {item y : α}
    (h : find_inst c t item = some y) :
    y ∈ iterate_inorder t ∧ c y item = 0 := by
  induction t with
  | nil => simp [find_inst] at h
  | node x l r co ihl ihr =>
      rw [find_inst] at h
      split at h
      · obtain ⟨h1, h2⟩ := ihl h
        exact ⟨by simp [iterate_inorder, h1], h2⟩
      · split at h
        · obtain ⟨h1, h2⟩ := ihr h
          exact ⟨by simp [iterate_inorder, h1], h2⟩
        · next hgt hlt =>
            cases h
            refine ⟨by simp [iterate_inorder], by omega⟩

/-- On a BST the `Find` descent is complete: a `none` answer means no
stored item compares equal to the probe. -/
theorem find_inst_none {c : α → α → Int} (L : LawfulCmp c) {t : Link α}
    {item : α} (hb : bst c false t) (h : find_inst c t item = none) :
    ∀ y ∈ iterate_inorder t, c y item ≠ 0 := by
  induction t with
  | nil => intro y hy; simp [iterate_inorder] at hy
  | node x l r co ihl ihr =>
      obtain ⟨hbl, hbr, h3, h4⟩ := hb
      rw [find_inst] at h
      intro y hy heq
      rw [iterate_inorder] at hy
      split at h
      next hgt =>
        rcases List.mem_append.mp hy with hy | hy
        · exact ihl hbl h y hy heq
        · rcases List.mem_cons.mp hy with hy | hy
          · subst hy; omega
          · have hxy : c x y ≤ 0 := by simpa using h4 y hy
            have := L.le_trans hxy (le_of_eq heq)
            omega
      next hgt =>
        split at h
        next hlt =>
          rcases List.mem_append.mp hy with hy | hy
          · have hxy : c x y ≥ 0 := by simpa using h3 y hy
            have h5 : c item y ≤ 0 := by rw [L.swap y item]; omega
            have h6 : c y x ≤ 0 := by rw [L.swap x y]; omega
            have h7 := L.le_trans h5 h6
            have := L.swap item x
            omega
          · rcases List.mem_cons.mp hy with hy | hy
            · subst hy; omega
            · exact ihr hbr h y hy heq
        next hlt =>
          exact Option.noConfusion h

/-- When no stored item compares equal, the heteroset insert reports an
insertion and adds the new item at the descent position. -/
theorem insert_hetero_not_found (c : α → α → Int) (t : Link α) (item : α)
    (h : find_inst c t item = none) :
    (insert_hetero c t item).2 = true ∧
    ∃ pre post, iterate_inorder t = pre ++ post ∧
      iterate_inorder (insert_hetero c t item).1 = pre ++ item :: post := by
  induction t with
  | nil =>
      refine ⟨rfl, [], [], rfl, ?_⟩
      simp [insert_hetero, new_ll_rb_node, iterate_inorder]
  | node x l r co ihl ihr =>
      rw [find_inst] at h
      simp only [insert_hetero]
      split at h
      next hgt =>
        obtain ⟨h1, pre, post, h2, h3⟩ := ihl h
        rw [if_pos hgt]
        refine ⟨h1, pre, post ++ x :: iterate_inorder r, ?_, ?_⟩
        · rw [iterate_inorder, h2]
          simp
        · show iterate_inorder
            (fix_up (Link.node x (insert_hetero c l item).1 r co)) = _
          rw [fix_up_inorder, iterate_inorder, h3]
          simp
      next hgt =>
        split at h
        next hlt =>
          obtain ⟨h1, pre, post, h2, h3⟩ := ihr h
          rw [if_neg hgt, if_pos hlt]
          refine ⟨h1, iterate_inorder l ++ x :: pre, post, ?_, ?_⟩
          · rw [iterate_inorder, h2]
            simp
          · show iterate_inorder
              (fix_up (Link.node x l (insert_hetero c r item).1 co)) = _
            rw [fix_up_inorder, iterate_inorder, h3]
            simp
        next hlt =>
          exact Option.noConfusion h

theorem blacken_inorder (t : Link α) :
    iterate_inorder (blacken t) = iterate_inorder t := by
  cases t <;> rfl

theorem copy_eq (t : Link α) : copy t = t := by
  induction t with
  | nil => rfl
  | node x l r co ihl ihr => simp [copy, ihl, ihr]

theorem all_bnot_eq_bnot_any (l : List α) (f : α → Bool) :
    l.all (fun x => !f x) = !l.any f := by
  induction l with
  | nil => rfl
  | cons x xs ih => simp [List.all_cons, List.any_cons, Bool.not_or, ih]

theorem foldl_ite_eq_filter_foldl {β : Type} (f : β → α → β) (p : α → Bool)
    (l : List α) (init : β) :
    l.foldl (fun s x => if p x then f s x else s) init =
      (l.filter p).foldl f init := by
  induction l generalizing init with
  | nil => rfl
  | cons x xs ih =>
      cases hx : p x <;> simp [List.filter_cons, hx, ih]

theorem filter_length_split (l : List α) (f : α → Bool) :
    (l.filter f).length + (l.filter (fun x => !f x)).length = l.length := by
  induction l with
  | nil => rfl
  | cons x xs ih =>
      cases hx : f x <;> simp [List.filter_cons, hx] <;> omega

namespace HSet

/-- The heteroset `Set`: a tree root and a count (the engine is the same
LLRB code with the overwriting `insert`). -/
structure Set (α : Type) where
  root : Link α
  count : Nat
deriving Repr, DecidableEq

/-- `New()` with no initial items. -/
def New (α : Type) : Set α := ⟨.nil, 0⟩

/-- `Set.Cardinality()`. -/
def Cardinality (s : Set α) : Nat := s.count

/-- `Set.Copy()`: deep clone of the tree, same count. -/
def Copy (s : Set α) : Set α := ⟨copy s.root, s.count⟩

/-- `Set.Find(item) -> (instance, found)`: returns immediately on a zero
count, else descends with `compare_item`. -/
def Find (c : α → α → Int) (s : Set α) (item : α) : Option α × Bool :=
  if s.count = 0 then (none, false)
  else
    match find_inst c s.root item with
    | some y => (some y, true)
    | none => (none, false)

/-- `Set.Has(item)`. -/
def Has (c : α → α → Int) (s : Set α) (item : α) : Bool :=
  (Find c s item).2

/-- `Set.Add(item)` with the trailing `this.root.red = false` made
explicit. -/
def AddO (c : α → α → Int) (s : Set α) (item : α) : Option (Set α) :=
  let p := insert_hetero c s.root item
  (set_root_black p.1).map
    (fun rt => ⟨rt, if p.2 then s.count + 1 else s.count⟩)

/-- `Set.Add(item)`, total form (the root after an insert is never nil,
see `AddO_eq`). -/
def Add (c : α → α → Int) (s : Set α) (item : α) : Set α :=
  let p := insert_hetero c s.root item
  ⟨blacken p.1, if p.2 then s.count + 1 else s.count⟩

/-- `Set.Remove(item)`: same shape as `ll_rb_tree.delete`, panics
(`none`) on an empty set or when the last member is removed. -/
def Remove (c : α → α → Int) (s : Set α) (item : α) : Option (Set α) :=
  match deleteO c s.root item with
  | none => none
  | some (root, deleted) =>
    match set_root_black root with
    | none => none
    | some rt => some ⟨rt, if deleted then s.count - 1 else s.count⟩

/-- `Set.Iter()`: the in-order member sequence. -/
def Iter (s : Set α) : List α := iterate_inorder s.root

/-- `in_size_order(setA, setB) -> (smallest, other)`. -/
def in_size_order (a b : Set α) : Set α × Set α :=
  if Cardinality a < Cardinality b then (a, b) else (b, a)

/-- `Disjoint(setA, setB)`: no member of the smaller is in the larger. -/
def Disjoint (c : α → α → Int) (a b : Set α) : Bool :=
  let p := in_size_order a b
  (Iter p.1).all (fun x => !Has c p.2 x)

/-- `Intersect(setA, setB)`: some member of the smaller is in the
larger. -/
def Intersect (c : α → α → Int) (a b : Set α) : Bool :=
  let p := in_size_order a b
  (Iter p.1).any (fun x => Has c p.2 x)

/-- `Subset(setA, setB)`. -/
def Subset (c : α → α → Int) (a b : Set α) : Bool :=
  if Cardinality a > Cardinality b then false
  else (Iter a).all (fun x => Has c b x)

/-- `ProperSubset(setA, setB)`. -/
def ProperSubset (c : α → α → Int) (a b : Set α) : Bool :=
  if Cardinality a ≥ Cardinality b then false else Subset c a b

/-- `Superset(setA, setB)`. -/
def Superset (c : α → α → Int) (a b : Set α) : Bool := Subset c b a

/-- `Equal(setA, setB)`. -/
def Equal (c : α → α → Int) (a b : Set α) : Bool :=
  if Cardinality a ≠ Cardinality b then false else Subset c a b

/-- `Union(setA, setB)`: copy the larger, add every member of the
smaller. -/
def Union (c : α → α → Int) (a b : Set α) : Set α :=
  let p := in_size_order a b
  (Iter p.1).foldl (fun s x => Add c s x) (Copy p.2)

/-- `Intersection(setA, setB)`: fresh set, add the members of the smaller
that the larger has. -/
def Intersection (c : α → α → Int) (a b : Set α) : Set α :=
  let p := in_size_order a b
  (Iter p.1).foldl (fun s x => if Has c p.2 x then Add c s x else s) (New α)

/-- `Difference(setA, setB)`. -/
def Difference (c : α → α → Int) (a b : Set α) : Set α :=
  (Iter a).foldl (fun s x => if !Has c b x then Add c s x else s) (New α)

/-- `SymmetricDifference(setA, setB)`. -/
def SymmetricDifference (c : α → α → Int) (a b : Set α) : Set α :=
  (Iter b).foldl (fun s x => if !Has c a x then Add c s x else s)
    ((Iter a).foldl (fun s x => if !Has c b x then Add c s x else s) (New α))

/-- The faithful `Add` never panics. -/
theorem AddO_eq (c : α → α → Int) (s : Set α) (item : α) :
    AddO c s item = some (Add c s item) := by
  unfold AddO Add
  simp only []
  rw [Mudlark.set_root_black_eq_blacken (insert_hetero_fst_ne_nil c s.root item)]
  rfl

/-- Abstract membership: some stored instance compares equal to the
probe. -/
def HMem (c : α → α → Int) (s : Set α) (y : α) : Prop :=
  ∃ z ∈ Iter s, c z y = 0

/-- Well-formedness of every heteroset reachable through the public API:
the tree is a strict BST for the comparator and `count` equals the number
of stored items. -/
def WFS (c : α → α → Int) (s : Set α) : Prop :=
  bst c true s.root ∧ s.count = (Iter s).length

theorem WFS_New (c : α → α → Int) : WFS c (New α) := ⟨trivial, rfl⟩

theorem Has_New (c : α → α → Int) (x : α) : Has c (New α) x = false := rfl

theorem Has_iff {c : α → α → Int} (L : LawfulCmp c) {s : Set α}
    (hs : WFS c s) (item : α) :
    Has c s item = true ↔ HMem c s item := by
  obtain ⟨hb, hc⟩ := hs
  unfold Has Find HMem Iter
  split
  next h0 =>
      rw [h0] at hc
      have he : iterate_inorder s.root = [] :=
        List.eq_nil_of_length_eq_zero hc.symm
      simp [he]
  next h0 =>
      cases hf : find_inst c s.root item with
      | none =>
          simp only [hf]
          constructor
          · intro hh
            exact absurd hh (by simp)
          · rintro ⟨z, hz, hz0⟩
            exact absurd hz0 (find_inst_none L (bst_of_strict hb) hf z hz)
      | some y =>
          simp only [hf]
          constructor
          · intro _
            obtain ⟨h1, h2⟩ := find_inst_sound hf
            exact ⟨y, h1, h2⟩
          · intro _
            trivial

theorem WFS_Add {c : α → α → Int} (L : LawfulCmp c) {s : Set α}
    (hs : WFS c s) (x : α) : WFS c (Add c s x) := by
  obtain ⟨hb, hc⟩ := hs
  constructor
  · show bst c true (blacken (insert_hetero c s.root x).1)
    exact bst_blacken (bst_insert_hetero L hb x)
  · show (if (insert_hetero c s.root x).2 then s.count + 1 else s.count) =
      (iterate_inorder (blacken (insert_hetero c s.root x).1)).length
    rw [blacken_inorder]
    cases hf : find_inst c s.root x with
    | some y =>
        obtain ⟨h1, pre, post, h2, h3⟩ := insert_hetero_found c s.root x y hf
        rw [h1, h3]
        rw [Iter] at hc
        rw [h2] at hc
        simp at hc ⊢
        omega
    | none =>
        obtain ⟨h1, pre, post, h2, h3⟩ := insert_hetero_not_found c s.root x hf
        rw [h1, h3]
        rw [Iter] at hc
        rw [h2] at hc
        simp at hc ⊢
        omega

theorem HMem_Add {c : α → α → Int} (L : LawfulCmp c) {s : Set α}
    (hs : WFS c s) (x y : α) :
    HMem c (Add c s x) y ↔ (HMem c s y ∨ c x y = 0) := by
  unfold HMem Iter
  show (∃ z ∈ iterate_inorder (blacken (insert_hetero c s.root x).1),
      c z y = 0) ↔ _
  rw [blacken_inorder]
  cases hf : find_inst c s.root x with
  | some w =>
      obtain ⟨h1, pre, post, h2, h3⟩ := insert_hetero_found c s.root x w hf
      have hwx : c w x = 0 := (find_inst_sound hf).2
      have hxw : c x w = 0 := by
        have := L.swap w x
        omega
      rw [h3, h2]
      constructor
      · rintro ⟨z, hz, hz0⟩
        simp only [List.mem_append, List.mem_cons] at hz
        rcases hz with hz | hz | hz
        · exact Or.inl ⟨z, by simp [hz], hz0⟩
        · subst hz
          exact Or.inr hz0
        · exact Or.inl ⟨z, by simp [hz], hz0⟩
      · rintro (⟨z, hz, hz0⟩ | hxy)
        · simp only [List.mem_append, List.mem_cons] at hz
          rcases hz with hz | hz | hz
          · exact ⟨z, by simp [hz], hz0⟩
          · subst hz
            exact ⟨x, by simp, L.eq_trans hxw hz0⟩
          · exact ⟨z, by simp [hz], hz0⟩
        · exact ⟨x, by simp, hxy⟩
  | none =>
      obtain ⟨h1, pre, post, h2, h3⟩ := insert_hetero_not_found c s.root x hf
      rw [h3, h2]
      constructor
      · rintro ⟨z, hz, hz0⟩
        simp only [List.mem_append, List.mem_cons] at hz
        rcases hz with hz | hz | hz
        · exact Or.inl ⟨z, by simp [hz], hz0⟩
        · subst hz
          exact Or.inr hz0
        · exact Or.inl ⟨z, by simp [hz], hz0⟩
      · rintro (⟨z, hz, hz0⟩ | hxy)
        · simp only [List.mem_append] at hz
          rcases hz with hz | hz
          · exact ⟨z, by simp [hz], hz0⟩
          · exact ⟨z, by simp [hz], hz0⟩
        · exact ⟨x, by simp, hxy⟩

theorem Add_count {c : α → α → Int} (L : LawfulCmp c) {s : Set α}
    (hs : WFS c s) (x : α) :
    (Add c s x).count = if Has c s x then s.count else s.count + 1 := by
  show (if (insert_hetero c s.root x).2 then s.count + 1 else s.count) = _
  cases hf : find_inst c s.root x with
  | some y =>
      have h1 := (insert_hetero_found c s.root x y hf).1
      have hHas : Has c s x = true := by
        rw [Has_iff L hs]
        obtain ⟨hm, he⟩ := find_inst_sound hf
        exact ⟨y, hm, he⟩
      rw [h1, hHas]
      simp
  | none =>
      have h1 := (insert_hetero_not_found c s.root x hf).1
      have hHas : Has c s x = false := by
        cases hh : Has c s x with
        | false => rfl
        | true =>
            obtain ⟨z, hz, hz0⟩ := (Has_iff L hs x).mp hh
            exact absurd hz0
              (find_inst_none L (bst_of_strict hs.1) hf z hz)
      rw [h1, hHas]
      simp

theorem foldAdd_spec {c : α → α → Int} (L : LawfulCmp c) :
    ∀ (zs : List α) (s : Set α), WFS c s →
      zs.Pairwise (fun a b => c a b < 0) →
      WFS c (zs.foldl (Add c) s) ∧
      (zs.foldl (Add c) s).count =
        s.count + (zs.filter (fun x => !Has c s x)).length ∧
      (∀ y, HMem c (zs.foldl (Add c) s) y ↔
        (HMem c s y ∨ ∃ x ∈ zs, c x y = 0)) := by
  intro zs
  induction zs with
  | nil =>
      intro s hs _
      exact ⟨hs, by simp, fun y => by simp⟩
  | cons z zs ih =>
      intro s hs hp
      obtain ⟨hz, hp'⟩ := List.pairwise_cons.mp hp
      have hs' : WFS c (Add c s z) := WFS_Add L hs z
      obtain ⟨ih1, ih2, ih3⟩ := ih (Add c s z) hs' hp'
      refine ⟨ih1, ?_, ?_⟩
      · have hfilter : zs.filter (fun x => !Has c (Add c s z) x) =
            zs.filter (fun x => !Has c s x) := by
          apply List.filter_congr
          intro x hx
          have hzx : c z x < 0 := hz x hx
          have hHeq : Has c (Add c s z) x = Has c s x := by
            cases h1 : Has c (Add c s z) x with
            | true =>
                obtain hm := (Has_iff L hs' x).mp h1
                rcases (HMem_Add L hs z x).mp hm with hm | hm
                · exact ((Has_iff L hs x).mpr hm).symm
                · omega
            | false =>
                cases h2 : Has c s x with
                | false => rfl
                | true =>
                    have hm := (Has_iff L hs x).mp h2
                    have : Has c (Add c s z) x = true :=
                      (Has_iff L hs' x).mpr ((HMem_Add L hs z x).mpr
                        (Or.inl hm))
                    rw [h1] at this
                    exact Bool.noConfusion this
          rw [hHeq]
        rw [List.foldl_cons, ih2, hfilter, Add_count L hs z]
        cases hHz : Has c s z with
        | true => simp [List.filter_cons, hHz]
        | false =>
            simp [List.filter_cons, hHz]
            omega
      · intro y
        rw [List.foldl_cons, ih3 y, HMem_Add L hs z y]
        simp only [List.mem_cons, exists_eq_or_imp]
        tauto

theorem Copy_eq (s : Set α) : Copy s = s := by
  cases s
  simp [Copy, copy_eq]

theorem in_size_order_counts (a b : Set α) :
    ((in_size_order a b).1).count + ((in_size_order a b).2).count =
      a.count + b.count := by
  unfold in_size_order
  split
  · rfl
  · simp only []
    omega

theorem in_size_order_WFS {c : α → α → Int} {a b : Set α} (ha : WFS c a)
    (hb : WFS c b) :
    WFS c (in_size_order a b).1 ∧ WFS c (in_size_order a b).2 := by
  unfold in_size_order
  split
  · exact ⟨ha, hb⟩
  · exact ⟨hb, ha⟩

theorem Union_count_eq {c : α → α → Int} (L : LawfulCmp c) {a b : Set α}
    (ha : WFS c a) (hb : WFS c b) :
    (Union c a b).count = ((in_size_order a b).2).count +
      ((Iter (in_size_order a b).1).filter
        (fun x => !Has c (in_size_order a b).2 x)).length := by
  obtain ⟨hp1, hp2⟩ := in_size_order_WFS ha hb
  have hsorted : (Iter (in_size_order a b).1).Pairwise
      (fun x y => c x y < 0) := bst_pairwise_lt L hp1.1
  obtain ⟨_, h2, _⟩ := foldAdd_spec L (Iter (in_size_order a b).1)
    (Copy (in_size_order a b).2) (by rw [Copy_eq]; exact hp2) hsorted
  show ((Iter (in_size_order a b).1).foldl (fun s x => Add c s x)
    (Copy (in_size_order a b).2)).count = _
  rw [Copy_eq] at h2 ⊢
  exact h2

theorem Intersection_count_eq {c : α → α → Int} (L : LawfulCmp c)
    {a b : Set α} (ha : WFS c a) (hb : WFS c b) :
    (Intersection c a b).count =
      ((Iter (in_size_order a b).1).filter
        (fun x => Has c (in_size_order a b).2 x)).length := by
  obtain ⟨hp1, hp2⟩ := in_size_order_WFS ha hb
  have hsorted : ((Iter (in_size_order a b).1).filter
      (fun x => Has c (in_size_order a b).2 x)).Pairwise
        (fun x y => c x y < 0) :=
    (bst_pairwise_lt L hp1.1).sublist (List.filter_sublist _)
  show ((Iter (in_size_order a b).1).foldl
      (fun s x => if Has c (in_size_order a b).2 x then Add c s x else s)
      (New α)).count = _
  rw [foldl_ite_eq_filter_foldl]
  obtain ⟨_, h2, _⟩ := foldAdd_spec L
    ((Iter (in_size_order a b).1).filter
      (fun x => Has c (in_size_order a b).2 x))
    (New α) (WFS_New c) hsorted
  rw [h2]
  have hN : ∀ l : List α,
      l.filter (fun x => !Has c (New α) x) = l := by
    intro l
    induction l with
    | nil => rfl
    | cons w ws ihw => simp [List.filter_cons, Has_New, ihw]
  rw [hN]
  simp [New]

/-- `|Union(A,B)| + |Intersection(A,B)| = |A| + |B|` for well-formed
heterosets. -/
theorem hset_card_identity {c : α → α → Int} (L : LawfulCmp c)
    {a b : Set α} (ha : WFS c a) (hb : WFS c b) :
    (Union c a b).count + (Intersection c a b).count =
      a.count + b.count := by
  rw [Union_count_eq L ha hb, Intersection_count_eq L ha hb]
  obtain ⟨hp1, hp2⟩ := in_size_order_WFS ha hb
  have hsplit := filter_length_split (Iter (in_size_order a b).1)
    (fun x => Has c (in_size_order a b).2 x)
  have hc1 : ((in_size_order a b).1).count =
      (Iter (in_size_order a b).1).length := hp1.2
  have hsum := in_size_order_counts a b
  omega

theorem Intersect_iff_h {c : α → α → Int} (L : LawfulCmp c) {a b : Set α}
    (ha : WFS c a) (hb : WFS c b) :
    Intersect c a b = true ↔
      ∃ x ∈ Iter a, ∃ z ∈ Iter b, c x z = 0 := by
  have hP : ∀ (p q : Set α), WFS c q →
      ((Iter p).any (fun x => Has c q x) = true ↔
        ∃ x ∈ Iter p, ∃ z ∈ Iter q, c x z = 0) := by
    intro p q hq
    rw [List.any_eq_true]
    constructor
    · rintro ⟨x, hx, hHas⟩
      obtain ⟨z, hz, hz0⟩ := (Has_iff L hq x).mp hHas
      exact ⟨x, hx, z, hz, by have := L.swap z x; omega⟩
    · rintro ⟨x, hx, z, hz, h0⟩
      exact ⟨x, hx, (Has_iff L hq x).mpr
        ⟨z, hz, by have := L.swap x z; omega⟩⟩
  show ((Iter (in_size_order a b).1).any
      (fun x => Has c (in_size_order a b).2 x)) = true ↔ _
  unfold in_size_order
  split
  · exact hP a b hb
  · constructor
    · intro h
      obtain ⟨x, hx, z, hz, h0⟩ := (hP b a ha).mp h
      exact ⟨z, hz, x, hx, by have := L.swap x z; omega⟩
    · rintro ⟨x, hx, z, hz, h0⟩
      exact (hP b a ha).mpr ⟨z, hz, x, hx, by have := L.swap x z; omega⟩

theorem Intersect_comm_h {c : α → α → Int} (L : LawfulCmp c) {a b : Set α}
    (ha : WFS c a) (hb : WFS c b) :
    Intersect c a b = Intersect c b a := by
  have hbool : ∀ x y : Bool, (x = true ↔ y = true) → x = y := by decide
  apply hbool
  rw [Intersect_iff_h L ha hb, Intersect_iff_h L hb ha]
  constructor
  · rintro ⟨x, hx, z, hz, h0⟩
    exact ⟨z, hz, x, hx, by have := L.swap x z; omega⟩
  · rintro ⟨x, hx, z, hz, h0⟩
    exact ⟨z, hz, x, hx, by have := L.swap x z; omega⟩

theorem Disjoint_eq_bnot_Intersect (c : α → α → Int) (a b : Set α) :
    Disjoint c a b = !Intersect c a b := by
  unfold Disjoint Intersect
  exact all_bnot_eq_bnot_any _ _

end HSet

namespace BSet

/-- `bitchunkSZ = (1 + ^bitchunk(0)>>32&1) * 32`: the bit width of the Go
`uint` chunk type, 64 on the 64-bit platforms the package targets. -/
def bitchunkSZ : Nat := 64

/-- Two's-complement wrap of an integer into the int64 range, modelling
Go's wrapping int64 arithmetic (only the negation of the minimum value
ever wraps in this code). -/
def wrap64 (n : Int) : Int := (n + 2 ^ 63) % 2 ^ 64 - 2 ^ 63

/-- `ubitlocation(bit)`: chunk key `bit / bitchunkSZ` and single-bit mask
`1 << (bit % bitchunkSZ)` for an unsigned member. -/
def ubitlocation (bit : Nat) : Int × Nat :=
  ((bit / bitchunkSZ : Nat), 1 <<< (bit % bitchunkSZ))

/-- `sbitlocation(bit)`: truncating division gives the key; for negative
members the key is decremented and the offset is `uint(-bit % bitchunkSZ)`
(`-bit` wraps at the int64 minimum), compensating for Go's truncating
(not flooring) division. -/
def sbitlocation (bit : Int) : Int × Nat :=
  let key := Int.tdiv bit (bitchunkSZ : Int)
  if bit < 0 then
    (key - 1, 1 <<< (Int.tmod (wrap64 (-bit)) (bitchunkSZ : Int)).toNat)
  else
    (key, 1 <<< (Int.tmod bit (bitchunkSZ : Int)).toNat)

/-- `imemberval(key, bitn)`: the member value stored at chunk `key`, bit
position `bitn` (int64 for negative keys, uint64 otherwise; both are
modelled as `Int`). -/
def imemberval (key : Int) (bitn : Nat) : Int :=
  if key < 0 then (key + 1) * (bitchunkSZ : Int) - bitn
  else key * (bitchunkSZ : Int) + bitn

/-- `bitcount(chunk)`: popcount by the shift-and-test loop of the
source. -/
def bitcount (chunk : Nat) : Nat :=
  if chunk = 0 then 0 else chunk % 2 + bitcount (chunk / 2)
termination_by chunk
decreasing_by exact Nat.div_lt_self (Nat.pos_of_ne_zero (by assumption)) (by norm_num)

/-- The loop body of `getbits(chunk)`, tracking the current bit index:
collects the positions of the set bits in ascending order. -/
def getbits_go (chunk bit : Nat) : List Nat :=
  if chunk = 0 then []
  else (if chunk % 2 = 1 then [bit] else []) ++ getbits_go (chunk / 2) (bit + 1)
termination_by chunk
decreasing_by exact Nat.div_lt_self (Nat.pos_of_ne_zero (by assumption)) (by norm_num)

/-- `getbits(chunk)`: the positions of the set bits of a chunk. -/
def getbits (chunk : Nat) : List Nat := getbits_go chunk 0

theorem getbits_go_two_pow (n b : Nat) : getbits_go (2 ^ n) b = [n + b] := by
  induction n generalizing b with
  | zero =>
      rw [getbits_go]
      norm_num
      rw [getbits_go]
      simp
  | succ m ih =>
      rw [getbits_go]
      have h1 : 2 ^ (m + 1) ≠ 0 := by positivity
      have h2 : 2 ^ (m + 1) % 2 = 0 := by
        simp [Nat.pow_succ, Nat.mul_mod_left]
      have h3 : 2 ^ (m + 1) / 2 = 2 ^ m := by
        rw [Nat.pow_succ]
        exact Nat.mul_div_cancel _ (by norm_num)
      simp [h1, h2, h3, ih]
      omega

theorem getbits_two_pow (n : Nat) : getbits (2 ^ n) = [n] := by
  rw [getbits, getbits_go_two_pow]
  simp

theorem bitcount_two_pow (n : Nat) : bitcount (2 ^ n) = 1 := by
  induction n with
  | zero =>
      rw [bitcount]
      norm_num
      rw [bitcount]
      simp
  | succ m ih =>
      rw [bitcount]
      have h1 : 2 ^ (m + 1) ≠ 0 := by positivity
      have h2 : 2 ^ (m + 1) % 2 = 0 := by
        simp [Nat.pow_succ, Nat.mul_mod_left]
      have h3 : 2 ^ (m + 1) / 2 = 2 ^ m := by
        rw [Nat.pow_succ]
        exact Nat.mul_div_cancel _ (by norm_num)
      simp [h1, h2, h3, ih]

theorem wrap64_eq_self {n : Int} (h1 : -(2 ^ 63) ≤ n) (h2 : n < 2 ^ 63) :
    wrap64 n = n := by
  unfold wrap64
  rw [Int.emod_eq_of_lt (by omega) (by omega)]
  omega

/-- The Go `map[bitchunkkey]bitchunk` is modelled canonically as an
association list sorted strictly by key; a missing key reads as 0, and map
iteration enumerates the entries (order is irrelevant to every fact proved
below). -/
def Chunks : Type := List (Int × Nat)

/-- `this.bits[key]` (0 when the key is absent). -/
def mapGet (m : List (Int × Nat)) (k : Int) : Nat :=
  match m with
  | [] => 0
  | (k1, v1) :: rest => if k1 = k then v1 else mapGet rest k

/-- `this.bits[key] = v` on the sorted association list. -/
def mapSet (m : List (Int × Nat)) (k : Int) (v : Nat) : List (Int × Nat) :=
  match m with
  | [] => [(k, v)]
  | (k1, v1) :: rest =>
      if k < k1 then (k, v) :: (k1, v1) :: rest
      else if k1 = k then (k, v) :: rest
      else (k1, v1) :: mapSet rest k v

/-- Deletion of a key (the `m[k] = v, false` comma form of old Go). -/
def mapDel (m : List (Int × Nat)) (k : Int) : List (Int × Nat) :=
  match m with
  | [] => []
  | (k1, v1) :: rest => if k1 = k then rest else (k1, v1) :: mapDel rest k

/-- Strictly ascending keys (the canonical-form invariant of the model's
association list). -/
def keysSorted (m : List (Int × Nat)) : Prop :=
  List.Chain' (fun a b => a.1 < b.1) m

instance : DecidablePred keysSorted := fun _ =>
  inferInstanceAs (Decidable (List.Chain' _ _))

/-- `bitset.Set`: the running popcount and the chunk map. -/
structure Set where
  bitcount : Nat
  bits : List (Int × Nat)
deriving Repr, DecidableEq

/-- `Make()`. -/
def Make : Set := ⟨0, []⟩

/-- `Set.Clear()`. -/
def Clear (_ : Set) : Set := ⟨0, []⟩

/-- `Set.Cardinality()`. -/
def Cardinality (s : Set) : Nat := s.bitcount

/-- Go's `^mask` on the 64-bit chunk type. -/
def uintNOT (m : Nat) : Nat := (2 ^ 64 - 1) ^^^ m

/-- `Set.Add(member)` for a signed member: OR the mask in, bump the count
when the stored chunk changed. -/
def Add (s : Set) (member : Int) : Set :=
  let km := sbitlocation member
  let bits := mapGet s.bits km.1 ||| km.2
  ⟨if bits ≠ mapGet s.bits km.1 then s.bitcount + 1 else s.bitcount,
   mapSet s.bits km.1 bits⟩

/-- `Set.Add(member)` for an unsigned member. -/
def AddU (s : Set) (member : Nat) : Set :=
  let km := ubitlocation member
  let bits := mapGet s.bits km.1 ||| km.2
  ⟨if bits ≠ mapGet s.bits km.1 then s.bitcount + 1 else s.bitcount,
   mapSet s.bits km.1 bits⟩

/-- `Set.Remove(member)` for a signed member: AND the complemented mask,
decrement the count when the chunk changed, and `this.bits[key] = bits,
bits != 0` drops the key when the chunk became zero. -/
def Remove (s : Set) (member : Int) : Set :=
  let km := sbitlocation member
  let bits := mapGet s.bits km.1 &&& uintNOT km.2
  ⟨if bits ≠ mapGet s.bits km.1 then s.bitcount - 1 else s.bitcount,
   if bits ≠ 0 then mapSet s.bits km.1 bits else mapDel s.bits km.1⟩

/-- `Set.Remove(member)` for an unsigned member. -/
def RemoveU (s : Set) (member : Nat) : Set :=
  let km := ubitlocation member
  let bits := mapGet s.bits km.1 &&& uintNOT km.2
  ⟨if bits ≠ mapGet s.bits km.1 then s.bitcount - 1 else s.bitcount,
   if bits ≠ 0 then mapSet s.bits km.1 bits else mapDel s.bits km.1⟩

/-- `Set.Has(member)` for a signed member. -/
def Has (s : Set) (member : Int) : Bool :=
  let km := sbitlocation member
  (mapGet s.bits km.1 &&& km.2) != 0

/-- `Set.Copy()`. -/
def Copy (s : Set) : Set := ⟨s.bitcount, s.bits⟩

/-- Sum of the popcounts of all stored chunks (the quantity recomputed
from scratch at the end of `Union`). -/
def totalPop (m : List (Int × Nat)) : Nat :=
  (m.map (fun kv => bitcount kv.2)).sum

/-- `Union(a, b)`: copy `a`, OR in every chunk of `b`, then recompute
`bitcount` by summing popcounts. -/
def Union (a b : Set) : Set :=
  let bits := b.bits.foldl (fun m kv => mapSet m kv.1 (mapGet m kv.1 ||| kv.2)) (Copy a).bits
  ⟨totalPop bits, bits⟩

/-- `in-size-order` selection used by `Disjoint`, `Intersect` and
`Intersection`: the set with fewer stored chunks first. -/
def szorder (a b : Set) : Set × Set :=
  if a.bits.length < b.bits.length then (a, b) else (b, a)

/-- `Intersection(a, b)`: fresh set, keep the nonzero ANDs of the smaller
operand's chunks, accumulating the popcount. -/
def Intersection (a b : Set) : Set :=
  let p := szorder a b
  p.1.bits.foldl
    (fun acc kv =>
      let chunk := kv.2 &&& mapGet p.2.bits kv.1
      if chunk ≠ 0 then ⟨acc.bitcount + bitcount chunk, mapSet acc.bits kv.1 chunk⟩
      else acc)
    Make

/-- `Intersect(a, b)`: some chunk of the smaller ANDs nonzero with the
larger. -/
def Intersect (a b : Set) : Bool :=
  let p := szorder a b
  p.1.bits.any (fun kv => (kv.2 &&& mapGet p.2.bits kv.1) != 0)

/-- `Disjoint(a, b)`: every chunk of the smaller ANDs to zero with the
larger. -/
def Disjoint (a b : Set) : Bool :=
  let p := szorder a b
  p.1.bits.all (fun kv => (kv.2 &&& mapGet p.2.bits kv.1) == 0)

theorem bitcount_zero : bitcount 0 = 0 := by
  rw [bitcount]
  simp

theorem bitcount_unfold (z : Nat) : bitcount z = z % 2 + bitcount (z / 2) := by
  by_cases h : z = 0
  · subst h
    simp [bitcount_zero]
  · rw [bitcount, if_neg h]

theorem lor_div_two (x y : Nat) : (x ||| y) / 2 = x / 2 ||| y / 2 := by
  refine Nat.eq_of_testBit_eq fun i => ?_
  rw [Nat.testBit_div_two, Nat.testBit_lor, Nat.testBit_lor,
    Nat.testBit_div_two, Nat.testBit_div_two]

theorem land_div_two (x y : Nat) : (x &&& y) / 2 = x / 2 &&& y / 2 := by
  refine Nat.eq_of_testBit_eq fun i => ?_
  rw [Nat.testBit_div_two, Nat.testBit_land, Nat.testBit_land,
    Nat.testBit_div_two, Nat.testBit_div_two]

theorem parity_lor_land (x y : Nat) :
    (x ||| y) % 2 + (x &&& y) % 2 = x % 2 + y % 2 := by
  have h1 := Nat.testBit_lor x y 0
  have h2 := Nat.testBit_land x y 0
  simp only [Nat.testBit_zero] at h1 h2
  have h1p := congrArg (fun b => b = true) h1
  have h2p := congrArg (fun b => b = true) h2
  simp only [Bool.or_eq_true, Bool.and_eq_true, decide_eq_true_eq, eq_iff_iff]
    at h1p h2p
  have m1 := Nat.mod_two_eq_zero_or_one (x ||| y)
  have m2 := Nat.mod_two_eq_zero_or_one (x &&& y)
  have mx := Nat.mod_two_eq_zero_or_one x
  have my := Nat.mod_two_eq_zero_or_one y
  omega

/-- Popcount distributes over OR plus AND. -/
theorem bitcount_lor_add_land (x y : Nat) :
    bitcount (x ||| y) + bitcount (x &&& y) = bitcount x + bitcount y := by
  have H : ∀ n x y : Nat, x + y ≤ n →
      bitcount (x ||| y) + bitcount (x &&& y) = bitcount x + bitcount y := by
    intro n
    induction n with
    | zero =>
        intro x y h
        have hx : x = 0 := by omega
        have hy : y = 0 := by omega
        subst hx; subst hy
        simp [bitcount_zero]
    | succ m ih =>
        intro x y h
        by_cases hx : x = 0
        · subst hx
          simp [bitcount_zero]
        · by_cases hy : y = 0
          · subst hy
            simp [bitcount_zero]
          · rw [bitcount_unfold (x ||| y), bitcount_unfold (x &&& y),
              bitcount_unfold x, bitcount_unfold y, lor_div_two, land_div_two]
            have hrec := ih (x / 2) (y / 2) (by omega)
            have hpar := parity_lor_land x y
            omega
  exact H (x + y) x y le_rfl

theorem bitcount_lor_of_land_zero {x y : Nat} (h : x &&& y = 0) :
    bitcount (x ||| y) = bitcount x + bitcount y := by
  have := bitcount_lor_add_land x y
  rw [h, bitcount_zero] at this
  omega

theorem lor_two_pow_of_testBit {x : Nat} {n : Nat} (h : x.testBit n = true) :
    x ||| 2 ^ n = x ∧ x &&& 2 ^ n = 2 ^ n := by
  constructor
  · refine Nat.eq_of_testBit_eq fun i => ?_
    rw [Nat.testBit_lor]
    by_cases hi : i = n
    · subst hi
      simp [h, Nat.testBit_two_pow_self]
    · simp [Nat.testBit_two_pow_of_ne (fun hn => hi hn.symm)]
  · refine Nat.eq_of_testBit_eq fun i => ?_
    rw [Nat.testBit_land]
    by_cases hi : i = n
    · subst hi
      simp [h, Nat.testBit_two_pow_self]
    · simp [Nat.testBit_two_pow_of_ne (fun hn => hi hn.symm)]

theorem lor_two_pow_of_not_testBit {x : Nat} {n : Nat} (h : x.testBit n = false) :
    (x ||| 2 ^ n) ≠ x ∧ x &&& 2 ^ n = 0 := by
  constructor
  · intro he
    have := congrArg (fun z => z.testBit n) he
    simp [Nat.testBit_lor, h, Nat.testBit_two_pow_self] at this
  · refine Nat.eq_of_testBit_eq fun i => ?_
    rw [Nat.testBit_land]
    by_cases hi : i = n
    · subst hi
      simp [h]
    · simp [Nat.testBit_two_pow_of_ne (fun hn => hi hn.symm)]

theorem lor_two_pow_pos (x : Nat) (n : Nat) : x ||| 2 ^ n ≠ 0 := by
  intro h
  have := congrArg (fun z => z.testBit n) h
  simp [Nat.testBit_lor, Nat.testBit_two_pow_self] at this

theorem uintNOT_testBit (m i : Nat) :
    (uintNOT m).testBit i = ((decide (i < 64)).xor (m.testBit i)) := by
  rw [uintNOT, Nat.testBit_xor, Nat.testBit_two_pow_sub_one]

/-- Clearing bit `n` of a chunk below `2 ^ 64` with `x &&& ^mask`. -/
theorem land_uintNOT_testBit (x : Nat) (n : Nat) (hn : n < 64) (hx : x < 2 ^ 64)
    (i : Nat) :
    (x &&& uintNOT (2 ^ n)).testBit i = (x.testBit i && !(i = n)) := by
  rw [Nat.testBit_land, uintNOT_testBit]
  by_cases hi64 : i < 64
  · by_cases hi : i = n
    · subst hi
      simp [Nat.testBit_two_pow_self, hi64]
    · simp [Nat.testBit_two_pow_of_ne (fun hn2 => hi hn2.symm), hi64, hi]
  · have hxi : x.testBit i = false := by
      apply Nat.testBit_lt_two_pow
      calc x < 2 ^ 64 := hx
        _ ≤ 2 ^ i := Nat.pow_le_pow_right (by norm_num) (by omega)
    have hni : ¬(i = n) := by omega
    simp [hxi, hi64, hni]

instance : IsTrans (Int × Nat) (fun a b => a.1 < b.1) :=
  ⟨fun _ _ _ h1 h2 => lt_trans h1 h2⟩

theorem keysSorted_iff_pairwise {m : List (Int × Nat)} :
    keysSorted m ↔ m.Pairwise (fun a b => a.1 < b.1) :=
  List.chain'_iff_pairwise

theorem mapGet_eq_zero {m : List (Int × Nat)} {k : Int}
    (h : ∀ kv ∈ m, kv.1 ≠ k) : mapGet m k = 0 := by
  induction m with
  | nil => rfl
  | cons kv rest ih =>
      rw [mapGet]
      rw [if_neg (h kv (by simp))]
      exact ih (fun kv2 hm => h kv2 (by simp [hm]))

theorem mapGet_mem (m : List (Int × Nat)) (k : Int) :
    mapGet m k = 0 ∨ (k, mapGet m k) ∈ m := by
  induction m with
  | nil => exact Or.inl rfl
  | cons kv rest ih =>
      rw [mapGet]
      split
      next h => exact Or.inr (by simp [← h])
      next h =>
        rcases ih with h2 | h2
        · exact Or.inl h2
        · exact Or.inr (by simp [h2])

theorem mem_mapSet {m : List (Int × Nat)} {k : Int} {v : Nat} {kv : Int × Nat}
    (h : kv ∈ mapSet m k v) : kv = (k, v) ∨ kv ∈ m := by
  induction m with
  | nil => simpa [mapSet] using h
  | cons kv1 rest ih =>
      rw [mapSet] at h
      by_cases h1 : k < kv1.1
      · rw [if_pos h1] at h
        rcases List.mem_cons.mp h with h2 | h2
        · exact Or.inl h2
        · exact Or.inr h2
      · rw [if_neg h1] at h
        by_cases h2 : kv1.1 = k
        · rw [if_pos h2] at h
          rcases List.mem_cons.mp h with h3 | h3
          · exact Or.inl h3
          · exact Or.inr (List.mem_cons_of_mem _ h3)
        · rw [if_neg h2] at h
          rcases List.mem_cons.mp h with h3 | h3
          · exact Or.inr (by simp [h3])
          · rcases ih h3 with h4 | h4
            · exact Or.inl h4
            · exact Or.inr (List.mem_cons_of_mem _ h4)

theorem keysSorted_mapSet {m : List (Int × Nat)} (k : Int) (v : Nat)
    (h : keysSorted m) : keysSorted (mapSet m k v) := by
  rw [keysSorted_iff_pairwise] at h ⊢
  induction m with
  | nil => simp [mapSet]
  | cons kv1 rest ih =>
      rw [List.pairwise_cons] at h
      obtain ⟨h1, h2⟩ := h
      rw [mapSet]
      split
      next hlt =>
        rw [List.pairwise_cons]
        refine ⟨?_, ?_⟩
        · intro kv2 hm
          rcases List.mem_cons.mp hm with h3 | h3
          · rw [h3]; exact hlt
          · have := h1 kv2 h3
            simp only []
            omega
        · rw [List.pairwise_cons]
          exact ⟨h1, h2⟩
      · split
        next heq =>
          rw [List.pairwise_cons]
          refine ⟨?_, h2⟩
          intro kv2 hm
          have := h1 kv2 hm
          simp only []
          omega
        next hlt heq =>
          rw [List.pairwise_cons]
          refine ⟨?_, ih h2⟩
          intro kv2 hm
          rcases mem_mapSet hm with h3 | h3
          · rw [h3]
            simp only []
            omega
          · exact h1 kv2 h3

theorem mapGet_mapSet (m : List (Int × Nat)) (k : Int) (v : Nat) (k' : Int) :
    mapGet (mapSet m k v) k' = if k = k' then v else mapGet m k' := by
  induction m with
  | nil => simp [mapSet, mapGet]
  | cons kv1 rest ih =>
      rw [mapSet]
      by_cases h1 : k < kv1.1
      · rw [if_pos h1, mapGet]
      · rw [if_neg h1]
        by_cases h2 : kv1.1 = k
        · rw [if_pos h2, mapGet, mapGet]
          by_cases h3 : k = k'
          · rw [if_pos h3, if_pos h3]
          · rw [if_neg h3, if_neg h3, if_neg (by omega : ¬kv1.1 = k')]
        · rw [if_neg h2, mapGet, mapGet]
          by_cases h3 : kv1.1 = k'
          · rw [if_pos h3, if_pos h3, if_neg (by omega : ¬k = k')]
          · rw [if_neg h3, if_neg h3, ih]

theorem mem_mapDel {m : List (Int × Nat)} {k : Int} {kv : Int × Nat}
    (h : kv ∈ mapDel m k) : kv ∈ m := by
  induction m with
  | nil => simpa [mapDel] using h
  | cons kv1 rest ih =>
      rw [mapDel] at h
      by_cases h1 : kv1.1 = k
      · rw [if_pos h1] at h
        exact List.mem_cons_of_mem _ h
      · rw [if_neg h1] at h
        rcases List.mem_cons.mp h with h2 | h2
        · simp [h2]
        · exact List.mem_cons_of_mem _ (ih h2)

theorem keysSorted_mapDel {m : List (Int × Nat)} (k : Int)
    (h : keysSorted m) : keysSorted (mapDel m k) := by
  rw [keysSorted_iff_pairwise] at h ⊢
  induction m with
  | nil => simp [mapDel]
  | cons kv1 rest ih =>
      rw [List.pairwise_cons] at h
      obtain ⟨h1, h2⟩ := h
      rw [mapDel]
      split
      · exact h2
      · rw [List.pairwise_cons]
        exact ⟨fun kv2 hm => h1 kv2 (mem_mapDel hm), ih h2⟩

theorem mapGet_mapDel (m : List (Int × Nat)) (k k' : Int) (h : keysSorted m) :
    mapGet (mapDel m k) k' = if k = k' then 0 else mapGet m k' := by
  rw [keysSorted_iff_pairwise] at h
  induction m with
  | nil =>
      rw [mapDel, mapGet]
      split <;> rfl
  | cons kv1 rest ih =>
      rw [List.pairwise_cons] at h
      obtain ⟨h1, h2⟩ := h
      rw [mapDel]
      by_cases heq : kv1.1 = k
      · rw [if_pos heq]
        by_cases h3 : k = k'
        · rw [if_pos h3]
          apply mapGet_eq_zero
          intro kv2 hm
          have := h1 kv2 hm
          omega
        · rw [if_neg h3, mapGet, if_neg (by omega : ¬kv1.1 = k')]
      · rw [if_neg heq, mapGet, mapGet]
        by_cases h3 : kv1.1 = k'
        · rw [if_pos h3, if_pos h3, if_neg (by omega : ¬k = k')]
        · rw [if_neg h3, if_neg h3, ih h2]

theorem totalPop_nil : totalPop [] = 0 := rfl

theorem totalPop_cons (kv : Int × Nat) (rest : List (Int × Nat)) :
    totalPop (kv :: rest) = bitcount kv.2 + totalPop rest := by
  simp [totalPop]

theorem totalPop_mapSet (m : List (Int × Nat)) (k : Int) (v : Nat)
    (h : keysSorted m) :
    totalPop (mapSet m k v) + bitcount (mapGet m k) = totalPop m + bitcount v := by
  rw [keysSorted_iff_pairwise] at h
  induction m with
  | nil =>
      simp [mapSet, mapGet, totalPop_cons, totalPop_nil, bitcount_zero]
  | cons kv1 rest ih =>
      rw [List.pairwise_cons] at h
      obtain ⟨h1, h2⟩ := h
      rw [mapSet]
      by_cases hlt : k < kv1.1
      · rw [if_pos hlt, mapGet, if_neg (by omega : ¬kv1.1 = k)]
        have hz : mapGet rest k = 0 := by
          apply mapGet_eq_zero
          intro kv2 hm
          have := h1 kv2 hm
          omega
        simp only [totalPop_cons, hz, bitcount_zero]
        omega
      · rw [if_neg hlt]
        by_cases heq : kv1.1 = k
        · rw [if_pos heq, mapGet, if_pos heq]
          simp only [totalPop_cons]
          omega
        · rw [if_neg heq, mapGet, if_neg heq]
          have := ih h2
          simp only [totalPop_cons]
          omega

theorem totalPop_mapDel (m : List (Int × Nat)) (k : Int) (h : keysSorted m) :
    totalPop (mapDel m k) + bitcount (mapGet m k) = totalPop m := by
  rw [keysSorted_iff_pairwise] at h
  induction m with
  | nil =>
      simp [mapDel, mapGet, totalPop_nil, bitcount_zero]
  | cons kv1 rest ih =>
      rw [List.pairwise_cons] at h
      obtain ⟨h1, h2⟩ := h
      rw [mapDel]
      by_cases heq : kv1.1 = k
      · rw [if_pos heq, mapGet, if_pos heq]
        simp only [totalPop_cons]
        omega
      · rw [if_neg heq, mapGet, if_neg heq]
        have := ih h2
        simp only [totalPop_cons]
        omega

theorem remove_bit_spec {x : Nat} {n : Nat} (hn : n < 64) (hx : x < 2 ^ 64) :
    (x.testBit n = true →
      (x &&& uintNOT (2 ^ n)) ||| 2 ^ n = x ∧
      (x &&& uintNOT (2 ^ n)) &&& 2 ^ n = 0 ∧
      (x &&& uintNOT (2 ^ n)) ≠ x) ∧
    (x.testBit n = false → x &&& uintNOT (2 ^ n) = x) := by
  constructor
  · intro h
    refine ⟨?_, ?_, ?_⟩
    · refine Nat.eq_of_testBit_eq fun i => ?_
      rw [Nat.testBit_lor, land_uintNOT_testBit x n hn hx]
      by_cases hi : i = n
      · subst hi
        simp [h, Nat.testBit_two_pow_self]
      · simp [hi, Nat.testBit_two_pow_of_ne (fun hn2 => hi hn2.symm)]
    · refine Nat.eq_of_testBit_eq fun i => ?_
      rw [Nat.testBit_land, land_uintNOT_testBit x n hn hx]
      by_cases hi : i = n
      · subst hi
        simp
      · simp [hi, Nat.testBit_two_pow_of_ne (fun hn2 => hi hn2.symm)]
    · intro he
      have := congrArg (fun z => z.testBit n) he
      simp [land_uintNOT_testBit x n hn hx] at this
      exact absurd this.symm (by simp [h])
  · intro h
    refine Nat.eq_of_testBit_eq fun i => ?_
    rw [land_uintNOT_testBit x n hn hx]
    by_cases hi : i = n
    · subst hi
      simp [h]
    · simp [hi]

/-- The representation invariant of a bitset reachable through the public
operations: chunk keys in canonical (sorted) form, no stored chunk zero,
every chunk within the 64-bit word, and the cached `bitcount` equal to the
total popcount. -/
def WF (s : Set) : Prop :=
  keysSorted s.bits ∧ (∀ kv ∈ s.bits, kv.2 ≠ 0 ∧ kv.2 < 2 ^ 64) ∧
  s.bitcount = totalPop s.bits

theorem sbitlocation_mask (bit : Int) :
    ∃ n, n < 64 ∧ (sbitlocation bit).2 = 2 ^ n := by
  unfold sbitlocation
  split
  · refine ⟨(Int.tmod (wrap64 (-bit)) (bitchunkSZ : Int)).toNat, ?_, ?_⟩
    · have := Int.tmod_lt_of_pos (wrap64 (-bit))
        (show (0 : Int) < (bitchunkSZ : Int) from by norm_num [bitchunkSZ])
      simp only [bitchunkSZ] at this ⊢
      omega
    · simp [Nat.one_shiftLeft]
  · refine ⟨(Int.tmod bit (bitchunkSZ : Int)).toNat, ?_, ?_⟩
    · have := Int.tmod_lt_of_pos bit
        (show (0 : Int) < (bitchunkSZ : Int) from by norm_num [bitchunkSZ])
      simp only [bitchunkSZ] at this ⊢
      omega
    · simp [Nat.one_shiftLeft]

theorem ubitlocation_mask (bit : Nat) :
    ∃ n, n < 64 ∧ (ubitlocation bit).2 = 2 ^ n := by
  refine ⟨bit % bitchunkSZ, ?_, ?_⟩
  · have : bit % bitchunkSZ < bitchunkSZ := Nat.mod_lt _ (by norm_num [bitchunkSZ])
    simpa [bitchunkSZ] using this
  · simp [ubitlocation, Nat.one_shiftLeft]

theorem WF_Make : WF Make := by
  refine ⟨?_, by simp [Make], rfl⟩
  simp [Make, keysSorted]

theorem WF_Clear (s : Set) : WF (Clear s) := WF_Make

theorem mapGet_lt {s : Set} (h : WF s) (key : Int) : mapGet s.bits key < 2 ^ 64 := by
  rcases mapGet_mem s.bits key with h0 | h0
  · rw [h0]
    positivity
  · exact (h.2.1 _ h0).2

theorem WF_add_mask {s : Set} (h : WF s) (key : Int) {mask n : Nat}
    (hn : n < 64) (hmask : mask = 2 ^ n) :
    WF ⟨if (mapGet s.bits key ||| mask) ≠ mapGet s.bits key then s.bitcount + 1
        else s.bitcount,
        mapSet s.bits key (mapGet s.bits key ||| mask)⟩ := by
  obtain ⟨hs, hv, hb⟩ := h
  subst hmask
  have hob : mapGet s.bits key < 2 ^ 64 := mapGet_lt ⟨hs, hv, hb⟩ key
  refine ⟨keysSorted_mapSet _ _ hs, ?_, ?_⟩
  · intro kv hm2
    rcases mem_mapSet hm2 with h2 | h2
    · rw [h2]
      refine ⟨lor_two_pow_pos _ _, ?_⟩
      exact Nat.or_lt_two_pow hob (Nat.pow_lt_pow_right (by norm_num) hn)
    · exact hv kv h2
  · have htp := totalPop_mapSet s.bits key (mapGet s.bits key ||| 2 ^ n) hs
    by_cases hch : (mapGet s.bits key ||| 2 ^ n) = mapGet s.bits key
    · rw [if_neg (by simpa using hch)]
      have hbc : bitcount (mapGet s.bits key ||| 2 ^ n)
          = bitcount (mapGet s.bits key) := by rw [hch]
      simp only []
      omega
    · rw [if_pos (by simpa using hch)]
      have hf : (mapGet s.bits key).testBit n = false := by
        cases hcase : (mapGet s.bits key).testBit n
        · rfl
        · exact absurd (lor_two_pow_of_testBit hcase).1 hch
      have hz := (lor_two_pow_of_not_testBit hf).2
      have hbc : bitcount (mapGet s.bits key ||| 2 ^ n)
          = bitcount (mapGet s.bits key) + 1 := by
        rw [bitcount_lor_of_land_zero hz, bitcount_two_pow]
      simp only []
      omega

theorem WF_rem_mask {s : Set} (h : WF s) (key : Int) {mask n : Nat}
    (hn : n < 64) (hmask : mask = 2 ^ n) :
    WF ⟨if (mapGet s.bits key &&& uintNOT mask) ≠ mapGet s.bits key then
          s.bitcount - 1 else s.bitcount,
        if (mapGet s.bits key &&& uintNOT mask) ≠ 0 then
          mapSet s.bits key (mapGet s.bits key &&& uintNOT mask)
        else mapDel s.bits key⟩ := by
  obtain ⟨hs, hv, hb⟩ := h
  subst hmask
  have hob : mapGet s.bits key < 2 ^ 64 := mapGet_lt ⟨hs, hv, hb⟩ key
  have hspec := remove_bit_spec hn hob
  cases hcase : (mapGet s.bits key).testBit n with
  | false =>
      have hnew := hspec.2 hcase
      rw [hnew]
      refine ⟨?_, ?_, ?_⟩
      · simp only []
        split
        · exact keysSorted_mapSet _ _ hs
        · exact keysSorted_mapDel _ hs
      · intro kv hm2
        simp only [] at hm2
        split at hm2
        next hz =>
          rcases mem_mapSet hm2 with h2 | h2
          · rw [h2]
            exact ⟨hz, hob⟩
          · exact hv kv h2
        next hz => exact hv kv (mem_mapDel hm2)
      · simp only []
        rw [if_neg (by simp)]
        split
        next hz =>
          have htp := totalPop_mapSet s.bits key (mapGet s.bits key) hs
          omega
        next hz =>
          have htp := totalPop_mapDel s.bits key hs
          simp only [ne_eq, not_not] at hz
          rw [hz, bitcount_zero] at htp
          omega
  | true =>
      obtain ⟨hor, hand, hne⟩ := hspec.1 hcase
      have hbc : bitcount (mapGet s.bits key)
          = bitcount (mapGet s.bits key &&& uintNOT (2 ^ n)) + 1 := by
        conv_lhs => rw [← hor]
        rw [bitcount_lor_of_land_zero hand, bitcount_two_pow]
      have hnb : (mapGet s.bits key &&& uintNOT (2 ^ n)) < 2 ^ 64 :=
        lt_of_le_of_lt Nat.and_le_left hob
      refine ⟨?_, ?_, ?_⟩
      · simp only []
        split
        · exact keysSorted_mapSet _ _ hs
        · exact keysSorted_mapDel _ hs
      · intro kv hm2
        simp only [] at hm2
        split at hm2
        next hz =>
          rcases mem_mapSet hm2 with h2 | h2
          · rw [h2]
            exact ⟨hz, hnb⟩
          · exact hv kv h2
        next hz => exact hv kv (mem_mapDel hm2)
      · simp only []
        rw [if_pos (by simpa using hne)]
        split
        next hz =>
          have htp := totalPop_mapSet s.bits key
            (mapGet s.bits key &&& uintNOT (2 ^ n)) hs
          omega
        next hz =>
          have htp := totalPop_mapDel s.bits key hs
          simp only [ne_eq, not_not] at hz
          rw [hz, bitcount_zero] at hbc
          omega

theorem WF_Add {s : Set} (h : WF s) (m : Int) : WF (Add s m) := by
  obtain ⟨n, hn, hm⟩ := sbitlocation_mask m
  unfold Add
  exact WF_add_mask h _ hn hm

theorem WF_AddU {s : Set} (h : WF s) (m : Nat) : WF (AddU s m) := by
  obtain ⟨n, hn, hm⟩ := ubitlocation_mask m
  unfold AddU
  exact WF_add_mask h _ hn hm

theorem WF_Remove {s : Set} (h : WF s) (m : Int) : WF (Remove s m) := by
  obtain ⟨n, hn, hm⟩ := sbitlocation_mask m
  unfold Remove
  exact WF_rem_mask h _ hn hm

theorem WF_RemoveU {s : Set} (h : WF s) (m : Nat) : WF (RemoveU s m) := by
  obtain ⟨n, hn, hm⟩ := ubitlocation_mask m
  unfold RemoveU
  exact WF_rem_mask h _ hn hm

/-- A public mutating call on the bitset: `Add`, `Remove` (signed or
unsigned member) or `Clear`. -/
inductive BOp where
  | addS (m : Int)
  | addU (m : Nat)
  | remS (m : Int)
  | remU (m : Nat)
  | clear

/-- One facade call. -/
def applyBOp (s : Set) : BOp → Set
  | .addS m => Add s m
  | .addU m => AddU s m
  | .remS m => Remove s m
  | .remU m => RemoveU s m
  | .clear => Clear s

/-- The state reached from `Make()` by a call sequence. -/
def runBOps (ops : List BOp) : Set := ops.foldl applyBOp Make

theorem WF_applyBOp {s : Set} (h : WF s) (op : BOp) : WF (applyBOp s op) := by
  cases op with
  | addS m => exact WF_Add h m
  | addU m => exact WF_AddU h m
  | remS m => exact WF_Remove h m
  | remU m => exact WF_RemoveU h m
  | clear => exact WF_Clear s

theorem WF_foldl {s : Set} (h : WF s) (ops : List BOp) :
    WF (ops.foldl applyBOp s) := by
  induction ops generalizing s with
  | nil => exact h
  | cons op rest ih => exact ih (WF_applyBOp h op)

theorem WF_runBOps (ops : List BOp) : WF (runBOps ops) :=
  WF_foldl WF_Make ops

theorem or_ne_zero_right {x y : Nat} (h : y ≠ 0) : x ||| y ≠ 0 := by
  intro hz
  obtain ⟨i, hi⟩ := Nat.ne_zero_implies_bit_true h
  have := congrArg (fun z => z.testBit i) hz
  simp [Nat.testBit_lor, hi] at this

theorem mapGet_of_mem {m : List (Int × Nat)} (hm : keysSorted m)
    {kv : Int × Nat} (h : kv ∈ m) : mapGet m kv.1 = kv.2 := by
  rw [keysSorted_iff_pairwise] at hm
  induction m with
  | nil => cases h
  | cons kv1 rest ih =>
      rw [List.pairwise_cons] at hm
      obtain ⟨h1, h2⟩ := hm
      rcases List.mem_cons.mp h with h3 | h3
      · rw [h3, mapGet, if_pos rfl]
      · have := h1 kv h3
        rw [mapGet, if_neg (by omega)]
        exact ih h2 h3

theorem totalPop_eq_sum (m : List (Int × Nat)) (hm : keysSorted m)
    (F : Finset Int) (hsub : ∀ kv ∈ m, kv.1 ∈ F) :
    totalPop m = ∑ k ∈ F, bitcount (mapGet m k) := by
  rw [keysSorted_iff_pairwise] at hm
  induction m generalizing F with
  | nil =>
      simp [totalPop_nil, mapGet, bitcount_zero]
  | cons kv1 rest ih =>
      rw [List.pairwise_cons] at hm
      obtain ⟨h1, h2⟩ := hm
      have hk1F : kv1.1 ∈ F := hsub kv1 (by simp)
      rw [totalPop_cons, ← Finset.add_sum_erase F _ hk1F]
      have hhead : bitcount (mapGet (kv1 :: rest) kv1.1) = bitcount kv1.2 := by
        rw [show mapGet (kv1 :: rest) kv1.1 = kv1.2 from by rw [mapGet, if_pos rfl]]
      rw [hhead]
      congr 1
      rw [ih h2 (F.erase kv1.1) ?_]
      · apply Finset.sum_congr rfl
        intro k hk
        have hne : kv1.1 ≠ k := (Finset.ne_of_mem_erase hk).symm
        rw [mapGet, if_neg hne]
      · intro kv hmv
        refine Finset.mem_erase.mpr ⟨?_, hsub kv (by simp [hmv])⟩
        have := h1 kv hmv
        omega

theorem unionFold_get (l : List (Int × Nat)) (hl : keysSorted l)
    (m : List (Int × Nat)) (k : Int) :
    mapGet (l.foldl (fun acc kv => mapSet acc kv.1 (mapGet acc kv.1 ||| kv.2)) m) k
      = mapGet m k ||| mapGet l k := by
  rw [keysSorted_iff_pairwise] at hl
  induction l generalizing m with
  | nil => simp [mapGet]
  | cons kv1 rest ih =>
      rw [List.pairwise_cons] at hl
      obtain ⟨h1, h2⟩ := hl
      rw [List.foldl_cons, ih h2, mapGet_mapSet, mapGet]
      by_cases hk : kv1.1 = k
      · rw [if_pos hk, if_pos hk]
        have hz : mapGet rest k = 0 := by
          apply mapGet_eq_zero
          intro kv2 hm2
          have := h1 kv2 hm2
          omega
        subst hk
        simp [hz]
      · rw [if_neg hk, if_neg hk]

theorem unionFold_sorted (l : List (Int × Nat)) (m : List (Int × Nat))
    (hm : keysSorted m) :
    keysSorted (l.foldl (fun acc kv => mapSet acc kv.1 (mapGet acc kv.1 ||| kv.2)) m) := by
  induction l generalizing m with
  | nil => exact hm
  | cons kv1 rest ih =>
      rw [List.foldl_cons]
      exact ih _ (keysSorted_mapSet _ _ hm)

theorem unionFold_mem (l : List (Int × Nat)) (m : List (Int × Nat))
    {kv : Int × Nat}
    (h : kv ∈ l.foldl (fun acc kv => mapSet acc kv.1 (mapGet acc kv.1 ||| kv.2)) m) :
    kv ∈ m ∨ kv.1 ∈ l.map Prod.fst := by
  induction l generalizing m with
  | nil => exact Or.inl h
  | cons kv1 rest ih =>
      rw [List.foldl_cons] at h
      rcases ih _ h with h2 | h2
      · rcases mem_mapSet h2 with h3 | h3
        · right
          simp [h3]
        · exact Or.inl h3
      · right
        simp [h2]

theorem unionFold_nonzero (l : List (Int × Nat)) (m : List (Int × Nat))
    (hl : ∀ kv ∈ l, kv.2 ≠ 0) (hm : ∀ kv ∈ m, kv.2 ≠ 0) :
    ∀ kv ∈ l.foldl (fun acc kv => mapSet acc kv.1 (mapGet acc kv.1 ||| kv.2)) m,
      kv.2 ≠ 0 := by
  induction l generalizing m with
  | nil => exact hm
  | cons kv1 rest ih =>
      rw [List.foldl_cons]
      refine ih _ (fun kv hkv => hl kv (by simp [hkv])) ?_
      intro kv hkv
      rcases mem_mapSet hkv with h2 | h2
      · rw [h2]
        exact or_ne_zero_right (hl kv1 (by simp))
      · exact hm kv h2

theorem Union_bits_eq (a b : Set) :
    (Union a b).bits
      = b.bits.foldl (fun acc kv => mapSet acc kv.1 (mapGet acc kv.1 ||| kv.2)) a.bits := rfl

theorem Union_bitcount_eq (a b : Set) :
    (Union a b).bitcount = totalPop (Union a b).bits := rfl

theorem Union_get (a b : Set) (hb : keysSorted b.bits) (k : Int) :
    mapGet (Union a b).bits k = mapGet a.bits k ||| mapGet b.bits k := by
  rw [Union_bits_eq]
  exact unionFold_get b.bits hb a.bits k

/-- The body of the `Intersection` fold: lookup characterisation, sorted
keys and the running popcount. -/
theorem interFold (o : List (Int × Nat)) (l : List (Int × Nat))
    (hl : keysSorted l) (acc : Set)
    (hacc1 : keysSorted acc.bits) (hacc2 : acc.bitcount = totalPop acc.bits)
    (hhigh : ∀ kv ∈ l, ∀ kv2 ∈ acc.bits, kv2.1 < kv.1) :
    let res := l.foldl
      (fun acc kv =>
        let c := kv.2 &&& mapGet o kv.1
        if c ≠ 0 then ⟨acc.bitcount + bitcount c, mapSet acc.bits kv.1 c⟩ else acc)
      acc
    keysSorted res.bits ∧ res.bitcount = totalPop res.bits ∧
      (∀ k, mapGet res.bits k
        = mapGet acc.bits k ||| (mapGet l k &&& mapGet o k)) ∧
      (∀ kv ∈ res.bits, kv ∈ acc.bits ∨ kv.1 ∈ l.map Prod.fst) := by
  rw [keysSorted_iff_pairwise] at hl
  induction l generalizing acc with
  | nil =>
      refine ⟨hacc1, hacc2, ?_, fun kv h => Or.inl h⟩
      intro k
      simp [mapGet]
  | cons kv1 rest ih =>
      rw [List.pairwise_cons] at hl
      obtain ⟨h1, h2⟩ := hl
      rw [List.foldl_cons]
      by_cases hc : (kv1.2 &&& mapGet o kv1.1) ≠ 0
      · have hgz : mapGet acc.bits kv1.1 = 0 := by
          apply mapGet_eq_zero
          intro kv2 hm2
          have := hhigh kv1 (by simp) kv2 hm2
          omega
        have hs' : keysSorted (mapSet acc.bits kv1.1 (kv1.2 &&& mapGet o kv1.1)) :=
          keysSorted_mapSet _ _ hacc1
        have hb' : acc.bitcount + bitcount (kv1.2 &&& mapGet o kv1.1)
            = totalPop (mapSet acc.bits kv1.1 (kv1.2 &&& mapGet o kv1.1)) := by
          have := totalPop_mapSet acc.bits kv1.1 (kv1.2 &&& mapGet o kv1.1) hacc1
          rw [hgz, bitcount_zero] at this
          omega
        have hh' : ∀ kv ∈ rest, ∀ kv2 ∈
            mapSet acc.bits kv1.1 (kv1.2 &&& mapGet o kv1.1), kv2.1 < kv.1 := by
          intro kv hkv kv2 hkv2
          rcases mem_mapSet hkv2 with h3 | h3
          · rw [h3]
            have := h1 kv hkv
            simp only []
            omega
          · have ha := hhigh kv (by simp [hkv]) kv2 h3
            exact ha
        simp only [if_pos hc]
        obtain ⟨r1, r2, r3, r4⟩ := ih h2
          (⟨acc.bitcount + bitcount (kv1.2 &&& mapGet o kv1.1),
            mapSet acc.bits kv1.1 (kv1.2 &&& mapGet o kv1.1)⟩ : Set) hs' hb' hh'
        refine ⟨r1, r2, ?_, ?_⟩
        · intro k
          rw [r3 k]
          simp only [mapGet_mapSet]
          by_cases hk : kv1.1 = k
          · rw [if_pos hk, mapGet, if_pos hk]
            have hz : mapGet rest k = 0 := by
              apply mapGet_eq_zero
              intro kv2 hm2
              have := h1 kv2 hm2
              omega
            rw [hz, ← hk, hgz]
            simp [Nat.lor_comm]
          · rw [if_neg hk, mapGet, if_neg hk]
        · intro kv hkv
          rcases r4 kv hkv with h3 | h3
          · rcases mem_mapSet h3 with h4 | h4
            · right
              simp [h4]
            · exact Or.inl h4
          · right
            simp [h3]
      · simp only [if_neg hc]
        have hh' : ∀ kv ∈ rest, ∀ kv2 ∈ acc.bits, kv2.1 < kv.1 :=
          fun kv hkv kv2 hkv2 => hhigh kv (by simp [hkv]) kv2 hkv2
        obtain ⟨r1, r2, r3, r4⟩ := ih h2 acc hacc1 hacc2 hh'
        refine ⟨r1, r2, ?_, ?_⟩
        · intro k
          rw [r3 k, mapGet]
          by_cases hk : kv1.1 = k
          · rw [if_pos hk]
            have hz : mapGet rest k = 0 := by
              apply mapGet_eq_zero
              intro kv2 hm2
              have := h1 kv2 hm2
              omega
            rw [hz, ← hk]
            simp only [ne_eq, not_not] at hc
            rw [hc]
            simp
          · rw [if_neg hk]
        · intro kv hkv
          rcases r4 kv hkv with h3 | h3
          · exact Or.inl h3
          · right
            simp [h3]

theorem Intersection_spec (s o : Set) (hs : keysSorted s.bits) :
    keysSorted
      (s.bits.foldl
        (fun acc kv =>
          let c := kv.2 &&& mapGet o.bits kv.1
          if c ≠ 0 then ⟨acc.bitcount + bitcount c, mapSet acc.bits kv.1 c⟩
          else acc)
        Make).bits ∧
    (s.bits.foldl
        (fun acc kv =>
          let c := kv.2 &&& mapGet o.bits kv.1
          if c ≠ 0 then ⟨acc.bitcount + bitcount c, mapSet acc.bits kv.1 c⟩
          else acc)
        Make).bitcount
      = totalPop (s.bits.foldl
        (fun acc kv =>
          let c := kv.2 &&& mapGet o.bits kv.1
          if c ≠ 0 then ⟨acc.bitcount + bitcount c, mapSet acc.bits kv.1 c⟩
          else acc)
        Make).bits ∧
    (∀ k, mapGet
        (s.bits.foldl
          (fun acc kv =>
            let c := kv.2 &&& mapGet o.bits kv.1
            if c ≠ 0 then ⟨acc.bitcount + bitcount c, mapSet acc.bits kv.1 c⟩
            else acc)
          Make).bits k
      = mapGet s.bits k &&& mapGet o.bits k) ∧
    (∀ kv ∈ (s.bits.foldl
          (fun acc kv =>
            let c := kv.2 &&& mapGet o.bits kv.1
            if c ≠ 0 then ⟨acc.bitcount + bitcount c, mapSet acc.bits kv.1 c⟩
            else acc)
          Make).bits, kv.1 ∈ s.bits.map Prod.fst) := by
  obtain ⟨r1, r2, r3, r4⟩ :=
    interFold o.bits s.bits hs Make (by simp [Make, keysSorted]) rfl
      (by simp [Make])
  refine ⟨r1, r2, ?_, ?_⟩
  · intro k
    rw [r3 k]
    simp [Make, mapGet]
  · intro kv hkv
    rcases r4 kv hkv with h | h
    · simp [Make] at h
    · exact h

theorem Intersection_eq_fold (a b : Set) :
    Intersection a b
      = (szorder a b).1.bits.foldl
          (fun acc kv =>
            let c := kv.2 &&& mapGet (szorder a b).2.bits kv.1
            if c ≠ 0 then ⟨acc.bitcount + bitcount c, mapSet acc.bits kv.1 c⟩
            else acc)
          Make := rfl

theorem mem_F_of_a {a b : Set} {k : Int}
    (h : k ∈ a.bits.map Prod.fst) :
    k ∈ (a.bits.map Prod.fst ++ b.bits.map Prod.fst).toFinset := by
  rw [List.mem_toFinset, List.mem_append]
  exact Or.inl h

theorem mem_F_of_b {a b : Set} {k : Int}
    (h : k ∈ b.bits.map Prod.fst) :
    k ∈ (a.bits.map Prod.fst ++ b.bits.map Prod.fst).toFinset := by
  rw [List.mem_toFinset, List.mem_append]
  exact Or.inr h

/-- `|Union(A,B)| + |Intersection(A,B)| = |A| + |B|` for well-formed
bitsets (the additive form of the claim's cardinality identity). -/
theorem bitset_card_identity (a b : Set) (ha : WF a) (hb : WF b) :
    (Union a b).bitcount + (Intersection a b).bitcount
      = a.bitcount + b.bitcount := by
  classical
  set F := (a.bits.map Prod.fst ++ b.bits.map Prod.fst).toFinset with hF
  have hA : a.bitcount = ∑ k ∈ F, bitcount (mapGet a.bits k) := by
    rw [ha.2.2]
    exact totalPop_eq_sum _ ha.1 F
      (fun kv hkv => mem_F_of_a (by simp; exact ⟨kv.2, hkv⟩))
  have hB : b.bitcount = ∑ k ∈ F, bitcount (mapGet b.bits k) := by
    rw [hb.2.2]
    exact totalPop_eq_sum _ hb.1 F
      (fun kv hkv => mem_F_of_b (by simp; exact ⟨kv.2, hkv⟩))
  have hU : (Union a b).bitcount
      = ∑ k ∈ F, bitcount (mapGet a.bits k ||| mapGet b.bits k) := by
    rw [Union_bitcount_eq]
    rw [totalPop_eq_sum (Union a b).bits
      (by rw [Union_bits_eq]; exact unionFold_sorted _ _ ha.1) F ?_]
    · exact Finset.sum_congr rfl (fun k _ => by rw [Union_get a b hb.1])
    · intro kv hkv
      rw [Union_bits_eq] at hkv
      rcases unionFold_mem b.bits a.bits hkv with h | h
      · exact mem_F_of_a (by simp; exact ⟨kv.2, h⟩)
      · exact mem_F_of_b h
  have hI : (Intersection a b).bitcount
      = ∑ k ∈ F, bitcount (mapGet a.bits k &&& mapGet b.bits k) := by
    rw [Intersection_eq_fold]
    by_cases hsz : a.bits.length < b.bits.length
    · have hsz1 : (szorder a b).1 = a := by simp [szorder, hsz]
      have hsz2 : (szorder a b).2 = b := by simp [szorder, hsz]
      rw [hsz1, hsz2]
      obtain ⟨r1, r2, r3, r4⟩ := Intersection_spec a b ha.1
      rw [r2, totalPop_eq_sum _ r1 F
        (fun kv hkv => mem_F_of_a (r4 kv hkv))]
      exact Finset.sum_congr rfl (fun k _ => by rw [r3 k])
    · have hsz1 : (szorder a b).1 = b := by simp [szorder, hsz]
      have hsz2 : (szorder a b).2 = a := by simp [szorder, hsz]
      rw [hsz1, hsz2]
      obtain ⟨r1, r2, r3, r4⟩ := Intersection_spec b a hb.1
      rw [r2, totalPop_eq_sum _ r1 F
        (fun kv hkv => mem_F_of_b (r4 kv hkv))]
      exact Finset.sum_congr rfl
        (fun k _ => by rw [r3 k, Nat.land_comm])
  rw [hA, hB, hU, hI, ← Finset.sum_add_distrib, ← Finset.sum_add_distrib]
  exact Finset.sum_congr rfl (fun k _ => bitcount_lor_add_land _ _)

theorem intersect_any_iff (s o : Set) (hs : keysSorted s.bits) :
    (s.bits.any (fun kv => (kv.2 &&& mapGet o.bits kv.1) != 0)) = true
      ↔ ∃ k, mapGet s.bits k &&& mapGet o.bits k ≠ 0 := by
  rw [List.any_eq_true]
  constructor
  · rintro ⟨kv, hm, hp⟩
    refine ⟨kv.1, ?_⟩
    rw [mapGet_of_mem hs hm]
    simpa using hp
  · rintro ⟨k, hk⟩
    have hz : mapGet s.bits k ≠ 0 := by
      intro h0
      rw [h0] at hk
      simp at hk
    rcases mapGet_mem s.bits k with h0 | h0
    · exact absurd h0 hz
    · exact ⟨(k, mapGet s.bits k), h0, by simpa using hk⟩

theorem Intersect_iff (a b : Set) (ha : WF a) (hb : WF b) :
    Intersect a b = true ↔ ∃ k, mapGet a.bits k &&& mapGet b.bits k ≠ 0 := by
  unfold Intersect szorder
  by_cases hsz : a.bits.length < b.bits.length
  · rw [if_pos hsz]
    exact intersect_any_iff a b ha.1
  · rw [if_neg hsz]
    rw [intersect_any_iff b a hb.1]
    exact exists_congr (fun k => by rw [Nat.land_comm])

/-- `Intersect` gives the same answer regardless of the operand order. -/
theorem Intersect_comm (a b : Set) (ha : WF a) (hb : WF b) :
    Intersect a b = Intersect b a := by
  have hbool : ∀ x y : Bool, (x = true ↔ y = true) → x = y := by decide
  apply hbool
  rw [Intersect_iff a b ha hb, Intersect_iff b a hb ha]
  exact exists_congr (fun k => by rw [Nat.land_comm])

/-- `Disjoint` is the boolean negation of `Intersect`, by the very shape
of their loops. -/
theorem Disjoint_eq_not_Intersect (a b : Set) :
    Disjoint a b = !Intersect a b := by
  have hbool : ∀ x y : Bool, (x = true ↔ y = true) → x = y := by decide
  apply hbool
  unfold Disjoint Intersect
  rw [Bool.not_eq_true', ← Bool.not_eq_true (List.any _ _), List.all_eq_true,
    List.any_eq_true]
  push_neg
  constructor
  · intro h kv hm
    have := h kv hm
    simpa using this
  · intro h kv hm
    have := h kv hm
    simpa using this

end BSet

/-- C10: in every bitset state reachable from `Make()` by a sequence of
`Add`, `Remove` and `Clear` calls, the chunk map never stores a
zero-valued chunk and the cached `bitcount` equals the sum of the
popcounts of all stored chunks. -/
theorem C10_bitset_invariant (ops : List BSet.BOp) :
    (∀ kv ∈ (BSet.runBOps ops).bits, kv.2 ≠ 0) ∧
    (BSet.runBOps ops).bitcount = BSet.totalPop (BSet.runBOps ops).bits := by
  have h := BSet.WF_runBOps ops
  exact ⟨fun kv hm => (h.2.1 kv hm).1, h.2.2⟩

/-- C8: for every value in the signed 64-bit range, mapping through
`sbitlocation` and back through `imemberval` (at the bit position encoded
by the single-bit mask, as `getbits` extracts it) returns exactly the
original value; in particular the mask always holds exactly one bit. -/
theorem C8_location_roundtrip (bit : Int) (h1 : -(2 ^ 63) ≤ bit) (h2 : bit < 2 ^ 63) :
    ∃ n : Nat, n < BSet.bitchunkSZ ∧
      (BSet.sbitlocation bit).2 = 2 ^ n ∧
      BSet.getbits (BSet.sbitlocation bit).2 = [n] ∧
      BSet.bitcount (BSet.sbitlocation bit).2 = 1 ∧
      BSet.imemberval (BSet.sbitlocation bit).1 n = bit := by
  have hsz : ((BSet.bitchunkSZ : Nat) : Int) = 64 := rfl
  by_cases hneg : bit < 0
  · by_cases hmin : bit = -(2 ^ 63)
    · subst hmin
      refine ⟨0, by norm_num [BSet.bitchunkSZ], ?_, ?_, ?_, ?_⟩
      · decide
      · rw [show (BSet.sbitlocation (-(2 ^ 63))).2 = 2 ^ 0 from by decide,
          BSet.getbits_two_pow]
      · rw [show (BSet.sbitlocation (-(2 ^ 63))).2 = 2 ^ 0 from by decide,
          BSet.bitcount_two_pow]
      · decide
    · have hw : BSet.wrap64 (-bit) = -bit :=
        BSet.wrap64_eq_self (by omega) (by omega)
      have hmn : 0 ≤ Int.tmod (-bit) 64 := Int.tmod_nonneg 64 (by omega)
      have hml : Int.tmod (-bit) 64 < 64 :=
        Int.tmod_lt_of_pos (-bit) (by norm_num)
      refine ⟨(Int.tmod (-bit) 64).toNat, by
        simp only [BSet.bitchunkSZ]; omega, ?_, ?_, ?_, ?_⟩
      · simp [BSet.sbitlocation, if_pos hneg, hw, hsz, Nat.one_shiftLeft]
      · simp [BSet.sbitlocation, if_pos hneg, hw, hsz, Nat.one_shiftLeft,
          BSet.getbits_two_pow]
      · simp [BSet.sbitlocation, if_pos hneg, hw, hsz, Nat.one_shiftLeft,
          BSet.bitcount_two_pow]
      · have hkey : (BSet.sbitlocation bit).1 = Int.tdiv bit 64 - 1 := by
          simp [BSet.sbitlocation, if_pos hneg, hsz]
        have hdivneg : Int.tdiv bit 64 = -Int.tdiv (-bit) 64 := by
          rw [← Int.neg_tdiv]
          simp
        have hdnn : 0 ≤ Int.tdiv (-bit) 64 := Int.tdiv_nonneg (by omega) (by norm_num)
        rw [BSet.imemberval, hkey, if_pos (by omega)]
        have := Int.tdiv_add_tmod (-bit) 64
        rw [Int.toNat_of_nonneg hmn, hsz]
        omega
  · have hmn : 0 ≤ Int.tmod bit 64 := Int.tmod_nonneg 64 (by omega)
    have hml : Int.tmod bit 64 < 64 := Int.tmod_lt_of_pos bit (by norm_num)
    have hdnn : 0 ≤ Int.tdiv bit 64 := Int.tdiv_nonneg (by omega) (by norm_num)
    refine ⟨(Int.tmod bit 64).toNat, by
      simp only [BSet.bitchunkSZ]; omega, ?_, ?_, ?_, ?_⟩
    · simp [BSet.sbitlocation, if_neg hneg, hsz, Nat.one_shiftLeft]
    · simp [BSet.sbitlocation, if_neg hneg, hsz, Nat.one_shiftLeft,
        BSet.getbits_two_pow]
    · simp [BSet.sbitlocation, if_neg hneg, hsz, Nat.one_shiftLeft,
        BSet.bitcount_two_pow]
    · have hkey : (BSet.sbitlocation bit).1 = Int.tdiv bit 64 := by
        simp [BSet.sbitlocation, if_neg hneg, hsz]
      rw [BSet.imemberval, hkey, if_neg (by omega)]
      have := Int.tdiv_add_tmod bit 64
      rw [Int.toNat_of_nonneg hmn, hsz]
      omega

/-- C8 witness: the round trip at the negative value -1 (a value whose
key/offset computation exercises the floor-compensation path). -/
theorem C8_witness :
    -(2 ^ 63) ≤ (-1 : Int) ∧ (-1 : Int) < 2 ^ 63 ∧
    ∃ n : Nat, n < BSet.bitchunkSZ ∧
      (BSet.sbitlocation (-1)).2 = 2 ^ n ∧
      BSet.getbits (BSet.sbitlocation (-1)).2 = [n] ∧
      BSet.bitcount (BSet.sbitlocation (-1)).2 = 1 ∧
      BSet.imemberval (BSet.sbitlocation (-1)).1 n = -1 :=
  ⟨by norm_num, by norm_num,
   C8_location_roundtrip (-1) (by norm_num) (by norm_num)⟩

/-- C1: the claim as stated is false for the `llrb_tree` filtering insert:
after inserting the pair (1, 10) into a filtering tree whose comparison
uses only the key, inserting the equal-keyed pair (1, 20) leaves the
stored item (1, 10) in place (first-write-wins) instead of overwriting it
with (1, 20); the count stays 1 and no insertion is reported. -/
theorem C1_counterexample :
    (tree_insert cmpPair (tree_insert cmpPair (Make (Int × Int) true) (1, 10)) (1, 20)).count
        = 1 ∧
    iterate_inorder
        (tree_insert cmpPair (tree_insert cmpPair (Make (Int × Int) true) (1, 10)) (1, 20)).root
        = [(1, 10)] ∧
    iterate_inorder
        (tree_insert cmpPair (tree_insert cmpPair (Make (Int × Int) true) (1, 10)) (1, 20)).root
        ≠ [(1, 20)] := by
  refine ⟨rfl, rfl, ?_⟩
  decide

/-- C1 (amended): when an inserted item compares equal (per the ordering
capability) to a stored item found by the search descent, both filtering
inserts report "not newly inserted" and leave the count unchanged; the
heteroset insert overwrites the stored item with the new one
(last-write-wins), while the `llrb_tree` filtering insert keeps the
previously stored item (first-write-wins). -/
theorem C1_insert_equal_behaviour (c : α → α → Int) (t : Link α) (item x : α)
    (h : find_inst c t item = some x) (n : Nat) :
    (insert c t item).2 = false ∧
    iterate_inorder (insert c t item).1 = iterate_inorder t ∧
    (tree_insert c ⟨t, n, false⟩ item).count = n ∧
    (insert_hetero c t item).2 = false ∧
    (HSet.Add c ⟨t, n⟩ item).count = n ∧
    ∃ pre post, iterate_inorder t = pre ++ x :: post ∧
      iterate_inorder (insert_hetero c t item).1 = pre ++ item :: post := by
  obtain ⟨h1, h2⟩ := insert_found c t item x h
  obtain ⟨h3, pre, post, h4, h5⟩ := insert_hetero_found c t item x h
  refine ⟨h1, h2, ?_, h3, ?_, pre, post, h4, h5⟩
  · simp [tree_insert, h1]
  · simp [HSet.Add, h3]

/-- C1 witness: the amended statement applied to the concrete one-node
tree storing (1, 10) probed with the equal-keyed (1, 20). -/
theorem C1_witness :
    find_inst cmpPair (.node ((1 : Int), (10 : Int)) .nil .nil false) (1, 20)
        = some (1, 10) ∧
    ((insert cmpPair (.node (1, 10) .nil .nil false) (1, 20)).2 = false ∧
     iterate_inorder (insert cmpPair (.node (1, 10) .nil .nil false) (1, 20)).1
        = iterate_inorder (.node ((1 : Int), (10 : Int)) .nil .nil false) ∧
     (tree_insert cmpPair ⟨.node (1, 10) .nil .nil false, 1, false⟩ (1, 20)).count = 1 ∧
     (insert_hetero cmpPair (.node (1, 10) .nil .nil false) (1, 20)).2 = false ∧
     (HSet.Add cmpPair ⟨.node (1, 10) .nil .nil false, 1⟩ (1, 20)).count = 1 ∧
     ∃ pre post,
       iterate_inorder (.node ((1 : Int), (10 : Int)) .nil .nil false)
          = pre ++ (1, 10) :: post ∧
       iterate_inorder (insert_hetero cmpPair (.node (1, 10) .nil .nil false) (1, 20)).1
          = pre ++ (1, 20) :: post) :=
  ⟨by decide,
   C1_insert_equal_behaviour cmpPair (.node (1, 10) .nil .nil false) (1, 20) (1, 10)
     (by decide) 1⟩

/-- C2: the claim's find half holds (an empty tree or set reports
not-found without failing), but the delete half is violated by the code:
`ll_rb_tree.delete` and `Set.Remove` call the internal `delete` on the nil
root, whose immediate `node.compare_item(item)` dereferences nil and
panics (and `this.root.red = false` would equally panic), under either
duplicate policy. -/
theorem C2_empty_delete_panics :
    tree_delete cmpInt (Make Int true) 1 = none ∧
    tree_delete cmpInt (Make Int false) 1 = none ∧
    HSet.Remove cmpInt (HSet.New Int) 1 = none ∧
    find cmpInt (Make Int true) 1 = (false, 0) ∧
    HSet.Find cmpInt (HSet.New Int) 1 = (none, false) := by
  have h : deleteO cmpInt (Link.nil : Link Int) 1 = none := by
    rw [deleteO.eq_def]
  refine ⟨?_, ?_, ?_, rfl, rfl⟩ <;>
    simp [tree_delete, Make, HSet.Remove, HSet.New, h]

/-- C3: deleting an item that is not present in a non-empty tree is not a
completing no-op: with the single-node tree containing 5, deleting 3
evaluates `is_red(node.left.left)` with `node.left == nil` and deleting 7
evaluates `is_red(node.right.left)` with `node.right == nil`; both are nil
dereferences (runtime panics), not normal returns. -/
theorem C3_absent_delete_panics :
    tree_delete cmpInt (tree_insert cmpInt (Make Int true) 5) 3 = none ∧
    tree_delete cmpInt (tree_insert cmpInt (Make Int true) 5) 7 = none := by
  have h1 : tree_insert cmpInt (Make Int true) 5 =
      ⟨.node 5 .nil .nil false, 1, false⟩ := by rfl
  rw [h1]
  have hd3 : deleteO cmpInt (Link.node (5 : Int) .nil .nil false) 3 = none := by
    rw [deleteO.eq_def]
    norm_num [cmpInt]
    split
    · rfl
    · rfl
    next h2 => simp [step_left] at h2
  have hd7 : deleteO cmpInt (Link.node (5 : Int) .nil .nil false) 7 = none := by
    rw [deleteO.eq_def]
    norm_num [cmpInt]
    split
    next h2 => simp [is_red] at h2
    next y yl yr yc h2 =>
      simp [is_red] at h2
      obtain ⟨hy, hyl, hyr, hyc⟩ := h2
      subst hy; subst hyl; subst hyr; subst hyc
      norm_num [cmpInt, Link.isNil]
      split
      · rfl
      · rfl
      next h3 => simp [step_right] at h3
  exact ⟨by simp [tree_delete, hd3], by simp [tree_delete, hd7]⟩

/-- C4: the claim fails on the code in exactly the case it highlights:
when `x` is the only item of the tree, the internal `delete` removes the
node and returns a nil root, and the facade's unconditional
`this.root.red = false` then dereferences nil and panics, so the
subsequent `find` is never reached (while `find` before the delete does
report the item present). -/
theorem C4_delete_last_item_panics :
    tree_delete cmpInt (tree_insert cmpInt (Make Int true) 5) 5 = none ∧
    (find cmpInt (tree_insert cmpInt (Make Int true) 5) 5).1 = true := by
  have h1 : tree_insert cmpInt (Make Int true) 5 =
      ⟨.node 5 .nil .nil false, 1, false⟩ := by rfl
  rw [h1]
  refine ⟨?_, rfl⟩
  have hd5 : deleteO cmpInt (Link.node (5 : Int) .nil .nil false) 5
      = some (.nil, true) := by
    rw [deleteO.eq_def]
    norm_num [cmpInt]
    split
    next h2 => simp [is_red] at h2
    next y yl yr yc h2 =>
      simp [is_red] at h2
      obtain ⟨hy, hyl, hyr, hyc⟩ := h2
      subst hy; subst hyl; subst hyr; subst hyc
      norm_num [Link.isNil]
  simp [tree_delete, hd5, set_root_black]

theorem dlm_eq_nil_left (x : α) (r : Link α) (co : Bool) :
    delete_left_mostO (Link.node x .nil r co) = some .nil := by
  rw [delete_left_mostO]

theorem dlm_eq_step {x lx : α} {ll lr r : Link α} {lc co : Bool}
    {x1 : α} {l1 r1 : Link α} {c1 : Bool}
    (hs : (if !lc && !is_red ll
        then move_red_leftO (Link.node x (Link.node lx ll lr lc) r co)
        else some (Link.node x (Link.node lx ll lr lc) r co)) =
      some (Link.node x1 l1 r1 c1)) :
    delete_left_mostO (Link.node x (Link.node lx ll lr lc) r co) =
      match delete_left_mostO l1 with
      | none => none
      | some l2 => some (fix_up (Link.node x1 l2 r1 c1)) := by
  rw [delete_left_mostO]
  split
  next heq2 =>
      exact absurd heq2 (by rw [hs]; simp)
  next heq2 =>
      exact absurd heq2 (by rw [hs]; simp)
  next a b d e heq2 =>
      rw [hs] at heq2
      obtain ⟨h1, h2, h3, h4⟩ := Link.node.inj (Option.some.inj heq2)
      subst h1
      subst h2
      subst h3
      subst h4
      rfl

theorem deleteO_eq_left {c : α → α → Int} {x item : α} {l r : Link α}
    {co : Bool} {x1 : α} {l1 r1 : Link α} {c1 : Bool}
    (hc : c x item > 0)
    (hs : step_left (Link.node x l r co) = some (Link.node x1 l1 r1 c1)) :
    deleteO c (Link.node x l r co) item =
      match deleteO c l1 item with
      | none => none
      | some (l2, d) => some (fix_up (Link.node x1 l2 r1 c1), d) := by
  rw [deleteO]
  rw [if_pos hc]
  split
  next heq2 =>
      exact absurd heq2 (by rw [hs]; simp)
  next heq2 =>
      exact absurd heq2 (by rw [hs]; simp)
  next a b d e heq2 =>
      rw [hs] at heq2
      obtain ⟨h1, h2, h3, h4⟩ := Link.node.inj (Option.some.inj heq2)
      subst h1
      subst h2
      subst h3
      subst h4
      rfl

theorem deleteO_eq_found {c : α → α → Int} {x item : α} {l r : Link α}
    {co : Bool} {y : α} {yl yr : Link α} {yc : Bool}
    (hc : ¬ c x item > 0)
    (h2 : (if is_red l then rotate_right (Link.node x l r co)
        else Link.node x l r co) = Link.node y yl yr yc)
    (hcond : (c y item == 0 && yr.isNil) = true) :
    deleteO c (Link.node x l r co) item = some (.nil, true) := by
  rw [deleteO]
  rw [if_neg hc]
  split
  next heq2 =>
      exact absurd heq2 (by rw [h2]; simp)
  next y' yl' yr' yc' heq2 =>
      rw [h2] at heq2
      obtain ⟨e1, e2, e3, e4⟩ := Link.node.inj heq2
      subst e1
      subst e2
      subst e3
      subst e4
      rw [if_pos hcond]

theorem deleteO_eq_splice {c : α → α → Int} {x item : α} {l r : Link α}
    {co : Bool} {y : α} {yl yr : Link α} {yc : Bool}
    {z : α} {zl zr : Link α} {zc : Bool}
    (hc : ¬ c x item > 0)
    (h2 : (if is_red l then rotate_right (Link.node x l r co)
        else Link.node x l r co) = Link.node y yl yr yc)
    (hcond : (c y item == 0 && yr.isNil) = false)
    (h3 : step_right (Link.node y yl yr yc) = some (Link.node z zl zr zc))
    (hz : (c z item == 0) = true) :
    deleteO c (Link.node x l r co) item =
      match leftmostO zr with
      | none => none
      | some lm =>
          match delete_left_mostO zr with
          | none => none
          | some zr2 => some (fix_up (Link.node lm zl zr2 zc), true) := by
  rw [deleteO]
  rw [if_neg hc]
  split
  next heq2 =>
      exact absurd heq2 (by rw [h2]; simp)
  next y' yl' yr' yc' heq2 =>
      rw [h2] at heq2
      obtain ⟨e1, e2, e3, e4⟩ := Link.node.inj heq2
      subst e1
      subst e2
      subst e3
      subst e4
      rw [if_neg (by simp [hcond])]
      split
      next heq3 =>
          exact absurd heq3 (by rw [h3]; simp)
      next heq3 =>
          exact absurd heq3 (by rw [h3]; simp)
      next a b d e heq3 =>
          rw [h3] at heq3
          obtain ⟨f1, f2, f3, f4⟩ := Link.node.inj (Option.some.inj heq3)
          subst f1
          subst f2
          subst f3
          subst f4
          rw [if_pos (by simp at hz ⊢; omega)]

theorem deleteO_eq_right {c : α → α → Int} {x item : α} {l r : Link α}
    {co : Bool} {y : α} {yl yr : Link α} {yc : Bool}
    {z : α} {zl zr : Link α} {zc : Bool}
    (hc : ¬ c x item > 0)
    (h2 : (if is_red l then rotate_right (Link.node x l r co)
        else Link.node x l r co) = Link.node y yl yr yc)
    (hcond : (c y item == 0 && yr.isNil) = false)
    (h3 : step_right (Link.node y yl yr yc) = some (Link.node z zl zr zc))
    (hz : (c z item == 0) = false) :
    deleteO c (Link.node x l r co) item =
      match deleteO c zr item with
      | none => none
      | some (r2, d) => some (fix_up (Link.node z zl r2 zc), d) := by
  rw [deleteO]
  rw [if_neg hc]
  split
  next heq2 =>
      exact absurd heq2 (by rw [h2]; simp)
  next y' yl' yr' yc' heq2 =>
      rw [h2] at heq2
      obtain ⟨e1, e2, e3, e4⟩ := Link.node.inj heq2
      subst e1
      subst e2
      subst e3
      subst e4
      rw [if_neg (by simp [hcond])]
      split
      next heq3 =>
          exact absurd heq3 (by rw [h3]; simp)
      next heq3 =>
          exact absurd heq3 (by rw [h3]; simp)
      next a b d e heq3 =>
          rw [h3] at heq3
          obtain ⟨f1, f2, f3, f4⟩ := Link.node.inj (Option.some.inj heq3)
          subst f1
          subst f2
          subst f3
          subst f4
          rw [if_neg (by simp at hz ⊢; omega)]

theorem deleteO_eq_sl_none {c : α → α → Int} {x item : α} {l r : Link α}
    {co : Bool} (hc : c x item > 0)
    (hs : step_left (Link.node x l r co) = none) :
    deleteO c (Link.node x l r co) item = none := by
  rw [deleteO, if_pos hc]
  split
  next heq2 => rfl
  next heq2 =>
      exact absurd heq2 (by rw [hs]; simp)
  next a b d e heq2 =>
      exact absurd heq2 (by rw [hs]; simp)

theorem deleteO_eq_sl_nil {c : α → α → Int} {x item : α} {l r : Link α}
    {co : Bool} (hc : c x item > 0)
    (hs : step_left (Link.node x l r co) = some .nil) :
    deleteO c (Link.node x l r co) item = none := by
  rw [deleteO, if_pos hc]
  split
  next heq2 => rfl
  next heq2 => rfl
  next a b d e heq2 =>
      exact absurd heq2 (by rw [hs]; simp)

theorem deleteO_eq_h2_nil {c : α → α → Int} {x item : α} {l r : Link α}
    {co : Bool} (hc : ¬ c x item > 0)
    (h2 : (if is_red l then rotate_right (Link.node x l r co)
        else Link.node x l r co) = Link.nil) :
    deleteO c (Link.node x l r co) item = none := by
  rw [deleteO, if_neg hc]
  split
  next heq2 => rfl
  next y' yl' yr' yc' heq2 =>
      exact absurd heq2 (by rw [h2]; simp)

theorem deleteO_eq_sr_none {c : α → α → Int} {x item : α} {l r : Link α}
    {co : Bool} {y : α} {yl yr : Link α} {yc : Bool}
    (hc : ¬ c x item > 0)
    (h2 : (if is_red l then rotate_right (Link.node x l r co)
        else Link.node x l r co) = Link.node y yl yr yc)
    (hcond : (c y item == 0 && yr.isNil) = false)
    (h3 : step_right (Link.node y yl yr yc) = none) :
    deleteO c (Link.node x l r co) item = none := by
  rw [deleteO, if_neg hc]
  split
  next heq2 =>
      exact absurd heq2 (by rw [h2]; simp)
  next y' yl' yr' yc' heq2 =>
      rw [h2] at heq2
      obtain ⟨e1, e2, e3, e4⟩ := Link.node.inj heq2
      subst e1
      subst e2
      subst e3
      subst e4
      rw [if_neg (by simp [hcond])]
      split
      next heq3 => rfl
      next heq3 =>
          exact absurd heq3 (by rw [h3]; simp)
      next a b d e heq3 =>
          exact absurd heq3 (by rw [h3]; simp)

theorem deleteO_eq_sr_nil {c : α → α → Int} {x item : α} {l r : Link α}
    {co : Bool} {y : α} {yl yr : Link α} {yc : Bool}
    (hc : ¬ c x item > 0)
    (h2 : (if is_red l then rotate_right (Link.node x l r co)
        else Link.node x l r co) = Link.node y yl yr yc)
    (hcond : (c y item == 0 && yr.isNil) = false)
    (h3 : step_right (Link.node y yl yr yc) = some .nil) :
    deleteO c (Link.node x l r co) item = none := by
  rw [deleteO, if_neg hc]
  split
  next heq2 =>
      exact absurd heq2 (by rw [h2]; simp)
  next y' yl' yr' yc' heq2 =>
      rw [h2] at heq2
      obtain ⟨e1, e2, e3, e4⟩ := Link.node.inj heq2
      subst e1
      subst e2
      subst e3
      subst e4
      rw [if_neg (by simp [hcond])]
      split
      next heq3 => rfl
      next heq3 => rfl
      next a b d e heq3 =>
          exact absurd heq3 (by rw [h3]; simp)

theorem delete_left_mostO_size :
    ∀ {t t2 : Link α}, delete_left_mostO t = some t2 → t2.size < t.size := by
  intro t
  induction t using delete_left_mostO.induct with
  | case1 =>
      intro t2 h
      rw [delete_left_mostO] at h
      exact Option.noConfusion h
  | case2 x r red =>
      intro t2 h
      rw [dlm_eq_nil_left] at h
      cases Option.some.inj h
      simp [Link.size]
  | case3 x lx ll lr lc r co heq =>
      intro t2 h
      simp only [dite_eq_ite] at heq
      rw [delete_left_mostO] at h
      split at h
      · exact Option.noConfusion h
      · exact Option.noConfusion h
      next a b d e heq2 =>
          exact absurd heq2 (by rw [heq]; simp)
  | case4 x lx ll lr lc r co heq =>
      intro t2 h
      simp only [dite_eq_ite] at heq
      rw [delete_left_mostO] at h
      split at h
      · exact Option.noConfusion h
      · exact Option.noConfusion h
      next a b d e heq2 =>
          exact absurd heq2 (by rw [heq]; simp)
  | case5 x lx ll lr lc r co x1 l1 r1 c1 heq hrec ih =>
      intro t2 h
      simp only [dite_eq_ite] at heq
      rw [dlm_eq_step heq] at h
      rw [hrec] at h
      exact Option.noConfusion h
  | case6 x lx ll lr lc r co x1 l1 r1 c1 heq t1 hrec ih =>
      intro t2 h
      simp only [dite_eq_ite] at heq
      rw [dlm_eq_step heq] at h
      rw [hrec] at h
      cases Option.some.inj h
      have h1 := ih hrec
      have hM : (Link.node x1 l1 r1 c1).size =
          (Link.node x (Link.node lx ll lr lc) r co).size := by
        split at heq
        · exact move_red_leftO_size heq
        · cases heq
          rfl
      simp only [Link.size] at hM ⊢
      rw [fix_up_size]
      simp only [Link.size]
      omega

theorem deleteO_size {c : α → α → Int} :
    ∀ {t : Link α} {item : α} {t' : Link α} {flag : Bool},
      deleteO c t item = some (t', flag) →
      (flag = false → t'.size = t.size) ∧ (flag = true → t'.size < t.size) := by
  intro t item
  induction t, item using deleteO.induct (c := c) with
  | case1 item =>
      intro t' flag h
      rw [deleteO] at h
      exact Option.noConfusion h
  | case2 item x l r co hc heq =>
      intro t' flag h
      rw [deleteO_eq_sl_none hc heq] at h
      exact Option.noConfusion h
  | case3 item x l r co hc heq =>
      intro t' flag h
      rw [deleteO_eq_sl_nil hc heq] at h
      exact Option.noConfusion h
  | case4 item x l r co hc x1 l1 r1 c1 heq hrec ih =>
      intro t' flag h
      rw [deleteO_eq_left hc heq] at h
      rw [hrec] at h
      exact Option.noConfusion h
  | case5 item x l r co hc x1 l1 r1 c1 heq l2 d hrec ih =>
      intro t' flag h
      rw [deleteO_eq_left hc heq] at h
      rw [hrec] at h
      obtain ⟨h1, h2⟩ := Prod.mk.inj (Option.some.inj h)
      subst h1
      subst h2
      have hS := step_left_size heq
      have hI := ih hrec
      simp only [Link.size] at hS ⊢
      rw [fix_up_size]
      simp only [Link.size]
      refine ⟨fun hf => ?_, fun hf => ?_⟩
      · have := hI.1 hf
        omega
      · have := hI.2 hf
        omega
  | case6 item x l r co hc heq =>
      intro t' flag h
      simp only [dite_eq_ite] at heq
      rw [deleteO_eq_h2_nil hc heq] at h
      exact Option.noConfusion h
  | case7 item x l r co hc y yl yr yc heq hcond =>
      intro t' flag h
      simp only [dite_eq_ite] at heq
      rw [deleteO_eq_found hc heq hcond] at h
      obtain ⟨h1, h2⟩ := Prod.mk.inj (Option.some.inj h)
      subst h1
      subst h2
      refine ⟨fun hf => Bool.noConfusion hf, fun _ => ?_⟩
      simp [Link.size]
  | case8 item x l r co hc y yl yr yc heq hcond heq3 =>
      intro t' flag h
      simp only [dite_eq_ite] at heq
      rw [deleteO_eq_sr_none hc heq (by simp [hcond]) heq3] at h
      exact Option.noConfusion h
  | case9 item x l r co hc y yl yr yc heq hcond heq3 =>
      intro t' flag h
      simp only [dite_eq_ite] at heq
      rw [deleteO_eq_sr_nil hc heq (by simp [hcond]) heq3] at h
      exact Option.noConfusion h
  | case10 item x l r co hc y yl yr yc heq hcond z zl zr zc heq3 hz heq4 =>
      intro t' flag h
      simp only [dite_eq_ite] at heq
      rw [deleteO_eq_splice hc heq (by simp [hcond]) heq3 (by simp [hz])] at h
      rw [heq4] at h
      exact Option.noConfusion h
  | case11 item x l r co hc y yl yr yc heq hcond z zl zr zc heq3 hz lm heq4 heq5 =>
      intro t' flag h
      simp only [dite_eq_ite] at heq
      rw [deleteO_eq_splice hc heq (by simp [hcond]) heq3 (by simp [hz])] at h
      rw [heq4, heq5] at h
      exact Option.noConfusion h
  | case12 item x l r co hc y yl yr yc heq hcond z zl zr zc heq3 hz lm heq4 zr2 heq5 =>
      intro t' flag h
      simp only [dite_eq_ite] at heq
      rw [deleteO_eq_splice hc heq (by simp [hcond]) heq3 (by simp [hz])] at h
      rw [heq4, heq5] at h
      obtain ⟨h1, h2⟩ := Prod.mk.inj (Option.some.inj h)
      subst h1
      subst h2
      refine ⟨fun hf => Bool.noConfusion hf, fun _ => ?_⟩
      have hS3 := step_right_size heq3
      have hS2 : (Link.node y yl yr yc).size = (Link.node x l r co).size := by
        split at heq
        · rw [← heq, rotate_right_size]
        · rw [heq]
      have hD := delete_left_mostO_size heq5
      simp only [Link.size] at hS3 hS2 ⊢
      rw [fix_up_size]
      simp only [Link.size]
      omega
  | case13 item x l r co hc y yl yr yc heq hcond z zl zr zc heq3 hz heq4 ih =>
      intro t' flag h
      simp only [dite_eq_ite] at heq
      rw [deleteO_eq_right hc heq (by simp [hcond]) heq3 (by simp [hz])] at h
      rw [heq4] at h
      exact Option.noConfusion h
  | case14 item x l r co hc y yl yr yc heq hcond z zl zr zc heq3 hz r2 d heq4 ih =>
      intro t' flag h
      simp only [dite_eq_ite] at heq
      rw [deleteO_eq_right hc heq (by simp [hcond]) heq3 (by simp [hz])] at h
      rw [heq4] at h
      obtain ⟨h1, h2⟩ := Prod.mk.inj (Option.some.inj h)
      subst h1
      subst h2
      have hS3 := step_right_size heq3
      have hS2 : (Link.node y yl yr yc).size = (Link.node x l r co).size := by
        split at heq
        · rw [← heq, rotate_right_size]
        · rw [heq]
      have hI := ih heq4
      simp only [Link.size] at hS3 hS2 ⊢
      rw [fix_up_size]
      simp only [Link.size]
      refine ⟨fun hf => ?_, fun hf => ?_⟩
      · have := hI.1 hf
        omega
      · have := hI.2 hf
        omega

theorem flip_coloursO_eq {t t1 : Link α} (h : flip_coloursO t = some t1) :
    t1 = flip_colours t := by
  unfold flip_coloursO at h
  split at h
  · cases Option.some.inj h
    rfl
  · exact Option.noConfusion h

theorem flip_coloursO_inorder {t t1 : Link α} (h : flip_coloursO t = some t1) :
    iterate_inorder t1 = iterate_inorder t := by
  rw [flip_coloursO_eq h, flip_colours_inorder]

theorem move_red_leftO_inorder : ∀ {t M : Link α}, move_red_leftO t = some M →
    iterate_inorder M = iterate_inorder t := by
  intro t M h
  unfold move_red_leftO at h
  cases hf : flip_coloursO t with
  | none =>
      rw [hf] at h
      exact Option.noConfusion h
  | some t1 =>
      rw [hf] at h
      have h1 := flip_coloursO_inorder hf
      rcases t1 with _ | ⟨x, l, _ | ⟨rx, rl, rr, rc⟩, cc⟩
      · exact Option.noConfusion h
      · exact Option.noConfusion h
      · have h2 : (if is_red rl = true then
            flip_coloursO (rotate_left (Link.node x l
              (rotate_right (Link.node rx rl rr rc)) cc))
          else some (Link.node x l (Link.node rx rl rr rc) cc)) = some M := h
        by_cases hr : is_red rl = true
        · rw [if_pos hr] at h2
          rw [flip_coloursO_eq h2, flip_colours_inorder, rotate_left_inorder]
          simpa only [iterate_inorder, rotate_right_inorder] using h1
        · rw [if_neg hr] at h2
          cases Option.some.inj h2
          exact h1

theorem move_red_rightO_inorder : ∀ {t M : Link α}, move_red_rightO t = some M →
    iterate_inorder M = iterate_inorder t := by
  intro t M h
  unfold move_red_rightO at h
  cases hf : flip_coloursO t with
  | none =>
      rw [hf] at h
      exact Option.noConfusion h
  | some t1 =>
      rw [hf] at h
      have h1 := flip_coloursO_inorder hf
      rcases t1 with _ | ⟨x, _ | ⟨lx, ll, lr, lc⟩, r, cc⟩
      · exact Option.noConfusion h
      · exact Option.noConfusion h
      · have h2 : (if is_red ll = true then
            flip_coloursO (rotate_right (Link.node x
              (Link.node lx ll lr lc) r cc))
          else some (Link.node x (Link.node lx ll lr lc) r cc)) = some M := h
        by_cases hr : is_red ll = true
        · rw [if_pos hr] at h2
          rw [flip_coloursO_eq h2, flip_colours_inorder, rotate_right_inorder]
          exact h1
        · rw [if_neg hr] at h2
          cases Option.some.inj h2
          exact h1

theorem step_left_inorder {t t1 : Link α} (h : step_left t = some t1) :
    iterate_inorder t1 = iterate_inorder t := by
  unfold step_left at h
  split at h
  next =>
      split at h
      · exact move_red_leftO_inorder h
      · cases Option.some.inj h
        rfl
  next => exact Option.noConfusion h

theorem step_right_inorder {t t1 : Link α} (h : step_right t = some t1) :
    iterate_inorder t1 = iterate_inorder t := by
  unfold step_right at h
  split at h
  next =>
      split at h
      · exact move_red_rightO_inorder h
      · cases Option.some.inj h
        rfl
  next => exact Option.noConfusion h

theorem deleteO_inorder_false {c : α → α → Int} :
    ∀ {t : Link α} {item : α} {t' : Link α},
      deleteO c t item = some (t', false) →
      iterate_inorder t' = iterate_inorder t := by
  intro t item
  induction t, item using deleteO.induct (c := c) with
  | case1 item =>
      intro t' h
      rw [deleteO] at h
      exact Option.noConfusion h
  | case2 item x l r co hc heq =>
      intro t' h
      rw [deleteO_eq_sl_none hc heq] at h
      exact Option.noConfusion h
  | case3 item x l r co hc heq =>
      intro t' h
      rw [deleteO_eq_sl_nil hc heq] at h
      exact Option.noConfusion h
  | case4 item x l r co hc x1 l1 r1 c1 heq hrec ih =>
      intro t' h
      rw [deleteO_eq_left hc heq] at h
      rw [hrec] at h
      exact Option.noConfusion h
  | case5 item x l r co hc x1 l1 r1 c1 heq l2 d hrec ih =>
      intro t' h
      rw [deleteO_eq_left hc heq] at h
      rw [hrec] at h
      obtain ⟨h1, h2⟩ := Prod.mk.inj (Option.some.inj h)
      subst h1
      have hd : d = false := h2
      subst hd
      have hI := ih hrec
      have hS := step_left_inorder heq
      rw [fix_up_inorder]
      simp only [iterate_inorder] at hS ⊢
      rw [hI]
      exact hS
  | case6 item x l r co hc heq =>
      intro t' h
      simp only [dite_eq_ite] at heq
      rw [deleteO_eq_h2_nil hc heq] at h
      exact Option.noConfusion h
  | case7 item x l r co hc y yl yr yc heq hcond =>
      intro t' h
      simp only [dite_eq_ite] at heq
      rw [deleteO_eq_found hc heq hcond] at h
      obtain ⟨h1, h2⟩ := Prod.mk.inj (Option.some.inj h)
      exact Bool.noConfusion h2
  | case8 item x l r co hc y yl yr yc heq hcond heq3 =>
      intro t' h
      simp only [dite_eq_ite] at heq
      rw [deleteO_eq_sr_none hc heq (by simp [hcond]) heq3] at h
      exact Option.noConfusion h
  | case9 item x l r co hc y yl yr yc heq hcond heq3 =>
      intro t' h
      simp only [dite_eq_ite] at heq
      rw [deleteO_eq_sr_nil hc heq (by simp [hcond]) heq3] at h
      exact Option.noConfusion h
  | case10 item x l r co hc y yl yr yc heq hcond z zl zr zc heq3 hz heq4 =>
      intro t' h
      simp only [dite_eq_ite] at heq
      rw [deleteO_eq_splice hc heq (by simp [hcond]) heq3 (by simp [hz])] at h
      rw [heq4] at h
      exact Option.noConfusion h
  | case11 item x l r co hc y yl yr yc heq hcond z zl zr zc heq3 hz lm heq4 heq5 =>
      intro t' h
      simp only [dite_eq_ite] at heq
      rw [deleteO_eq_splice hc heq (by simp [hcond]) heq3 (by simp [hz])] at h
      rw [heq4, heq5] at h
      exact Option.noConfusion h
  | case12 item x l r co hc y yl yr yc heq hcond z zl zr zc heq3 hz lm heq4 zr2 heq5 =>
      intro t' h
      simp only [dite_eq_ite] at heq
      rw [deleteO_eq_splice hc heq (by simp [hcond]) heq3 (by simp [hz])] at h
      rw [heq4, heq5] at h
      obtain ⟨h1, h2⟩ := Prod.mk.inj (Option.some.inj h)
      exact Bool.noConfusion h2
  | case13 item x l r co hc y yl yr yc heq hcond z zl zr zc heq3 hz heq4 ih =>
      intro t' h
      simp only [dite_eq_ite] at heq
      rw [deleteO_eq_right hc heq (by simp [hcond]) heq3 (by simp [hz])] at h
      rw [heq4] at h
      exact Option.noConfusion h
  | case14 item x l r co hc y yl yr yc heq hcond z zl zr zc heq3 hz r2 d heq4 ih =>
      intro t' h
      simp only [dite_eq_ite] at heq
      rw [deleteO_eq_right hc heq (by simp [hcond]) heq3 (by simp [hz])] at h
      rw [heq4] at h
      obtain ⟨h1, h2⟩ := Prod.mk.inj (Option.some.inj h)
      subst h1
      have hd : d = false := h2
      subst hd
      have hI := ih heq4
      have hS3 := step_right_inorder heq3
      have hS2 : iterate_inorder (Link.node y yl yr yc) =
          iterate_inorder (Link.node x l r co) := by
        split at heq
        · rw [← heq, rotate_right_inorder]
        · rw [heq]
      rw [fix_up_inorder]
      simp only [iterate_inorder] at hS3 hS2 ⊢
      rw [hI]
      rw [hS3]
      exact hS2

theorem flip_coloursO_bst {c : α → α → Int} {strict : Bool} {t t1 : Link α}
    (h : flip_coloursO t = some t1) (hb : bst c strict t) : bst c strict t1 := by
  rw [flip_coloursO_eq h]
  exact bst_flip_colours hb

theorem move_red_leftO_bst {c : α → α → Int} (L : LawfulCmp c) {strict : Bool} :
    ∀ {t M : Link α}, move_red_leftO t = some M → bst c strict t →
      bst c strict M := by
  intro t M h hb
  unfold move_red_leftO at h
  cases hf : flip_coloursO t with
  | none =>
      rw [hf] at h
      exact Option.noConfusion h
  | some t1 =>
      rw [hf] at h
      have h1 := flip_coloursO_bst hf hb
      rcases t1 with _ | ⟨x, l, _ | ⟨rx, rl, rr, rc⟩, cc⟩
      · exact Option.noConfusion h
      · exact Option.noConfusion h
      · have h2 : (if is_red rl = true then
            flip_coloursO (rotate_left (Link.node x l
              (rotate_right (Link.node rx rl rr rc)) cc))
          else some (Link.node x l (Link.node rx rl rr rc) cc)) = some M := h
        by_cases hr : is_red rl = true
        · rw [if_pos hr] at h2
          refine flip_coloursO_bst h2 (bst_rotate_left L ?_)
          obtain ⟨b1, b2, b3, b4⟩ := h1
          refine ⟨b1, bst_rotate_right L b2, b3, fun y hy => ?_⟩
          exact b4 y (by rwa [rotate_right_inorder] at hy)
        · rw [if_neg hr] at h2
          cases Option.some.inj h2
          exact h1

theorem move_red_rightO_bst {c : α → α → Int} (L : LawfulCmp c) {strict : Bool} :
    ∀ {t M : Link α}, move_red_rightO t = some M → bst c strict t →
      bst c strict M := by
  intro t M h hb
  unfold move_red_rightO at h
  cases hf : flip_coloursO t with
  | none =>
      rw [hf] at h
      exact Option.noConfusion h
  | some t1 =>
      rw [hf] at h
      have h1 := flip_coloursO_bst hf hb
      rcases t1 with _ | ⟨x, _ | ⟨lx, ll, lr, lc⟩, r, cc⟩
      · exact Option.noConfusion h
      · exact Option.noConfusion h
      · have h2 : (if is_red ll = true then
            flip_coloursO (rotate_right (Link.node x
              (Link.node lx ll lr lc) r cc))
          else some (Link.node x (Link.node lx ll lr lc) r cc)) = some M := h
        by_cases hr : is_red ll = true
        · rw [if_pos hr] at h2
          exact flip_coloursO_bst h2 (bst_rotate_right L h1)
        · rw [if_neg hr] at h2
          cases Option.some.inj h2
          exact h1

theorem step_left_bst {c : α → α → Int} (L : LawfulCmp c) {strict : Bool}
    {t t1 : Link α} (h : step_left t = some t1) (hb : bst c strict t) :
    bst c strict t1 := by
  unfold step_left at h
  split at h
  next =>
      split at h
      · exact move_red_leftO_bst L h hb
      · cases Option.some.inj h
        exact hb
  next => exact Option.noConfusion h

theorem step_right_bst {c : α → α → Int} (L : LawfulCmp c) {strict : Bool}
    {t t1 : Link α} (h : step_right t = some t1) (hb : bst c strict t) :
    bst c strict t1 := by
  unfold step_right at h
  split at h
  next =>
      split at h
      · exact move_red_rightO_bst L h hb
      · cases Option.some.inj h
        exact hb
  next => exact Option.noConfusion h

theorem okN_right_black {t : Link α} (h : okN t) : is_red t.right = false := by
  cases t with
  | nil => rfl
  | node x l r co => exact h.2.2.1

theorem okd_right_black {t : Link α} (h : okd t) : is_red t.right = false := by
  cases t with
  | nil => rfl
  | node x l r co => exact h.2.2

theorem okN_of_okd_pair {t : Link α} (h : okd t)
    (hp : (is_red t && is_red t.left) = false) : okN t := by
  cases t with
  | nil => trivial
  | node x l r co =>
      refine ⟨h.1, h.2.1, h.2.2, fun hc => ?_⟩
      subst hc
      simpa [is_red] using hp

theorem Bal_nil_inv {n : Nat} (h : Bal n (Link.nil (α := α))) : n = 0 := by
  cases h
  rfl

theorem Bal_node_inv {n : Nat} {x : α} {l r : Link α} {co : Bool}
    (h : Bal n (Link.node x l r co)) :
    ∃ m, Bal m l ∧ Bal m r ∧ n = (if co = true then m else m + 1) := by
  cases h with
  | red hl hr => exact ⟨_, hl, hr, rfl⟩
  | black hl hr => exact ⟨_, hl, hr, rfl⟩

theorem Bal_zero_black {t : Link α} (h : Bal 0 t) (hb : is_red t = false) :
    t = .nil := by
  cases h with
  | nil => rfl
  | red hl hr => simp [is_red] at hb

theorem root_mem_inorder (x : α) (l r : Link α) (co : Bool) :
    x ∈ iterate_inorder (Link.node x l r co) := by
  simp [iterate_inorder]

theorem inorder_node_ne_nil (x : α) (l r : Link α) (co : Bool) :
    iterate_inorder (Link.node x l r co) ≠ [] := by
  simp [iterate_inorder]

theorem leftmostO_head : ∀ {t : Link α} {lm : α}, leftmostO t = some lm →
    ∃ rest, iterate_inorder t = lm :: rest := by
  intro t
  induction t using leftmostO.induct with
  | case1 =>
      intro lm h
      exact Option.noConfusion h
  | case2 x r co =>
      intro lm h
      rw [leftmostO] at h
      cases Option.some.inj h
      exact ⟨iterate_inorder r, by simp [iterate_inorder]⟩
  | case3 x a b d e r co ih =>
      intro lm h
      rw [leftmostO] at h
      obtain ⟨rest, hrest⟩ := ih h
      refine ⟨rest ++ x :: iterate_inorder r, ?_⟩
      simp only [iterate_inorder] at hrest ⊢
      have h2 : (iterate_inorder b ++ a :: iterate_inorder d) ++
          x :: iterate_inorder r = lm :: (rest ++ x :: iterate_inorder r) := by
        rw [hrest]
        simp
      simpa using h2

/-- The three ways `fix_up` can react to a delete-side reassembly: if the
right link is black nothing fires; if the right link is red and the left
black, only the left rotation fires; if both are red, only the colour
flip fires.  The left link never carries a red-red violation here. -/
theorem fix_up_del_cases {w : α} {p q : Link α} {b : Bool}
    (hp : (is_red p && is_red p.left) = false)
    (hrr : is_red q.right = false) :
    (is_red q = false ∧ fix_up (Link.node w p q b) = Link.node w p q b) ∨
    (is_red q = true ∧ is_red p = false ∧
      ∃ rx rl rr, q = Link.node rx rl rr true ∧
        fix_up (Link.node w p q b) =
          Link.node rx (Link.node w p rl true) rr b) ∨
    (is_red q = true ∧ is_red p = true ∧
      (∃ a b d, p = Link.node a b d true) ∧
      (∃ rx rl rr, q = Link.node rx rl rr true) ∧
      fix_up (Link.node w p q b) = flip_colours (Link.node w p q b)) := by
  cases hr : is_red q with
  | false =>
      left
      refine ⟨rfl, ?_⟩
      have e1 : fix_up1 (Link.node w p q b) = Link.node w p q b :=
        fix_up1_of_black_right (t := Link.node w p q b) hr
      have e2 : fix_up2 (Link.node w p q b) = Link.node w p q b :=
        fix_up2_of_no_redred (t := Link.node w p q b) hp
      have e3 : fix_up3 (Link.node w p q b) = Link.node w p q b :=
        fix_up3_of_black_right (t := Link.node w p q b) hr
      rw [fix_up, e1, e2, e3]
  | true =>
      cases hl : is_red p with
      | false =>
          right
          left
          refine ⟨rfl, rfl, ?_⟩
          cases hr1 : q with
          | nil => rw [hr1] at hr; exact absurd hr (by simp [is_red])
          | node rx rl rr rc =>
              rw [hr1] at hr
              simp only [is_red] at hr
              subst hr
              refine ⟨rx, rl, rr, rfl, ?_⟩
              rw [hr1] at hrr
              simp only [Link.right] at hrr
              have e1 : fix_up1 (Link.node w p (Link.node rx rl rr true) b) =
                  rotate_left (Link.node w p (Link.node rx rl rr true) b) :=
                fix_up1_fires
                  (t := Link.node w p (Link.node rx rl rr true) b) rfl hl
              have e1' :
                  rotate_left (Link.node w p (Link.node rx rl rr true) b) =
                    Link.node rx (Link.node w p rl true) rr b := rfl
              have e2 : fix_up2 (Link.node rx (Link.node w p rl true) rr b) =
                  Link.node rx (Link.node w p rl true) rr b :=
                fix_up2_of_black_leftleft
                  (t := Link.node rx (Link.node w p rl true) rr b) hl
              have e3 : fix_up3 (Link.node rx (Link.node w p rl true) rr b) =
                  Link.node rx (Link.node w p rl true) rr b :=
                fix_up3_of_black_right
                  (t := Link.node rx (Link.node w p rl true) rr b) hrr
              rw [fix_up, e1, e1', e2, e3]
      | true =>
          right
          right
          refine ⟨rfl, rfl, ?_, ?_, ?_⟩
          · cases hl2 : p with
            | nil => rw [hl2] at hl; exact absurd hl (by simp [is_red])
            | node a b d dc =>
                rw [hl2] at hl
                simp only [is_red] at hl
                subst hl
                exact ⟨a, b, d, rfl⟩
          · cases hr1 : q with
            | nil => rw [hr1] at hr; exact absurd hr (by simp [is_red])
            | node rx rl rr rc =>
                rw [hr1] at hr
                simp only [is_red] at hr
                subst hr
                exact ⟨rx, rl, rr, rfl⟩
          · have hll : is_red p.left = false := by
              cases hq : is_red p.left
              · rfl
              · rw [hl, hq] at hp
                exact Bool.noConfusion hp
            have e1 : fix_up1 (Link.node w p q b) = Link.node w p q b :=
              fix_up1_of_red_left (t := Link.node w p q b) hl
            have e2 : fix_up2 (Link.node w p q b) = Link.node w p q b :=
              fix_up2_of_black_leftleft (t := Link.node w p q b) hll
            have e3 : fix_up3 (Link.node w p q b) =
                flip_colours (Link.node w p q b) :=
              fix_up3_fires (t := Link.node w p q b) hl hr
            rw [fix_up, e1, e2, e3]

theorem flip_coloursO_node_inv {x : α} {l r t' : Link α} {co : Bool}
    (h : flip_coloursO (Link.node x l r co) = some t') :
    ∃ lx ll lr lc, l = Link.node lx ll lr lc ∧
      ∃ rx rl rr rc, r = Link.node rx rl rr rc ∧
        t' = Link.node x (Link.node lx ll lr (!lc))
          (Link.node rx rl rr (!rc)) (!co) := by
  cases l with
  | nil => exact Option.noConfusion h
  | node lx ll lr lc =>
      cases r with
      | nil => exact Option.noConfusion h
      | node rx rl rr rc =>
          exact ⟨lx, ll, lr, lc, rfl, rx, rl, rr, rc, rfl,
            (Option.some.inj h).symm⟩

theorem move_red_leftO_cases {x : α} {l r M : Link α} {co : Bool}
    (h : move_red_leftO (Link.node x l r co) = some M) :
    ∃ lx ll lr lc, l = Link.node lx ll lr lc ∧
      ∃ rx rl rr rc, r = Link.node rx rl rr rc ∧
        ((is_red rl = false ∧
           M = Link.node x (Link.node lx ll lr (!lc))
                 (Link.node rx rl rr (!rc)) (!co)) ∨
         (∃ v vl vr, rl = Link.node v vl vr true ∧
           M = Link.node v
                 (Link.node x (Link.node lx ll lr (!lc)) vl false)
                 (Link.node rx vr rr false) co)) := by
  unfold move_red_leftO at h
  cases hf : flip_coloursO (Link.node x l r co) with
  | none =>
      rw [hf] at h
      exact Option.noConfusion h
  | some t' =>
      rw [hf] at h
      obtain ⟨lx, ll, lr, lc, hl, rx, rl, rr, rc, hr, ht'⟩ :=
        flip_coloursO_node_inv hf
      subst hl
      subst hr
      subst ht'
      refine ⟨lx, ll, lr, lc, rfl, rx, rl, rr, rc, rfl, ?_⟩
      have h2 : (if is_red rl = true then
          flip_coloursO (rotate_left (Link.node x (Link.node lx ll lr (!lc))
            (rotate_right (Link.node rx rl rr (!rc))) (!co)))
        else some (Link.node x (Link.node lx ll lr (!lc))
            (Link.node rx rl rr (!rc)) (!co))) = some M := h
      by_cases hrl : is_red rl = true
      · right
        rw [if_pos hrl] at h2
        cases hrl2 : rl with
        | nil => rw [hrl2] at hrl; exact absurd hrl (by simp [is_red])
        | node v vl vr vc =>
            rw [hrl2] at hrl
            simp only [is_red] at hrl
            subst hrl
            rw [hrl2] at h2
            have h3 : some (Link.node v
                (Link.node x (Link.node lx ll lr (!lc)) vl false)
                (Link.node rx vr rr false) (!(!co))) = some M := h2
            simp only [Bool.not_not] at h3
            exact ⟨v, vl, vr, rfl, (Option.some.inj h3).symm⟩
      · left
        rw [if_neg hrl] at h2
        exact ⟨Bool.of_not_eq_true hrl, (Option.some.inj h2).symm⟩

theorem move_red_rightO_cases {y : α} {yl yr M : Link α} {yc : Bool}
    (h : move_red_rightO (Link.node y yl yr yc) = some M) :
    ∃ a al ar ac, yl = Link.node a al ar ac ∧
      ∃ ry yrl yrr rred, yr = Link.node ry yrl yrr rred ∧
        ((is_red al = false ∧
           M = Link.node y (Link.node a al ar (!ac))
                 (Link.node ry yrl yrr (!rred)) (!yc)) ∨
         (∃ u ul ur, al = Link.node u ul ur true ∧
           M = Link.node a (Link.node u ul ur false)
                 (Link.node y ar (Link.node ry yrl yrr (!rred)) false) yc)) := by
  unfold move_red_rightO at h
  cases hf : flip_coloursO (Link.node y yl yr yc) with
  | none =>
      rw [hf] at h
      exact Option.noConfusion h
  | some t' =>
      rw [hf] at h
      obtain ⟨a, al, ar, ac, hl, ry, yrl, yrr, rred, hr, ht'⟩ :=
        flip_coloursO_node_inv hf
      subst hl
      subst hr
      subst ht'
      refine ⟨a, al, ar, ac, rfl, ry, yrl, yrr, rred, rfl, ?_⟩
      have h2 : (if is_red al = true then
          flip_coloursO (rotate_right (Link.node y (Link.node a al ar (!ac))
            (Link.node ry yrl yrr (!rred)) (!yc)))
        else some (Link.node y (Link.node a al ar (!ac))
            (Link.node ry yrl yrr (!rred)) (!yc))) = some M := h
      by_cases hal : is_red al = true
      · right
        rw [if_pos hal] at h2
        cases hal2 : al with
        | nil => rw [hal2] at hal; exact absurd hal (by simp [is_red])
        | node u ul ur uc =>
            rw [hal2] at hal
            simp only [is_red] at hal
            subst hal
            rw [hal2] at h2
            have h3 : some (Link.node a (Link.node u ul ur false)
                (Link.node y ar (Link.node ry yrl yrr (!rred)) false)
                (!(!yc))) = some M := h2
            simp only [Bool.not_not] at h3
            exact ⟨u, ul, ur, rfl, (Option.some.inj h3).symm⟩
      · left
        rw [if_neg hal] at h2
        exact ⟨Bool.of_not_eq_true hal, (Option.some.inj h2).symm⟩

theorem step_left_split {x : α} {l r t1 : Link α} {co : Bool}
    (hs : step_left (Link.node x l r co) = some t1) :
    ∃ lx ll lr lc, l = Link.node lx ll lr lc ∧
      (((!lc && !is_red ll) = false ∧ t1 = Link.node x l r co) ∨
       ((!lc && !is_red ll) = true ∧
         move_red_leftO (Link.node x l r co) = some t1)) := by
  cases l with
  | nil => exact Option.noConfusion hs
  | node lx ll lr lc =>
      refine ⟨lx, ll, lr, lc, rfl, ?_⟩
      have hs' : (if (!lc && !is_red ll) = true then
          move_red_leftO (Link.node x (Link.node lx ll lr lc) r co)
        else some (Link.node x (Link.node lx ll lr lc) r co)) = some t1 := hs
      by_cases hg : (!lc && !is_red ll) = true
      · rw [if_pos hg] at hs'
        exact Or.inr ⟨hg, hs'⟩
      · rw [if_neg hg] at hs'
        exact Or.inl ⟨Bool.of_not_eq_true hg, (Option.some.inj hs').symm⟩

theorem step_right_split {y : α} {yl yr t1 : Link α} {yc : Bool}
    (hs : step_right (Link.node y yl yr yc) = some t1) :
    ∃ ry yrl yrr rred, yr = Link.node ry yrl yrr rred ∧
      (((!rred && !is_red yrl) = false ∧ t1 = Link.node y yl yr yc) ∨
       ((!rred && !is_red yrl) = true ∧
         move_red_rightO (Link.node y yl yr yc) = some t1)) := by
  cases yr with
  | nil => exact Option.noConfusion hs
  | node ry yrl yrr rred =>
      refine ⟨ry, yrl, yrr, rred, rfl, ?_⟩
      have hs' : (if (!rred && !is_red yrl) = true then
          move_red_rightO (Link.node y yl (Link.node ry yrl yrr rred) yc)
        else some (Link.node y yl (Link.node ry yrl yrr rred) yc)) =
          some t1 := hs
      by_cases hg : (!rred && !is_red yrl) = true
      · rw [if_pos hg] at hs'
        exact Or.inr ⟨hg, hs'⟩
      · rw [if_neg hg] at hs'
        exact Or.inl ⟨Bool.of_not_eq_true hg, (Option.some.inj hs').symm⟩

theorem tail_append_ne {a b : List α} (h : a ≠ []) :
    (a ++ b).tail = a.tail ++ b := by
  cases a with
  | nil => exact absurd rfl h
  | cons x xs => rfl

theorem mem_tail_mem {a : α} {xs : List α} (h : a ∈ xs.tail) : a ∈ xs := by
  cases xs with
  | nil => exact absurd h (by simp)
  | cons x t => exact List.mem_cons_of_mem x h

theorem Bal_red_to_black {n : Nat} {x : α} {l r : Link α}
    (h : Bal n (Link.node x l r true)) : Bal (n + 1) (Link.node x l r false) := by
  cases h with
  | red hl hr => exact Bal.black hl hr

theorem cmp_gt_trans {c : α → α → Int} (L : LawfulCmp c) {a b d : α}
    (h1 : c a b > 0) (h2 : c b d > 0) : c a d > 0 := by
  have s1 : c b a < 0 := by have := L.swap a b; omega
  have s2 : c d b < 0 := by have := L.swap b d; omega
  have s3 : c d a < 0 := L.lt_of_lt_of_le s2 (le_of_lt s1)
  have s4 := L.swap a d
  omega

theorem cmp_lt_trans {c : α → α → Int} (L : LawfulCmp c) {a b d : α}
    (h1 : c a b < 0) (h2 : c b d < 0) : c a d < 0 :=
  L.lt_of_lt_of_le h1 (le_of_lt h2)

theorem inorder_node (x : α) (l r : Link α) (co : Bool) :
    iterate_inorder (Link.node x l r co) =
      iterate_inorder l ++ x :: iterate_inorder r := rfl

/-- Full specification of `delete_left_most` on a subtree satisfying the
delete-path invariant (children structurally valid, right link black, no
red-red pair at the root, the root or its left link red, perfect black
balance, strict BST): the call succeeds into a subtree with the same
black height, still valid and strictly ordered, whose IN_ORDER listing
is exactly the tail of the input's listing — the left-most item, and
only it, has been removed. -/
theorem delete_left_mostO_spec {c : α → α → Int} (L : LawfulCmp c) :
    ∀ {t : Link α}, ∀ {t2 : Link α} {n : Nat},
      delete_left_mostO t = some t2 →
      okd t → (is_red t && is_red t.left) = false →
      (is_red t || is_red t.left) = true →
      Bal n t → bst c true t →
      okd t2 ∧ Bal n t2 ∧ (is_red t2 && is_red t2.left) = false ∧
        (is_red t = false → is_red t2 = false) ∧ bst c true t2 ∧
        iterate_inorder t2 = (iterate_inorder t).tail := by
  intro t
  induction t using delete_left_mostO.induct with
  | case1 =>
      intro t2 n h
      rw [delete_left_mostO] at h
      exact Option.noConfusion h
  | case2 x r red =>
      intro t2 n h hd hpair hrp hB hbst
      rw [dlm_eq_nil_left] at h
      cases Option.some.inj h
      have hred : red = true := by
        cases hredc : red with
        | true => rfl
        | false =>
            rw [hredc] at hrp
            exact absurd hrp (by simp [is_red, Link.left])
      subst hred
      obtain ⟨m, hm1, hm2, hmn⟩ := Bal_node_inv hB
      have hm0 : m = 0 := Bal_nil_inv hm1
      subst hm0
      have hrnil : r = .nil := Bal_zero_black hm2 hd.2.2
      subst hrnil
      simp only [if_pos rfl] at hmn
      subst hmn
      refine ⟨trivial, Bal.nil, rfl, ?_, trivial, ?_⟩
      · intro hf
        exact Bool.noConfusion hf
      · simp [iterate_inorder]
  | case3 x lx ll lr lc r co heq =>
      intro t2 n h
      simp only [dite_eq_ite] at heq
      rw [delete_left_mostO] at h
      split at h
      · exact Option.noConfusion h
      · exact Option.noConfusion h
      next a b d e heq2 =>
          exact absurd heq2 (by rw [heq]; simp)
  | case4 x lx ll lr lc r co heq =>
      intro t2 n h
      simp only [dite_eq_ite] at heq
      rw [delete_left_mostO] at h
      split at h
      · exact Option.noConfusion h
      · exact Option.noConfusion h
      next a b d e heq2 =>
          exact absurd heq2 (by rw [heq]; simp)
  | case5 x lx ll lr lc r co x1 l1 r1 c1 heq hrec ih =>
      intro t2 n h
      simp only [dite_eq_ite] at heq
      rw [dlm_eq_step heq] at h
      rw [hrec] at h
      exact Option.noConfusion h
  | case6 x lx ll lr lc r co x1 l1 r1 c1 heq l2 hrec ih =>
      intro t2 n h hd hpair hrp hB hbst
      simp only [dite_eq_ite] at heq
      rw [dlm_eq_step heq] at h
      rw [hrec] at h
      cases Option.some.inj h
      obtain ⟨hokl, hokr, hrb⟩ := hd
      obtain ⟨hokll, hoklr, hlrb, hlci⟩ := hokl
      obtain ⟨hbl, hbr, hxl, hxr⟩ := hbst
      obtain ⟨m, hBl, hBr, hn⟩ := Bal_node_inv hB
      by_cases hg : (!lc && !is_red ll) = true
      · -- the conditional move_red_left fired: the left link and its
        -- left-left link are both black, hence the root must be red
        have hlc : lc = false := by
          cases hlc2 : lc with
          | false => rfl
          | true => rw [hlc2] at hg; exact absurd hg (by simp)
        have hll : is_red ll = false := by
          cases hll2 : is_red ll with
          | false => rfl
          | true => rw [hll2] at hg; exact absurd hg (by simp)
        subst hlc
        have hco : co = true := by
          cases hco2 : co with
          | true => rfl
          | false =>
              rw [hco2] at hrp
              exact absurd hrp (by simp [is_red, Link.left])
        subst hco
        simp at hn
        subst hn
        rw [if_pos hg] at heq
        obtain ⟨lx2, ll2, lr2, lc2, hleq, rx, rl, rr, rc, hreq, hdisj⟩ :=
          move_red_leftO_cases heq
        obtain ⟨e1, e2, e3, e4⟩ := Link.node.inj hleq
        subst e1
        subst e2
        subst e3
        subst e4
        subst hreq
        have hrc : rc = false := hrb
        subst hrc
        obtain ⟨j, hBll, hBlr, hm⟩ := Bal_node_inv hBl
        simp at hm
        obtain ⟨j2, hBrl, hBrr, hm2⟩ := Bal_node_inv hBr
        simp at hm2
        have hjj : j2 = j := by omega
        subst hjj
        obtain ⟨hbrl, hbrr, hrxl, hrxr⟩ := hbr
        rcases hdisj with ⟨hrlb, hM⟩ | ⟨v, vl, vr, hrleq, hM⟩
        · -- the sibling kept a black left link: only colours were flipped
          obtain ⟨e1, e2, e3, e4⟩ := Link.node.inj hM
          have e1s := e1.symm
          subst e1s
          subst e2
          subst e3
          subst e4
          simp only [Bool.not_false, Bool.not_true] at hrec ⊢
          have hih := ih hrec ⟨hokll, hoklr, hlrb⟩
            (by show (true && is_red ll) = false; rw [hll]; rfl)
            rfl (Bal.red hBll hBlr) hbl
          obtain ⟨hd2, hB2, hp2, _, hbst2, hio2⟩ := hih
          have hxmem : ∀ y ∈ iterate_inorder l2,
              y ∈ iterate_inorder (Link.node lx ll lr false) := by
            intro y hy
            rw [hio2] at hy
            exact mem_tail_mem hy
          have hrr' : is_red (Link.node rx rl rr true).right = false := by
            simp only [Link.right]
            exact hokr.2.2.1
          have hcases := fix_up_del_cases (w := x) (p := l2)
            (q := Link.node rx rl rr true) (b := false) hp2 hrr'
          rcases hcases with ⟨hcf, _⟩ | ⟨_, hl2b, rx2, rl2, rr2, hre, hfix⟩ |
            ⟨_, hl2r, ⟨a2, b2, d2, hl2e⟩, _, hfix⟩
          · exact absurd hcf (by simp [is_red])
          · -- recursion returned a black root: one left rotation fires
            obtain ⟨e1, e2, e3, _⟩ := Link.node.inj hre
            subst e1
            subst e2
            subst e3
            rw [hfix]
            have hrxx : c rx x > 0 := by
              have h1 : c x rx < 0 :=
                hxr rx (root_mem_inorder rx rl rr false)
              have h2 := L.swap x rx
              omega
            refine ⟨⟨⟨okN_of_okd_black hd2 hl2b, hokr.1, hrlb,
              fun _ => hl2b⟩, hokr.2.1, hokr.2.2.1⟩, ?_, rfl, ?_, ?_, ?_⟩
            · rw [hm]
              exact Bal.black (Bal.red hB2 hBrl) hBrr
            · intro hf
              exact Bool.noConfusion hf
            · refine ⟨⟨hbst2, hbrl, ?_, ?_⟩, hbrr, ?_, hrxr⟩
              · intro y hy
                exact hxl y (hxmem y hy)
              · intro y hy
                refine hxr y ?_
                rw [inorder_node]
                exact List.mem_append_left _ hy
              · intro y hy
                rw [inorder_node] at hy
                rcases List.mem_append.mp hy with hy | hy
                · show c rx y > 0
                  exact cmp_gt_trans L hrxx (hxl y (hxmem y hy))
                · rcases List.mem_cons.mp hy with hy | hy
                  · subst hy
                    show c rx y > 0
                    exact hrxx
                  · exact hrxl y hy
            · simp only [inorder_node] at hio2 ⊢
              rw [hio2, tail_append_ne (a := iterate_inorder ll ++
                lx :: iterate_inorder lr) (by simp)]
              simp [List.append_assoc]
          · -- recursion returned a red root: the colour flip undoes itself
            subst hl2e
            rw [hfix]
            have hflip : flip_colours (Link.node x (Link.node a2 b2 d2 true)
                (Link.node rx rl rr true) false) =
                Link.node x (Link.node a2 b2 d2 false)
                  (Link.node rx rl rr false) true := rfl
            rw [hflip]
            refine ⟨⟨okN_of_okd_black (t := Link.node a2 b2 d2 false) hd2 rfl,
              ⟨hokr.1, hokr.2.1, hokr.2.2.1, fun hh => Bool.noConfusion hh⟩,
              rfl⟩, ?_, rfl, ?_, ?_, ?_⟩
            · rw [hm]
              exact Bal.red (Bal_red_to_black hB2) (Bal.black hBrl hBrr)
            · intro hf
              exact Bool.noConfusion hf
            · exact ⟨hbst2, ⟨hbrl, hbrr, hrxl, hrxr⟩,
                fun y hy => hxl y (hxmem y hy), hxr⟩
            · simp only [inorder_node] at hio2 ⊢
              rw [hio2, tail_append_ne (a := iterate_inorder ll ++
                lx :: iterate_inorder lr) (by simp)]
        · -- the red sibling-left link was rotated up to become the new root
          subst hrleq
          obtain ⟨e1, e2, e3, e4⟩ := Link.node.inj hM
          have e1s := e1.symm
          subst e1s
          subst e2
          subst e3
          subst e4
          simp only [Bool.not_false, Bool.not_true] at hrec ⊢
          obtain ⟨hokvl, hokvr, hvrb, hvli⟩ := hokr.1
          have hvlb : is_red vl = false := hvli rfl
          obtain ⟨i, hBvl, hBvr, hji⟩ := Bal_node_inv hBrl
          simp at hji
          subst hji
          obtain ⟨hbvl, hbvr, hvl_cond, hvr_cond⟩ := hbrl
          have hvmem : v ∈ iterate_inorder (Link.node rx
              (Link.node v vl vr true) rr false) := by
            rw [inorder_node]
            refine List.mem_append_left _ ?_
            rw [inorder_node]
            exact List.mem_append_right _ (List.mem_cons_self v _)
          have hvx : c v x > 0 := by
            have h1 : c x v < 0 := hxr v hvmem
            have h2 := L.swap x v
            omega
          have hbstl1 : bst c true (Link.node x (Link.node lx ll lr true)
              vl false) := by
            refine ⟨hbl, hbvl, hxl, ?_⟩
            intro y hy
            refine hxr y ?_
            rw [inorder_node]
            refine List.mem_append_left _ ?_
            rw [inorder_node]
            exact List.mem_append_left _ hy
          have hih := ih hrec
            ⟨⟨hokll, hoklr, hlrb, fun _ => hll⟩, hokvl, hvlb⟩
            rfl rfl
            (Bal.black (Bal.red hBll hBlr) hBvl) hbstl1
          obtain ⟨hd2, hB2, hp2, hblack2, hbst2, hio2⟩ := hih
          have hl2b : is_red l2 = false := hblack2 rfl
          have hrr' : is_red (Link.node rx vr rr false).right = false := by
            simp only [Link.right]
            exact hokr.2.2.1
          have hcases := fix_up_del_cases (w := v) (p := l2)
            (q := Link.node rx vr rr false) (b := true) hp2 hrr'
          rcases hcases with ⟨_, hfix⟩ | ⟨hcf, _⟩ | ⟨hcf, _⟩
          · rw [hfix]
            have hrxv : c rx v > 0 := by
              have := hrxl v (by
                rw [inorder_node]
                exact List.mem_append_right _ (List.mem_cons_self v _))
              exact this
            have hvrx : c v rx < 0 := by
              have h2 := L.swap v rx
              omega
            refine ⟨⟨okN_of_okd_black hd2 hl2b,
              ⟨hokvr, hokr.2.1, hokr.2.2.1, fun hh => Bool.noConfusion hh⟩,
              rfl⟩, ?_, ?_, ?_, ?_, ?_⟩
            · rw [hm]
              exact Bal.red hB2 (Bal.black hBvr hBrr)
            · show (true && is_red l2) = false
              rw [hl2b]
              rfl
            · intro hf
              exact Bool.noConfusion hf
            · refine ⟨hbst2, ⟨hbvr, hbrr, ?_, hrxr⟩, ?_, ?_⟩
              · intro y hy
                refine hrxl y ?_
                rw [inorder_node]
                exact List.mem_append_right _ (List.mem_cons_of_mem _ hy)
              · intro y hy
                rw [hio2] at hy
                have hy2 := mem_tail_mem hy
                rw [inorder_node] at hy2
                rcases List.mem_append.mp hy2 with hy2 | hy2
                · show c v y > 0
                  exact cmp_gt_trans L hvx (hxl y hy2)
                · rcases List.mem_cons.mp hy2 with hy2 | hy2
                  · subst hy2
                    show c v y > 0
                    exact hvx
                  · exact hvl_cond y hy2
              · intro y hy
                rw [inorder_node] at hy
                rcases List.mem_append.mp hy with hy | hy
                · exact hvr_cond y hy
                · rcases List.mem_cons.mp hy with hy | hy
                  · subst hy
                    show c v y < 0
                    exact hvrx
                  · show c v y < 0
                    exact cmp_lt_trans L hvrx (hrxr y hy)
            · simp only [inorder_node] at hio2 ⊢
              rw [hio2, tail_append_ne (a := iterate_inorder ll ++
                lx :: iterate_inorder lr) (by simp),
                tail_append_ne (a := iterate_inorder ll ++
                lx :: iterate_inorder lr) (by simp)]
              simp [List.append_assoc]
          · exact absurd hcf (by simp [is_red])
          · exact absurd hcf (by simp [is_red])
      · -- guard failed: the node is recursed into unchanged
        rw [if_neg hg] at heq
        obtain ⟨e1, e2, e3, e4⟩ := Link.node.inj (Option.some.inj heq)
        subst e1
        subst e2
        subst e3
        subst e4
        have hgf : lc = true ∨ is_red ll = true := by
          cases hlc2 : lc with
          | true => exact Or.inl rfl
          | false =>
              cases hll2 : is_red ll with
              | true => exact Or.inr rfl
              | false => exact absurd (by rw [hlc2, hll2]; rfl) hg
        have hpl : (is_red (Link.node lx ll lr lc) &&
            is_red (Link.node lx ll lr lc).left) = false := by
          show (lc && is_red ll) = false
          cases hlc2 : lc with
          | false => rfl
          | true => rw [hlci hlc2, Bool.and_false]
        have hrpl : (is_red (Link.node lx ll lr lc) ||
            is_red (Link.node lx ll lr lc).left) = true := by
          show (lc || is_red ll) = true
          rcases hgf with hgf | hgf
          · rw [hgf]
            rfl
          · rw [hgf, Bool.or_true]
        have hih := ih hrec (okd_of_okN ⟨hokll, hoklr, hlrb, hlci⟩) hpl hrpl hBl hbl
        obtain ⟨hd2, hB2, hp2, hblack2, hbst2, hio2⟩ := hih
        have hrr' : is_red r.right = false := okN_right_black hokr
        have hcases := fix_up_del_cases (w := x) (p := l2) (q := r)
          (b := co) hp2 hrr'
        rcases hcases with ⟨_, hfix⟩ | ⟨hcf, _⟩ | ⟨hcf, _⟩
        · rw [hfix]
          refine ⟨⟨okN_of_okd_pair hd2 hp2, hokr, hrb⟩, ?_, ?_, ?_, ?_, ?_⟩
          · rw [hn]
            cases co with
            | true => exact Bal.red hB2 hBr
            | false => exact Bal.black hB2 hBr
          · cases hco2 : co with
            | false => simp [is_red]
            | true =>
                have hlcf : lc = false := by
                  rw [hco2] at hpair
                  cases hlc2 : lc with
                  | false => rfl
                  | true =>
                      rw [hlc2] at hpair
                      exact absurd hpair (by simp [is_red, Link.left])
                have hl2b : is_red l2 = false := by
                  refine hblack2 ?_
                  show lc = false
                  exact hlcf
                show (true && is_red l2) = false
                rw [hl2b]
                rfl
          · intro hf
            exact hf
          · refine ⟨hbst2, hbr, ?_, hxr⟩
            intro y hy
            rw [hio2] at hy
            exact hxl y (mem_tail_mem hy)
          · simp only [inorder_node] at hio2 ⊢
            rw [hio2, tail_append_ne (a := iterate_inorder ll ++
              lx :: iterate_inorder lr) (by simp)]
        · exact absurd hcf (by simp [hrb])
        · exact absurd hcf (by simp [hrb])

/-- Invariant of every recursive `delete` entry `node{x, l, r, co}`: both
children are structurally valid, they are not both red, a red entry has
black children, and a red right child only occurs when the descent does
not go left (`c x item ≤ 0`).  Established at the facade by the black
root invariant and propagated by the `move_red_left` / `move_red_right`
machinery. -/
def dEnt (c : α → α → Int) (item : α) : Link α → Prop
  | .nil => True
  | .node x l r co =>
      okN l ∧ okN r ∧ (is_red l && is_red r) = false ∧
      (co = true → is_red l = false ∧ is_red r = false) ∧
      (is_red r = true → c x item ≤ 0)

/-- A red link at the entry's root or either child: under this condition
the delete keeps the black height exactly; a fully black entry (only the
facade's root) may lose one level. -/
def red_present (t : Link α) : Bool :=
  is_red t || is_red t.left || is_red t.right

theorem mem_of_del_spec {c : α → α → Int} {t' t : Link α} {item : α} {d : Bool}
    (hf : d = false → iterate_inorder t' = iterate_inorder t)
    (ht : d = true → ∃ pre z post, c z item = 0 ∧
      iterate_inorder t = pre ++ z :: post ∧
      iterate_inorder t' = pre ++ post) :
    ∀ y ∈ iterate_inorder t', y ∈ iterate_inorder t := by
  intro y hy
  cases d with
  | false =>
      rw [hf rfl] at hy
      exact hy
  | true =>
      obtain ⟨pre, z, post, _, h1, h2⟩ := ht rfl
      rw [h2] at hy
      rw [h1]
      rcases List.mem_append.mp hy with hy | hy
      · exact List.mem_append_left _ hy
      · exact List.mem_append_right _ (List.mem_cons_of_mem _ hy)

/-- Facts available after the `is_red(node.left)` rotation at the start
of the not-going-left branch of `delete`. -/
theorem right_entry_facts {c : α → α → Int} (L : LawfulCmp c)
    {x item : α} {l r : Link α} {co : Bool} {y : α} {yl yr : Link α}
    {yc : Bool} {n : Nat}
    (hc : ¬ c x item > 0)
    (hE : dEnt c item (Link.node x l r co))
    (hB : Bal n (Link.node x l r co))
    (hbst : bst c true (Link.node x l r co))
    (heq : (if is_red l then rotate_right (Link.node x l r co)
        else Link.node x l r co) = Link.node y yl yr yc) :
    okN yl ∧ okN yr ∧ is_red yl = false ∧
    (yc = true → is_red yr = false) ∧
    (∃ m, Bal m yl ∧ Bal m yr ∧ n = (if yc = true then m else m + 1)) ∧
    bst c true (Link.node y yl yr yc) ∧
    iterate_inorder (Link.node y yl yr yc) =
      iterate_inorder (Link.node x l r co) ∧
    c y item ≤ 0 ∧
    red_present (Link.node x l r co) = (yc || is_red yr) ∧
    yc = co := by
  obtain ⟨hokl, hokr, hnb, hco4, _⟩ := hE
  obtain ⟨hbl, hbr, hxl, hxr⟩ := hbst
  obtain ⟨m, hBl, hBr, hn⟩ := Bal_node_inv hB
  by_cases hlr : is_red l = true
  · rw [if_pos hlr] at heq
    cases hl : l with
    | nil => rw [hl] at hlr; exact absurd hlr (by simp [is_red])
    | node lx ll lr2 lc =>
        rw [hl] at hlr
        simp only [is_red] at hlr
        subst hlr
        rw [hl] at heq hokl hBl hbl hxl hnb hco4
        obtain ⟨e1, e2, e3, e4⟩ := Link.node.inj heq
        have e1s := e1.symm
        subst e1s
        subst e2
        subst e3
        subst e4
        obtain ⟨hokll, hoklr, hlrb, hlci⟩ := hokl
        have hllb : is_red ll = false := hlci rfl
        have hrbF : is_red r = false := by
          cases hr2 : is_red r with
          | false => rfl
          | true => rw [hr2] at hnb; exact absurd hnb (by simp [is_red])
        have hcoF : co = false := by
          cases hco2 : co with
          | false => rfl
          | true => exact absurd (hco4 hco2).1 (by simp [is_red])
        subst hcoF
        simp at hn
        obtain ⟨j, hBll, hBlr, hmj⟩ := Bal_node_inv hBl
        simp at hmj
        subst hmj
        obtain ⟨hbll, hblr, hlxl, hlxr⟩ := hbl
        have hxlx : c x y > 0 := hxl y (root_mem_inorder y ll lr2 true)
        have hyx : c y x < 0 := by
          have := L.swap y x
          omega
        refine ⟨hokll, ⟨hoklr, hokr, hrbF, fun _ => hlrb⟩, hllb,
          fun hf => Bool.noConfusion hf, ⟨m, hBll, Bal.red hBlr hBr, by
            simp; omega⟩, ?_, ?_, ?_, ?_⟩
        · refine ⟨hbll, ⟨hblr, hbr, ?_, ?_⟩, hlxl, ?_⟩
          · intro w hw
            exact hxl w (by
              rw [inorder_node]
              exact List.mem_append_right _ (List.mem_cons_of_mem _ hw))
          · exact hxr
          · intro w hw
            rw [inorder_node] at hw
            rcases List.mem_append.mp hw with hw | hw
            · exact hlxr w hw
            · rcases List.mem_cons.mp hw with hw | hw
              · subst hw
                show c y w < 0
                exact hyx
              · show c y w < 0
                have h2 : c x w < 0 := hxr w hw
                exact cmp_lt_trans L hyx h2
        · simp only [inorder_node]
          simp [List.append_assoc]
        · have h2 : c y item < 0 := L.lt_of_lt_of_le hyx (by omega)
          omega
        · refine ⟨?_, rfl⟩
          show (false || true || is_red r) = (false || true)
          rw [hrbF]
          rfl
  · rw [if_neg hlr] at heq
    have hlrF : is_red l = false := by
      cases h2 : is_red l with
      | false => rfl
      | true => exact absurd h2 hlr
    obtain ⟨e1, e2, e3, e4⟩ := Link.node.inj heq
    have e1s := e1.symm
    subst e1s
    subst e2
    subst e3
    subst e4
    refine ⟨hokl, hokr, hlrF, fun hyc => (hco4 hyc).2,
      ⟨m, hBl, hBr, hn⟩, ⟨hbl, hbr, hxl, hxr⟩, rfl, by omega, ?_, rfl⟩
    show (co || is_red l || is_red r) = (co || is_red r)
    rw [hlrF]
    simp

/-- Shape analysis of `step_right` at the found/right-descent node: the
result either is the node unchanged (when the guard fails, witnessing a
red link at or under the right child), or arises from `move_red_right`
in one of its two forms.  In every case the new left child is valid and
the new right child satisfies the delete entry invariant. -/
theorem t3_facts {c : α → α → Int} {item y : α}
    {yl yr : Link α} {yc : Bool} {z : α} {zl zr : Link α} {zc : Bool}
    (hokyl : okN yl) (hokyr : okN yr) (hylb : is_red yl = false)
    (h6 : c y item ≤ 0)
    (h3 : step_right (Link.node y yl yr yc) = some (Link.node z zl zr zc)) :
    okN zl ∧ dEnt c item zr ∧
    ((z = y ∧ zl = yl ∧ zr = yr ∧ zc = yc ∧
        (is_red yr || is_red yr.left) = true) ∨
     (∃ ry yrl yrr, yr = Link.node ry yrl yrr false ∧ is_red yrl = false ∧
        ∃ a al ar ac, yl = Link.node a al ar ac ∧
        ((is_red al = false ∧ z = y ∧ zl = Link.node a al ar (!ac) ∧
            zr = Link.node ry yrl yrr true ∧ zc = (!yc)) ∨
         (∃ u ul ur, al = Link.node u ul ur true ∧ z = a ∧
            zl = Link.node u ul ur false ∧
            zr = Link.node y ar (Link.node ry yrl yrr true) false ∧
            zc = yc)))) := by
  obtain ⟨ry, yrl, yrr, rred, hyreq, hdisj⟩ := step_right_split h3
  subst hyreq
  obtain ⟨hokyrl, hokyrr, hyrrb, hyrci⟩ := hokyr
  rcases hdisj with ⟨hg, ht1⟩ | ⟨hg, hmv⟩
  · obtain ⟨e1, e2, e3, e4⟩ := Link.node.inj ht1
    refine ⟨by rw [e2]; exact hokyl, ?_, Or.inl ⟨e1, e2, e3, e4, ?_⟩⟩
    · rw [e3]
      refine ⟨hokyrl, hokyrr, by rw [hyrrb, Bool.and_false], ?_, ?_⟩
      · intro hco
        exact ⟨hyrci hco, hyrrb⟩
      · intro hh
        exact absurd hh (by rw [hyrrb]; simp)
    · show (rred || is_red yrl) = true
      cases hrr2 : rred with
      | true => rfl
      | false =>
          rw [hrr2] at hg
          cases hyrl2 : is_red yrl with
          | true => rfl
          | false => rw [hyrl2] at hg; exact absurd hg (by simp)
  · have hrred : rred = false := by
      cases h2 : rred with
      | false => rfl
      | true => rw [h2] at hg; exact absurd hg (by simp)
    subst hrred
    have hgyrl : is_red yrl = false := by
      cases h2 : is_red yrl with
      | false => rfl
      | true => rw [h2] at hg; exact absurd hg (by simp)
    obtain ⟨a, al, ar, ac, hyleq, ry2, yrl2, yrr2, rred2, hyreq2, mdisj⟩ :=
      move_red_rightO_cases hmv
    obtain ⟨f1, f2, f3, f4⟩ := Link.node.inj hyreq2
    subst f1
    subst f2
    subst f3
    subst f4
    subst hyleq
    obtain ⟨hokal, hokar, harb, haci⟩ := hokyl
    rcases mdisj with ⟨halb, hM⟩ | ⟨u, ul, ur, haleq, hM⟩
    · simp only [Bool.not_false] at hM
      obtain ⟨e1, e2, e3, e4⟩ := Link.node.inj hM
      refine ⟨?_, ?_, Or.inr ⟨ry, yrl, yrr, rfl, hgyrl, a, al, ar, ac, rfl,
        Or.inl ⟨halb, e1, e2, e3, e4⟩⟩⟩
      · rw [e2]
        exact ⟨hokal, hokar, harb, fun _ => halb⟩
      · rw [e3]
        refine ⟨hokyrl, hokyrr, by rw [hyrrb, Bool.and_false], ?_, ?_⟩
        · intro _
          exact ⟨hgyrl, hyrrb⟩
        · intro hh
          exact absurd hh (by rw [hyrrb]; simp)
    · subst haleq
      simp only [Bool.not_false] at hM
      obtain ⟨e1, e2, e3, e4⟩ := Link.node.inj hM
      obtain ⟨hokul, hokur, hurb, _⟩ := hokal
      refine ⟨?_, ?_, Or.inr ⟨ry, yrl, yrr, rfl, hgyrl, a,
        Link.node u ul ur true, ar, ac, rfl,
        Or.inr ⟨u, ul, ur, rfl, e1, e2, e3, e4⟩⟩⟩
      · rw [e2]
        exact ⟨hokul, hokur, hurb, fun hh => Bool.noConfusion hh⟩
      · rw [e3]
        refine ⟨hokar, ⟨hokyrl, hokyrr, hyrrb, fun _ => hgyrl⟩,
          by rw [harb]; rfl, ?_, fun _ => h6⟩
        intro hh
        exact Bool.noConfusion hh

theorem left_inorder_glue {x1 : α} {l1 l2 r1 t : Link α} {b : Bool}
    (hio1 : iterate_inorder t =
      iterate_inorder l1 ++ x1 :: iterate_inorder r1)
    {c : α → α → Int} {item : α} {d2 : Bool}
    (hf2 : d2 = false → iterate_inorder l2 = iterate_inorder l1)
    (ht2 : d2 = true → ∃ pre z post, c z item = 0 ∧
      iterate_inorder l1 = pre ++ z :: post ∧
      iterate_inorder l2 = pre ++ post) :
    (d2 = false → iterate_inorder (fix_up (Link.node x1 l2 r1 b)) =
      iterate_inorder t) ∧
    (d2 = true → ∃ pre z post, c z item = 0 ∧
      iterate_inorder t = pre ++ z :: post ∧
      iterate_inorder (fix_up (Link.node x1 l2 r1 b)) = pre ++ post) := by
  constructor
  · intro hdf
    rw [fix_up_inorder, inorder_node, hf2 hdf, hio1]
  · intro hdt
    obtain ⟨pre, w, post, h0, h1, h2⟩ := ht2 hdt
    refine ⟨pre, w, post ++ x1 :: iterate_inorder r1, h0, ?_, ?_⟩
    · rw [hio1, h1]
      simp [List.append_assoc]
    · rw [fix_up_inorder, inorder_node, h2]
      simp [List.append_assoc]

theorem right_inorder_glue {z : α} {zl zr r2 t : Link α} {b : Bool}
    (hio1 : iterate_inorder t =
      iterate_inorder zl ++ z :: iterate_inorder zr)
    {c : α → α → Int} {item : α} {d2 : Bool}
    (hf2 : d2 = false → iterate_inorder r2 = iterate_inorder zr)
    (ht2 : d2 = true → ∃ pre w post, c w item = 0 ∧
      iterate_inorder zr = pre ++ w :: post ∧
      iterate_inorder r2 = pre ++ post) :
    (d2 = false → iterate_inorder (fix_up (Link.node z zl r2 b)) =
      iterate_inorder t) ∧
    (d2 = true → ∃ pre w post, c w item = 0 ∧
      iterate_inorder t = pre ++ w :: post ∧
      iterate_inorder (fix_up (Link.node z zl r2 b)) = pre ++ post) := by
  constructor
  · intro hdf
    rw [fix_up_inorder, inorder_node, hf2 hdf, hio1]
  · intro hdt
    obtain ⟨pre, w, post, h0, h1, h2⟩ := ht2 hdt
    refine ⟨iterate_inorder zl ++ z :: pre, w, post, h0, ?_, ?_⟩
    · rw [hio1, h1]
      simp [List.append_assoc]
    · rw [fix_up_inorder, inorder_node, h2]
      simp [List.append_assoc]

theorem splice_inorder_glue {z lm : α} {zl zr zr2 t : Link α} {b : Bool}
    (hio1 : iterate_inorder t =
      iterate_inorder zl ++ z :: iterate_inorder zr)
    (hlm : iterate_inorder zr = lm :: iterate_inorder zr2) :
    iterate_inorder t = iterate_inorder zl ++ z :: iterate_inorder zr ∧
    iterate_inorder (fix_up (Link.node lm zl zr2 b)) =
      iterate_inorder zl ++ iterate_inorder zr := by
  refine ⟨hio1, ?_⟩
  rw [fix_up_inorder, inorder_node, hlm]

/-- Full specification of the recursive `delete` on a strict
(filtering-policy) tree: when the call returns, the result is
structurally valid up to a root violation, perfectly black balanced
(exactly preserving the black height whenever a red link is present at
the entry), still a strict BST, and its IN_ORDER listing is unchanged
when the flag reports no deletion, and is the input listing with exactly
one item — one comparing equal to the probe — removed when the flag
reports a deletion. -/
theorem deleteO_spec {c : α → α → Int} (L : LawfulCmp c) :
    ∀ {t : Link α} {item : α}, ∀ {t' : Link α} {d : Bool} {n : Nat},
      deleteO c t item = some (t', d) →
      dEnt c item t → Bal n t → bst c true t →
      okd t' ∧ (∃ k, Bal k t') ∧
      (red_present t = true → Bal n t' ∧
        (is_red t' && is_red t'.left) = false ∧
        (is_red t = false → is_red t' = false)) ∧
      bst c true t' ∧
      (d = false → iterate_inorder t' = iterate_inorder t) ∧
      (d = true → ∃ pre z post, c z item = 0 ∧
        iterate_inorder t = pre ++ z :: post ∧
        iterate_inorder t' = pre ++ post) := by
  intro t item
  induction t, item using deleteO.induct (c := c) with
  | case1 item =>
      intro t' d n h hE hB hbst
      rw [deleteO] at h
      exact Option.noConfusion h
  | case2 item x l r co hc heq =>
      intro t' d n h hE hB hbst
      rw [deleteO_eq_sl_none hc heq] at h
      exact Option.noConfusion h
  | case3 item x l r co hc heq =>
      intro t' d n h hE hB hbst
      rw [deleteO_eq_sl_nil hc heq] at h
      exact Option.noConfusion h
  | case4 item x l r co hc x1 l1 r1 c1 heq hrec ih =>
      intro t' d n h hE hB hbst
      rw [deleteO_eq_left hc heq] at h
      rw [hrec] at h
      exact Option.noConfusion h
  | case5 item x l r co hc x1 l1 r1 c1 heq l2 d2 hrec ih =>
      intro t' d n h hE hB hbst
      rw [deleteO_eq_left hc heq] at h
      rw [hrec] at h
      obtain ⟨h1, h2⟩ := Prod.mk.inj (Option.some.inj h)
      subst h1
      subst h2
      obtain ⟨hokl, hokr, hnb, hco4, he6⟩ := hE
      have hrbF : is_red r = false := by
        cases h9 : is_red r with
        | false => rfl
        | true => exact absurd (he6 h9) (by omega)
      obtain ⟨m, hBl, hBr, hn⟩ := Bal_node_inv hB
      obtain ⟨hbl, hbr, hxl, hxr⟩ := hbst
      have hio1 : iterate_inorder (Link.node x l r co) =
          iterate_inorder l1 ++ x1 :: iterate_inorder r1 := by
        rw [← step_left_inorder heq, inorder_node]
      obtain ⟨lx, ll, lr, lc, hleq, sdisj⟩ := step_left_split heq
      subst hleq
      obtain ⟨hokll, hoklr, hlrb, hlci⟩ := hokl
      rcases sdisj with ⟨hg, ht1⟩ | ⟨hg, hmv⟩
      · -- the guard failed: recurse into the untouched left child
        obtain ⟨e1, e2, e3, e4⟩ := Link.node.inj ht1
        have e1s := e1.symm
        subst e1s
        have e3s := e3.symm
        subst e3s
        have e4s := e4.symm
        subst e4s
        subst e2
        have hrp2 : red_present (Link.node lx ll lr lc) = true := by
          show (lc || is_red ll || is_red lr) = true
          cases lc with
          | true => rfl
          | false =>
              cases hll9 : is_red ll with
              | true => rfl
              | false => rw [hll9] at hg; exact Bool.noConfusion hg
        have hEl : dEnt c item (Link.node lx ll lr lc) :=
          ⟨hokll, hoklr, by rw [hlrb, Bool.and_false],
           fun hlc => ⟨hlci hlc, hlrb⟩,
           fun hh => absurd hh (by rw [hlrb]; simp)⟩
        have hih := ih hrec hEl hBl hbl
        obtain ⟨hd2, hEx2, hRPcl, hbst2, hf2, ht2⟩ := hih
        obtain ⟨hB2, hp2, hbb2⟩ := hRPcl hrp2
        have hsub := mem_of_del_spec hf2 ht2
        have hglue := left_inorder_glue (b := co) hio1 hf2 ht2
        have hcases := fix_up_del_cases (w := x) (p := l2) (q := r)
          (b := co) hp2 (okN_right_black hokr)
        rcases hcases with ⟨_, hfix⟩ | ⟨hcf, _⟩ | ⟨hcf, _⟩
        · refine ⟨?_, ?_, ?_, bst_fix_up L
            ⟨hbst2, hbr, fun w hw => hxl w (hsub w hw), hxr⟩,
            hglue.1, hglue.2⟩
          · rw [hfix]
            exact ⟨okN_of_okd_pair hd2 hp2, hokr, hrbF⟩
          · refine ⟨n, ?_⟩
            rw [hfix, hn]
            cases co with
            | true => exact Bal.red hB2 hBr
            | false => exact Bal.black hB2 hBr
          · intro _
            refine ⟨?_, ?_, ?_⟩
            · rw [hfix, hn]
              cases co with
              | true => exact Bal.red hB2 hBr
              | false => exact Bal.black hB2 hBr
            · rw [hfix]
              show (co && is_red l2) = false
              cases hco9 : co with
              | false => rfl
              | true =>
                  rw [hbb2 (hco4 hco9).1]
                  rfl
            · intro hf
              rw [hfix]
              exact hf
        · exact absurd hcf (by simp [hrbF])
        · exact absurd hcf (by simp [hrbF])
      · -- move_red_left fired: left link and its left are black
        have hlcF : lc = false := by
          cases h9 : lc with
          | false => rfl
          | true => rw [h9] at hg; exact absurd hg (by simp)
        have hllF : is_red ll = false := by
          cases h9 : is_red ll with
          | false => rfl
          | true => rw [h9] at hg; exact absurd hg (by simp)
        subst hlcF
        obtain ⟨lx2, ll2, lr2, lc2, hleq2, rx, rl, rr, rc, hreq, mdisj⟩ :=
          move_red_leftO_cases hmv
        obtain ⟨f1, f2, f3, f4⟩ := Link.node.inj hleq2
        subst f1
        subst f2
        subst f3
        subst f4
        subst hreq
        have hrcF : rc = false := hrbF
        subst hrcF
        obtain ⟨j, hBll, hBlr, hmj⟩ := Bal_node_inv hBl
        simp at hmj
        obtain ⟨j2, hBrl, hBrr, hmj2⟩ := Bal_node_inv hBr
        simp at hmj2
        have hjj : j = j2 := by omega
        subst hjj
        obtain ⟨hbrl, hbrr, hrxl, hrxr⟩ := hbr
        obtain ⟨hokrl, hokrr, hrrb, hrli⟩ := hokr
        rcases mdisj with ⟨hrlbF, hM⟩ | ⟨v, vl, vr, hrleq, hM⟩
        · -- sibling kept: the node was only recoloured
          simp only [Bool.not_false] at hM
          obtain ⟨e1, e2, e3, e4⟩ := Link.node.inj hM
          have e1s := e1.symm
          subst e1s
          subst e2
          subst e3
          subst e4
          have hEl : dEnt c item (Link.node lx ll lr true) :=
            ⟨hokll, hoklr, by rw [hlrb, Bool.and_false],
             fun _ => ⟨hllF, hlrb⟩,
             fun hh => absurd hh (by rw [hlrb]; simp)⟩
          have hih := ih hrec hEl (Bal.red hBll hBlr) hbl
          obtain ⟨hd2, hEx2, hRPcl, hbst2, hf2, ht2⟩ := hih
          obtain ⟨hB2, hp2, _⟩ := hRPcl rfl
          have hsub := mem_of_del_spec hf2 ht2
          have hglue := left_inorder_glue (b := !co) hio1 hf2 ht2
          have hbstpre : bst c true (Link.node x l2
              (Link.node rx rl rr true) (!co)) :=
            ⟨hbst2, ⟨hbrl, hbrr, hrxl, hrxr⟩,
              fun w hw => hxl w (hsub w hw), fun w hw => hxr w hw⟩
          have hcases := fix_up_del_cases (w := x) (p := l2)
            (q := Link.node rx rl rr true) (b := !co) hp2
            (by simp only [Link.right]; exact hrrb)
          rcases hcases with ⟨hcf, _⟩ | ⟨_, hl2b, rx2, rl2, rr2, hre, hfix⟩ |
            ⟨_, hl2r, ⟨a2, b2, d2x, hl2e⟩, _, hfix⟩
          · exact absurd hcf (by simp [is_red])
          · -- the recursion came back black: one rotation
            obtain ⟨g1, g2, g3, _⟩ := Link.node.inj hre
            subst g1
            subst g2
            subst g3
            refine ⟨?_, ?_, ?_, bst_fix_up L hbstpre, hglue.1, hglue.2⟩
            · rw [hfix]
              exact ⟨⟨okN_of_okd_black hd2 hl2b, hokrl, hrlbF,
                fun _ => hl2b⟩, hokrr, hrrb⟩
            · refine ⟨if co = true then j + 1 else j, ?_⟩
              rw [hfix]
              cases co with
              | true => exact Bal.black (Bal.red hB2 hBrl) hBrr
              | false => exact Bal.red (Bal.red hB2 hBrl) hBrr
            · intro hrp3
              have hco9 : co = true := by
                cases co with
                | true => rfl
                | false => exact Bool.noConfusion hrp3
              subst hco9
              simp at hn
              refine ⟨?_, ?_, fun hf => Bool.noConfusion hf⟩
              · rw [hfix, hn, hmj]
                exact Bal.black (Bal.red hB2 hBrl) hBrr
              · rw [hfix]
                rfl
          · -- the recursion came back red: flip undoes the move's flip
            subst hl2e
            have hflip : flip_colours (Link.node x (Link.node a2 b2 d2x true)
                (Link.node rx rl rr true) (!co)) =
                Link.node x (Link.node a2 b2 d2x false)
                  (Link.node rx rl rr false) (!(!co)) := rfl
            simp only [Bool.not_not] at hflip
            refine ⟨?_, ?_, ?_, bst_fix_up L hbstpre, hglue.1, hglue.2⟩
            · rw [hfix, hflip]
              exact ⟨okN_of_okd_black (t := Link.node a2 b2 d2x false) hd2 rfl,
                ⟨hokrl, hokrr, hrrb, fun hh => Bool.noConfusion hh⟩, rfl⟩
            · refine ⟨n, ?_⟩
              rw [hfix, hflip, hn, hmj]
              cases co with
              | true =>
                  exact Bal.red (Bal_red_to_black hB2) (Bal.black hBrl hBrr)
              | false =>
                  exact Bal.black (Bal_red_to_black hB2) (Bal.black hBrl hBrr)
            · intro _
              refine ⟨?_, ?_, ?_⟩
              · rw [hfix, hflip, hn, hmj]
                cases co with
                | true =>
                    exact Bal.red (Bal_red_to_black hB2) (Bal.black hBrl hBrr)
                | false =>
                    exact Bal.black (Bal_red_to_black hB2)
                      (Bal.black hBrl hBrr)
              · rw [hfix, hflip]
                show (co && false) = false
                exact Bool.and_false co
              · intro hf
                rw [hfix, hflip]
                exact hf
        · -- the red sibling-left was rotated up
          subst hrleq
          simp only [Bool.not_false] at hM
          obtain ⟨e1, e2, e3, e4⟩ := Link.node.inj hM
          have e1s := e1.symm
          subst e1s
          subst e2
          subst e3
          have e4s := e4.symm
          subst e4s
          obtain ⟨hokvl, hokvr, hvrb, hvli⟩ := hokrl
          have hvlb : is_red vl = false := hvli rfl
          obtain ⟨i, hBvl, hBvr, hji⟩ := Bal_node_inv hBrl
          simp at hji
          subst hji
          obtain ⟨hbvl, hbvr, hvl_cond, hvr_cond⟩ := hbrl
          have hEl : dEnt c item (Link.node x (Link.node lx ll lr true)
              vl false) :=
            ⟨⟨hokll, hoklr, hlrb, fun _ => hllF⟩, hokvl,
             by rw [hvlb, Bool.and_false],
             fun hh => Bool.noConfusion hh,
             fun hh => absurd hh (by rw [hvlb]; simp)⟩
          have hvmem : v ∈ iterate_inorder (Link.node rx
              (Link.node v vl vr true) rr false) := by
            rw [inorder_node]
            refine List.mem_append_left _ ?_
            rw [inorder_node]
            exact List.mem_append_right _ (List.mem_cons_self v _)
          have hvx : c v x > 0 := by
            have h1 : c x v < 0 := hxr v hvmem
            have h2 := L.swap x v
            omega
          have hbstl1 : bst c true (Link.node x (Link.node lx ll lr true)
              vl false) := by
            refine ⟨hbl, hbvl, hxl, ?_⟩
            intro w hw
            refine hxr w ?_
            rw [inorder_node]
            refine List.mem_append_left _ ?_
            rw [inorder_node]
            exact List.mem_append_left _ hw
          have hih := ih hrec hEl
            (Bal.black (Bal.red hBll hBlr) hBvl) hbstl1
          obtain ⟨hd2, hEx2, hRPcl, hbst2, hf2, ht2⟩ := hih
          obtain ⟨hB2, hp2, hbb2⟩ := hRPcl rfl
          have hl2b : is_red l2 = false := hbb2 rfl
          have hsub := mem_of_del_spec hf2 ht2
          have hglue := left_inorder_glue (b := co) hio1 hf2 ht2
          have hrxv : c rx v > 0 := hrxl v (by
            rw [inorder_node]
            exact List.mem_append_right _ (List.mem_cons_self v _))
          have hvrx : c v rx < 0 := by
            have h2 := L.swap v rx
            omega
          have hbstpre : bst c true (Link.node v l2
              (Link.node rx vr rr false) co) := by
            refine ⟨hbst2, ⟨hbvr, hbrr, ?_, hrxr⟩, ?_, ?_⟩
            · intro w hw
              refine hrxl w ?_
              rw [inorder_node]
              exact List.mem_append_right _ (List.mem_cons_of_mem _ hw)
            · intro w hw
              have hw2 := hsub w hw
              rw [inorder_node] at hw2
              rcases List.mem_append.mp hw2 with hw2 | hw2
              · show c v w > 0
                exact cmp_gt_trans L hvx (hxl w hw2)
              · rcases List.mem_cons.mp hw2 with hw2 | hw2
                · subst hw2
                  show c v w > 0
                  exact hvx
                · exact hvl_cond w hw2
            · intro w hw
              rw [inorder_node] at hw
              rcases List.mem_append.mp hw with hw | hw
              · exact hvr_cond w hw
              · rcases List.mem_cons.mp hw with hw | hw
                · subst hw
                  show c v w < 0
                  exact hvrx
                · show c v w < 0
                  exact cmp_lt_trans L hvrx (hrxr w hw)
          have hcases := fix_up_del_cases (w := v) (p := l2)
            (q := Link.node rx vr rr false) (b := co) hp2
            (by simp only [Link.right]; exact hrrb)
          rcases hcases with ⟨_, hfix⟩ | ⟨hcf, _⟩ | ⟨hcf, _⟩
          · refine ⟨?_, ?_, ?_, bst_fix_up L hbstpre, hglue.1, hglue.2⟩
            · rw [hfix]
              exact ⟨okN_of_okd_black hd2 hl2b,
                ⟨hokvr, hokrr, hrrb, fun hh => Bool.noConfusion hh⟩, rfl⟩
            · refine ⟨n, ?_⟩
              rw [hfix, hn, hmj]
              cases co with
              | true => exact Bal.red hB2 (Bal.black hBvr hBrr)
              | false => exact Bal.black hB2 (Bal.black hBvr hBrr)
            · intro _
              refine ⟨?_, ?_, ?_⟩
              · rw [hfix, hn, hmj]
                cases co with
                | true => exact Bal.red hB2 (Bal.black hBvr hBrr)
                | false => exact Bal.black hB2 (Bal.black hBvr hBrr)
              · rw [hfix]
                show (co && is_red l2) = false
                rw [hl2b, Bool.and_false]
              · intro hf
                rw [hfix]
                exact hf
          · exact absurd hcf (by simp [is_red])
          · exact absurd hcf (by simp [is_red])
  | case6 item x l r co hc heq =>
      intro t' d n h hE hB hbst
      simp only [dite_eq_ite] at heq
      rw [deleteO_eq_h2_nil hc heq] at h
      exact Option.noConfusion h
  | case7 item x l r co hc y yl yr yc heq hcond =>
      intro t' d n h hE hB hbst
      simp only [dite_eq_ite] at heq
      rw [deleteO_eq_found hc heq hcond] at h
      obtain ⟨h1, h2⟩ := Prod.mk.inj (Option.some.inj h)
      have h1s := h1.symm
      subst h1s
      have h2s := h2.symm
      subst h2s
      obtain ⟨cz, hnil⟩ : c y item = 0 ∧ Link.isNil yr = true := by
        simpa using hcond
      have hyrnil : yr = Link.nil := by
        cases hyr : yr with
        | nil => rfl
        | node a b e f => rw [hyr] at hnil; exact Bool.noConfusion hnil
      subst hyrnil
      obtain ⟨hokyl, hokyr, hylb, hyc4, ⟨m, hByl, hByr, hn⟩,
        hbst2, hio2, h6, hrp, hyco⟩ := right_entry_facts L hc hE hB hbst heq
      have hm0 : m = 0 := Bal_nil_inv hByr
      subst hm0
      have hylnil : yl = Link.nil := Bal_zero_black hByl hylb
      subst hylnil
      refine ⟨trivial, ⟨0, Bal.nil⟩, ?_, trivial,
        fun hf => Bool.noConfusion hf,
        fun _ => ⟨[], y, [], cz, ?_, rfl⟩⟩
      · intro hrp3
        rw [hrp] at hrp3
        have hyc : yc = true := by
          cases h9 : yc with
          | true => rfl
          | false => rw [h9] at hrp3; exact absurd hrp3 (by simp [is_red])
        rw [hyc] at hn
        simp at hn
        subst hn
        exact ⟨Bal.nil, rfl, fun _ => rfl⟩
      · rw [← hio2]
        rfl
  | case8 item x l r co hc y yl yr yc heq hcond heq3 =>
      intro t' d n h hE hB hbst
      simp only [dite_eq_ite] at heq
      rw [deleteO_eq_sr_none hc heq (by simp [hcond]) heq3] at h
      exact Option.noConfusion h
  | case9 item x l r co hc y yl yr yc heq hcond heq3 =>
      intro t' d n h hE hB hbst
      simp only [dite_eq_ite] at heq
      rw [deleteO_eq_sr_nil hc heq (by simp [hcond]) heq3] at h
      exact Option.noConfusion h
  | case10 item x l r co hc y yl yr yc heq hcond z zl zr zc heq3 hz heq4 =>
      intro t' d n h hE hB hbst
      simp only [dite_eq_ite] at heq
      rw [deleteO_eq_splice hc heq (by simp [hcond]) heq3 (by simp [hz])] at h
      rw [heq4] at h
      exact Option.noConfusion h
  | case11 item x l r co hc y yl yr yc heq hcond z zl zr zc heq3 hz lm heq4 heq5 =>
      intro t' d n h hE hB hbst
      simp only [dite_eq_ite] at heq
      rw [deleteO_eq_splice hc heq (by simp [hcond]) heq3 (by simp [hz])] at h
      rw [heq4, heq5] at h
      exact Option.noConfusion h
  | case12 item x l r co hc y yl yr yc heq hcond z zl zr zc heq3 hz lm heq4 zr2 heq5 =>
      intro t' d n h hE hB hbst
      simp only [dite_eq_ite] at heq
      rw [deleteO_eq_splice hc heq (by simp [hcond]) heq3 (by simp [hz])] at h
      rw [heq4, heq5] at h
      obtain ⟨h1, h2⟩ := Prod.mk.inj (Option.some.inj h)
      have h1s := h1.symm
      subst h1s
      have h2s := h2.symm
      subst h2s
      obtain ⟨hokyl, hokyr, hylb, hyc4, ⟨m, hByl, hByr, hn⟩,
        hbst2, hio2, h6, hrp, hyco⟩ := right_entry_facts L hc hE hB hbst heq
      obtain ⟨hokzl, hEzr, sdisj⟩ := t3_facts hokyl hokyr hylb h6 heq3
      have hio3 := step_right_inorder heq3
      have hio1 : iterate_inorder (Link.node x l r co) =
          iterate_inorder zl ++ z :: iterate_inorder zr := by
        rw [← hio2, ← hio3, inorder_node]
      obtain ⟨hbst3l, hbst3r, hzl_cond, hzr_cond⟩ := step_right_bst L heq3 hbst2
      have hzitem : c z item = 0 := by simpa using hz
      obtain ⟨rest, hlmhead⟩ := leftmostO_head heq4
      have hlmmem : lm ∈ iterate_inorder zr := by
        rw [hlmhead]
        exact List.mem_cons_self _ _
      have hzlm : c z lm < 0 := hzr_cond lm hlmmem
      have hlmz : c lm z > 0 := by
        have := L.swap z lm
        omega
      have hPW := bst_pairwise_lt L hbst3r
      rcases sdisj with ⟨e1, e2, e3, e4, hrp2⟩ |
        ⟨ry, yrl, yrr, hyreq, hyrlb, a, al, ar, ac, hyleq, mdisj⟩
      · -- guard failed: the node is unchanged
        subst e1
        subst e2
        subst e3
        subst e4
        have hdlm := delete_left_mostO_spec L heq5 (okd_of_okN hokyr)
          (okN_no_redred hokyr) hrp2 hByr hbst3r
        obtain ⟨hd2, hB2, hp2, hbb2, hbstzr2, hio4⟩ := hdlm
        have hlm2 : iterate_inorder zr = lm :: iterate_inorder zr2 := by
          rw [hio4, hlmhead]
          rfl
        have hglue := splice_inorder_glue (b := zc) hio1 hlm2
        rw [hlm2] at hPW
        obtain ⟨hhead, _⟩ := List.pairwise_cons.mp hPW
        have hbstpre : bst c true (Link.node lm zl zr2 zc) := by
          refine ⟨hbst3l, hbstzr2, ?_, ?_⟩
          · intro w hw
            show c lm w > 0
            exact cmp_gt_trans L hlmz (hzl_cond w hw)
          · intro w hw
            exact hhead w hw
        have hcases := fix_up_del_cases (w := lm) (p := zl) (q := zr2)
          (b := zc) (okN_no_redred hokzl) (okd_right_black hd2)
        rcases hcases with ⟨hr2b, hfix⟩ |
          ⟨hr2r, hzlb, w2, wl, wr, hr2eq, hfix⟩ | ⟨_, hzlr, _, _, hfix⟩
        · refine ⟨?_, ?_, ?_, bst_fix_up L hbstpre,
            fun hdf => Bool.noConfusion hdf,
            fun _ => ⟨iterate_inorder zl, z, iterate_inorder zr,
              hzitem, hglue.1, hglue.2⟩⟩
          · rw [hfix]
            exact ⟨hokzl, okN_of_okd_black hd2 hr2b, hr2b⟩
          · refine ⟨n, ?_⟩
            rw [hfix, hn]
            cases zc with
            | true => exact Bal.red hByl hB2
            | false => exact Bal.black hByl hB2
          · intro _
            refine ⟨?_, ?_, ?_⟩
            · rw [hfix, hn]
              cases zc with
              | true => exact Bal.red hByl hB2
              | false => exact Bal.black hByl hB2
            · rw [hfix]
              show (zc && is_red zl) = false
              rw [hylb, Bool.and_false]
            · intro hf
              rw [hfix]
              show zc = false
              rw [hyco]
              exact hf
        · -- the splice returned red: one rotation
          subst hr2eq
          have hwlb : is_red wl = false := by
            have hp2x : (true && is_red wl) = false := hp2
            cases h9 : is_red wl with
            | false => rfl
            | true => rw [h9] at hp2x; exact Bool.noConfusion hp2x
          obtain ⟨hokwl, hokwr, hwrb⟩ := hd2
          have hzrr : is_red zr = true := by
            cases h9 : is_red zr with
            | true => rfl
            | false => exact absurd (hbb2 h9) (by simp [is_red])
          have hzcF : zc = false := by
            cases h9 : zc with
            | false => rfl
            | true => exact absurd (hyc4 h9) (by simp [hzrr])
          subst hzcF
          obtain ⟨i2, hBwl, hBwr, hmi2⟩ := Bal_node_inv hB2
          simp at hmi2
          subst hmi2
          refine ⟨?_, ?_, ?_, bst_fix_up L hbstpre,
            fun hdf => Bool.noConfusion hdf,
            fun _ => ⟨iterate_inorder zl, z, iterate_inorder zr,
              hzitem, hglue.1, hglue.2⟩⟩
          · rw [hfix]
            exact ⟨⟨hokzl, hokwl, hwlb, fun _ => hylb⟩, hokwr, hwrb⟩
          · refine ⟨n, ?_⟩
            rw [hfix, hn]
            exact Bal.black (Bal.red hByl hBwl) hBwr
          · intro _
            refine ⟨?_, ?_, ?_⟩
            · rw [hfix, hn]
              exact Bal.black (Bal.red hByl hBwl) hBwr
            · rw [hfix]
              rfl
            · intro hf
              rw [hfix]
              rfl
        · exact absurd hzlr (by simp [hylb])
      · -- move_red_right fired
        subst hyreq
        subst hyleq
        have hacF : ac = false := hylb
        subst hacF
        obtain ⟨hbyl, hbyr, hyl_cond, hyr_cond⟩ := hbst2
        obtain ⟨hokal, hokar, harb, haci⟩ := hokyl
        obtain ⟨hokyrl, hokyrr, hyrrb, _⟩ := hokyr
        obtain ⟨j, hBal2, hBar2, hmj⟩ := Bal_node_inv hByl
        simp at hmj
        obtain ⟨i, hBiyrl, hBiyrr, hmi⟩ := Bal_node_inv hByr
        simp at hmi
        have hij : j = i := by omega
        subst hij
        rcases mdisj with ⟨halb, e2, e3, e4, e5⟩ |
          ⟨u, ul, ur, haleq, e2, e3, e4, e5⟩
        · -- move kept the node
          subst e2
          simp only [Bool.not_false] at e3
          subst e3
          subst e4
          subst e5
          have hdlm := delete_left_mostO_spec L heq5
            ⟨hokyrl, hokyrr, hyrrb⟩
            (by show (true && is_red yrl) = false; rw [hyrlb]; rfl)
            (by rfl) (Bal.red hBiyrl hBiyrr) hbst3r
          obtain ⟨hd2, hB2, hp2, _, hbstzr2, hio4⟩ := hdlm
          have hlm2 : iterate_inorder (Link.node ry yrl yrr true) =
              lm :: iterate_inorder zr2 := by
            rw [hio4, hlmhead]
            rfl
          have hglue := splice_inorder_glue (b := !yc) hio1 hlm2
          rw [hlm2] at hPW
          obtain ⟨hhead, _⟩ := List.pairwise_cons.mp hPW
          have hbstpre : bst c true (Link.node lm
              (Link.node a al ar true) zr2 (!yc)) := by
            refine ⟨hbst3l, hbstzr2, ?_, ?_⟩
            · intro w hw
              show c lm w > 0
              exact cmp_gt_trans L hlmz (hzl_cond w hw)
            · intro w hw
              exact hhead w hw
          have hcases := fix_up_del_cases (w := lm)
            (p := Link.node a al ar true) (q := zr2) (b := !yc)
            (by show (true && is_red al) = false; rw [halb]; rfl)
            (okd_right_black hd2)
          rcases hcases with ⟨hr2b, hfix⟩ | ⟨hr2r, hzlb, _, _, _, _, _⟩ |
            ⟨hr2r, _, _, ⟨rx2, rl2, rr2, hr2eq⟩, hfix⟩
          · refine ⟨?_, ?_, ?_, bst_fix_up L hbstpre,
              fun hdf => Bool.noConfusion hdf,
              fun _ => ⟨iterate_inorder (Link.node a al ar true), z,
                iterate_inorder (Link.node ry yrl yrr true),
                hzitem, hglue.1, hglue.2⟩⟩
            · rw [hfix]
              exact ⟨hokzl, okN_of_okd_black hd2 hr2b, hr2b⟩
            · refine ⟨if yc = true then j + 1 else j, ?_⟩
              rw [hfix]
              cases yc with
              | true => exact Bal.black (Bal.red hBal2 hBar2) hB2
              | false => exact Bal.red (Bal.red hBal2 hBar2) hB2
            · intro hrp3
              rw [hrp] at hrp3
              have hyc9 : yc = true := by
                cases h9 : yc with
                | true => rfl
                | false =>
                    rw [h9] at hrp3
                    exact absurd hrp3 (by simp [is_red])
              subst hyc9
              simp at hn
              refine ⟨?_, ?_, ?_⟩
              · rw [hfix, hn, hmj]
                exact Bal.black (Bal.red hBal2 hBar2) hB2
              · rw [hfix]
                rfl
              · intro hf
                rw [← hyco] at hf
                exact Bool.noConfusion hf
          · exact absurd hzlb (by simp [is_red])
          · -- both red: the flip cancels
            subst hr2eq
            have hflip : flip_colours (Link.node lm (Link.node a al ar true)
                (Link.node rx2 rl2 rr2 true) (!yc)) =
                Link.node lm (Link.node a al ar false)
                  (Link.node rx2 rl2 rr2 false) (!(!yc)) := rfl
            simp only [Bool.not_not] at hflip
            obtain ⟨i2, hBrl2, hBrr2, hmi2⟩ := Bal_node_inv hB2
            simp at hmi2
            subst hmi2
            refine ⟨?_, ?_, ?_, bst_fix_up L hbstpre,
              fun hdf => Bool.noConfusion hdf,
              fun _ => ⟨iterate_inorder (Link.node a al ar true), z,
                iterate_inorder (Link.node ry yrl yrr true),
                hzitem, hglue.1, hglue.2⟩⟩
            · rw [hfix, hflip]
              exact ⟨⟨hokal, hokar, harb, fun hh => Bool.noConfusion hh⟩,
                okN_of_okd_black (t := Link.node rx2 rl2 rr2 false) hd2 rfl,
                rfl⟩
            · refine ⟨n, ?_⟩
              rw [hfix, hflip, hn, hmj]
              cases yc with
              | true =>
                  exact Bal.red (Bal.black hBal2 hBar2)
                    (Bal.black hBrl2 hBrr2)
              | false =>
                  exact Bal.black (Bal.black hBal2 hBar2)
                    (Bal.black hBrl2 hBrr2)
            · intro _
              refine ⟨?_, ?_, ?_⟩
              · rw [hfix, hflip, hn, hmj]
                cases yc with
                | true =>
                    exact Bal.red (Bal.black hBal2 hBar2)
                      (Bal.black hBrl2 hBrr2)
                | false =>
                    exact Bal.black (Bal.black hBal2 hBar2)
                      (Bal.black hBrl2 hBrr2)
              · rw [hfix, hflip]
                show (yc && false) = false
                exact Bool.and_false yc
              · intro hf
                rw [hfix, hflip]
                show yc = false
                rw [hyco]
                exact hf
        · -- a red-left rotation happened: then the found item is left
          -- of the probe, contradicting the equality
          subst haleq
          subst e2
          exact absurd hzitem (by
            have h1 : c y z > 0 :=
              hyl_cond z (root_mem_inorder z (Link.node u ul ur true) ar false)
            have h2 : c z y < 0 := by
              have := L.swap y z
              omega
            have h3 : c z item < 0 := L.lt_of_lt_of_le h2 h6
            omega)
  | case13 item x l r co hc y yl yr yc heq hcond z zl zr zc heq3 hz heq4 ih =>
      intro t' d n h hE hB hbst
      simp only [dite_eq_ite] at heq
      rw [deleteO_eq_right hc heq (by simp [hcond]) heq3 (by simp [hz])] at h
      rw [heq4] at h
      exact Option.noConfusion h
  | case14 item x l r co hc y yl yr yc heq hcond z zl zr zc heq3 hz r2 d2 heq4 ih =>
      intro t' d n h hE hB hbst
      simp only [dite_eq_ite] at heq
      rw [deleteO_eq_right hc heq (by simp [hcond]) heq3 (by simp [hz])] at h
      rw [heq4] at h
      obtain ⟨h1, h2⟩ := Prod.mk.inj (Option.some.inj h)
      subst h1
      subst h2
      obtain ⟨hokyl, hokyr, hylb, hyc4, ⟨m, hByl, hByr, hn⟩,
        hbst2, hio2, h6, hrp, hyco⟩ := right_entry_facts L hc hE hB hbst heq
      obtain ⟨hokzl, hEzr, sdisj⟩ := t3_facts hokyl hokyr hylb h6 heq3
      have hio3 := step_right_inorder heq3
      have hio1 : iterate_inorder (Link.node x l r co) =
          iterate_inorder zl ++ z :: iterate_inorder zr := by
        rw [← hio2, ← hio3, inorder_node]
      obtain ⟨hbst3l, hbst3r, hzl_cond, hzr_cond⟩ :=
        step_right_bst L heq3 hbst2
      rcases sdisj with ⟨e1, e2, e3, e4, hrp2⟩ |
        ⟨ry, yrl, yrr, hyreq, hyrlb, a, al, ar, ac, hyleq, mdisj⟩
      · -- the guard failed: the node is unchanged
        subst e1
        subst e2
        subst e3
        subst e4
        have hrp3zr : red_present zr = true := by
          show (is_red zr || is_red zr.left || is_red zr.right) = true
          rcases (by simpa using hrp2 :
              is_red zr = true ∨ is_red zr.left = true) with h9 | h9
          · rw [h9]
            rfl
          · rw [h9]
            simp
        have hih := ih heq4 hEzr hByr hbst3r
        obtain ⟨hd2, hEx2, hRPcl, hbstr2, hf2, ht2⟩ := hih
        obtain ⟨hB2, hp2, hbb2⟩ := hRPcl hrp3zr
        have hsub := mem_of_del_spec hf2 ht2
        have hglue := right_inorder_glue (b := zc) hio1 hf2 ht2
        have hbstpre : bst c true (Link.node z zl r2 zc) :=
          ⟨hbst3l, hbstr2, hzl_cond, fun w hw => hzr_cond w (hsub w hw)⟩
        have hcases := fix_up_del_cases (w := z) (p := zl) (q := r2)
          (b := zc) (okN_no_redred hokzl) (okd_right_black hd2)
        rcases hcases with ⟨hr2b, hfix⟩ |
          ⟨hr2r, hzlb, w2, wl, wr, hr2eq, hfix⟩ | ⟨_, hzlr, _, _, hfix⟩
        · refine ⟨?_, ?_, ?_, bst_fix_up L hbstpre, hglue.1, hglue.2⟩
          · rw [hfix]
            exact ⟨hokzl, okN_of_okd_black hd2 hr2b, hr2b⟩
          · refine ⟨n, ?_⟩
            rw [hfix, hn]
            cases zc with
            | true => exact Bal.red hByl hB2
            | false => exact Bal.black hByl hB2
          · intro _
            refine ⟨?_, ?_, ?_⟩
            · rw [hfix, hn]
              cases zc with
              | true => exact Bal.red hByl hB2
              | false => exact Bal.black hByl hB2
            · rw [hfix]
              show (zc && is_red zl) = false
              rw [hylb, Bool.and_false]
            · intro hf
              rw [hfix]
              show zc = false
              rw [hyco]
              exact hf
        · -- the recursion returned red: one rotation
          subst hr2eq
          have hwlb : is_red wl = false := by
            have hp2x : (true && is_red wl) = false := hp2
            cases h9 : is_red wl with
            | false => rfl
            | true => rw [h9] at hp2x; exact Bool.noConfusion hp2x
          obtain ⟨hokwl, hokwr, hwrb⟩ := hd2
          have hzrr : is_red zr = true := by
            cases h9 : is_red zr with
            | true => rfl
            | false => exact absurd (hbb2 h9) (by simp [is_red])
          have hzcF : zc = false := by
            cases h9 : zc with
            | false => rfl
            | true => exact absurd (hyc4 h9) (by simp [hzrr])
          subst hzcF
          obtain ⟨i2, hBwl, hBwr, hmi2⟩ := Bal_node_inv hB2
          simp at hmi2
          subst hmi2
          refine ⟨?_, ?_, ?_, bst_fix_up L hbstpre, hglue.1, hglue.2⟩
          · rw [hfix]
            exact ⟨⟨hokzl, hokwl, hwlb, fun _ => hylb⟩, hokwr, hwrb⟩
          · refine ⟨n, ?_⟩
            rw [hfix, hn]
            exact Bal.black (Bal.red hByl hBwl) hBwr
          · intro _
            refine ⟨?_, ?_, ?_⟩
            · rw [hfix, hn]
              exact Bal.black (Bal.red hByl hBwl) hBwr
            · rw [hfix]
              rfl
            · intro hf
              rw [hfix]
              rfl
        · exact absurd hzlr (by simp [hylb])
      · -- move_red_right fired
        subst hyreq
        subst hyleq
        have hacF : ac = false := hylb
        subst hacF
        obtain ⟨hbyl, hbyr, hyl_cond, hyr_cond⟩ := hbst2
        obtain ⟨hbal, hbar, hal_cond, har_cond⟩ := hbyl
        obtain ⟨hbyrl, hbyrr, hryl_cond, hryr_cond⟩ := hbyr
        obtain ⟨hokal, hokar, harb, haci⟩ := hokyl
        obtain ⟨hokyrl, hokyrr, hyrrb, _⟩ := hokyr
        obtain ⟨j, hBal2, hBar2, hmj⟩ := Bal_node_inv hByl
        simp at hmj
        obtain ⟨i, hBiyrl, hBiyrr, hmi⟩ := Bal_node_inv hByr
        simp at hmi
        have hij : j = i := by omega
        subst hij
        rcases mdisj with ⟨halb, e2, e3, e4, e5⟩ |
          ⟨u, ul, ur, haleq, e2, e3, e4, e5⟩
        · -- move kept the node: children flipped red
          subst e2
          simp only [Bool.not_false] at e3
          subst e3
          subst e4
          subst e5
          have hih := ih heq4 hEzr (Bal.red hBiyrl hBiyrr) hbst3r
          obtain ⟨hd2, hEx2, hRPcl, hbstr2, hf2, ht2⟩ := hih
          obtain ⟨hB2, hp2, _⟩ := hRPcl rfl
          have hsub := mem_of_del_spec hf2 ht2
          have hglue := right_inorder_glue (b := !yc) hio1 hf2 ht2
          have hbstpre : bst c true (Link.node z
              (Link.node a al ar true) r2 (!yc)) :=
            ⟨hbst3l, hbstr2, hzl_cond, fun w hw => hzr_cond w (hsub w hw)⟩
          have hcases := fix_up_del_cases (w := z)
            (p := Link.node a al ar true) (q := r2) (b := !yc)
            (by show (true && is_red al) = false; rw [halb]; rfl)
            (okd_right_black hd2)
          rcases hcases with ⟨hr2b, hfix⟩ | ⟨hr2r, hzlb, _, _, _, _, _⟩ |
            ⟨hr2r, _, _, ⟨rx2, rl2, rr2, hr2eq⟩, hfix⟩
          · refine ⟨?_, ?_, ?_, bst_fix_up L hbstpre, hglue.1, hglue.2⟩
            · rw [hfix]
              exact ⟨hokzl, okN_of_okd_black hd2 hr2b, hr2b⟩
            · refine ⟨if yc = true then j + 1 else j, ?_⟩
              rw [hfix]
              cases yc with
              | true =>
                  exact Bal.black (Bal.red hBal2 hBar2) hB2
              | false =>
                  exact Bal.red (Bal.red hBal2 hBar2) hB2
            · intro hrp3
              rw [hrp] at hrp3
              have hyc9 : yc = true := by
                cases h9 : yc with
                | true => rfl
                | false =>
                    rw [h9] at hrp3
                    exact absurd hrp3 (by simp [is_red])
              subst hyc9
              simp at hn
              refine ⟨?_, ?_, ?_⟩
              · rw [hfix, hn, hmj]
                exact Bal.black (Bal.red hBal2 hBar2) hB2
              · rw [hfix]
                rfl
              · intro hf
                rw [← hyco] at hf
                exact Bool.noConfusion hf
          · exact absurd hzlb (by simp [is_red])
          · -- both red: the flip cancels the move's flip
            subst hr2eq
            have hflip : flip_colours (Link.node z (Link.node a al ar true)
                (Link.node rx2 rl2 rr2 true) (!yc)) =
                Link.node z (Link.node a al ar false)
                  (Link.node rx2 rl2 rr2 false) (!(!yc)) := rfl
            simp only [Bool.not_not] at hflip
            obtain ⟨i2, hBrl2, hBrr2, hmi2⟩ := Bal_node_inv hB2
            simp at hmi2
            subst hmi2
            refine ⟨?_, ?_, ?_, bst_fix_up L hbstpre, hglue.1, hglue.2⟩
            · rw [hfix, hflip]
              exact ⟨⟨hokal, hokar, harb, fun hh => Bool.noConfusion hh⟩,
                okN_of_okd_black (t := Link.node rx2 rl2 rr2 false) hd2 rfl,
                rfl⟩
            · refine ⟨n, ?_⟩
              rw [hfix, hflip, hn, hmj]
              cases yc with
              | true =>
                  exact Bal.red (Bal.black hBal2 hBar2)
                    (Bal.black hBrl2 hBrr2)
              | false =>
                  exact Bal.black (Bal.black hBal2 hBar2)
                    (Bal.black hBrl2 hBrr2)
            · intro _
              refine ⟨?_, ?_, ?_⟩
              · rw [hfix, hflip, hn, hmj]
                cases yc with
                | true =>
                    exact Bal.red (Bal.black hBal2 hBar2)
                      (Bal.black hBrl2 hBrr2)
                | false =>
                    exact Bal.black (Bal.black hBal2 hBar2)
                      (Bal.black hBrl2 hBrr2)
              · rw [hfix, hflip]
                show (yc && false) = false
                exact Bool.and_false yc
              · intro hf
                rw [hfix, hflip]
                show yc = false
                rw [hyco]
                exact hf
        · -- the red left-left was rotated up
          subst haleq
          subst e2
          subst e3
          subst e4
          subst e5
          obtain ⟨j3, hBul, hBur, hmj3⟩ := Bal_node_inv hBal2
          simp at hmj3
          subst hmj3
          have hih := ih heq4 hEzr
            (Bal.black hBar2 (Bal.red hBiyrl hBiyrr)) hbst3r
          obtain ⟨hd2, hEx2, hRPcl, hbstr2, hf2, ht2⟩ := hih
          obtain ⟨hB2, hp2, hbb2⟩ := hRPcl
            (by show (false || is_red ar || true) = true; simp)
          have hr2b : is_red r2 = false := hbb2 rfl
          have hsub := mem_of_del_spec hf2 ht2
          have hglue := right_inorder_glue (b := zc) hio1 hf2 ht2
          have hbstpre : bst c true (Link.node z
              (Link.node u ul ur false) r2 zc) :=
            ⟨hbst3l, hbstr2, hzl_cond, fun w hw => hzr_cond w (hsub w hw)⟩
          have hcases := fix_up_del_cases (w := z)
            (p := Link.node u ul ur false) (q := r2) (b := zc)
            (by rfl) (okd_right_black hd2)
          rcases hcases with ⟨_, hfix⟩ | ⟨hcf, _⟩ | ⟨hcf, _⟩
          · refine ⟨?_, ?_, ?_, bst_fix_up L hbstpre, hglue.1, hglue.2⟩
            · rw [hfix]
              exact ⟨hokzl, okN_of_okd_black hd2 hr2b, hr2b⟩
            · refine ⟨n, ?_⟩
              rw [hfix, hn, hmj]
              cases zc with
              | true => exact Bal.red (Bal.black hBul hBur) hB2
              | false => exact Bal.black (Bal.black hBul hBur) hB2
            · intro _
              refine ⟨?_, ?_, ?_⟩
              · rw [hfix, hn, hmj]
                cases zc with
                | true => exact Bal.red (Bal.black hBul hBur) hB2
                | false => exact Bal.black (Bal.black hBul hBur) hB2
              · rw [hfix]
                show (zc && false) = false
                exact Bool.and_false zc
              · intro hf
                rw [hfix]
                show zc = false
                rw [hyco]
                exact hf
          · exact absurd hcf (by simp [hr2b])
          · exact absurd hcf (by simp [hr2b])

/-- C9: for both collaborators (heterogeneous `Set` and bitset `Set`),
over all well-formed sets `A`, `B`: the cardinality of `Union(A, B)`
equals the cardinality of `A` plus the cardinality of `B` minus the
cardinality of `Intersection(A, B)`; `Intersect(A, B)` equals
`Intersect(B, A)`; and `Disjoint(A, B)` holds exactly when
`Intersect(A, B)` does not. -/
theorem C9_set_algebra {α : Type} (c : α → α → Int) (L : LawfulCmp c)
    (A B : HSet.Set α) (hA : HSet.WFS c A) (hB : HSet.WFS c B)
    (a b : BSet.Set) (ha : BSet.WF a) (hb : BSet.WF b) :
    ((HSet.Union c A B).count =
        A.count + B.count - (HSet.Intersection c A B).count ∧
      HSet.Intersect c A B = HSet.Intersect c B A ∧
      HSet.Disjoint c A B = !HSet.Intersect c A B) ∧
    ((BSet.Union a b).bitcount =
        a.bitcount + b.bitcount - (BSet.Intersection a b).bitcount ∧
      BSet.Intersect a b = BSet.Intersect b a ∧
      BSet.Disjoint a b = !BSet.Intersect a b) := by
  refine ⟨⟨?_, HSet.Intersect_comm_h L hA hB,
      HSet.Disjoint_eq_bnot_Intersect c A B⟩,
    ⟨?_, BSet.Intersect_comm a b ha hb,
      BSet.Disjoint_eq_not_Intersect a b⟩⟩
  · have := HSet.hset_card_identity L hA hB
    omega
  · have := BSet.bitset_card_identity a b ha hb
    omega

theorem C9_witness :
    LawfulCmp cmpInt ∧
    HSet.WFS cmpInt (⟨.node 1 .nil .nil false, 1⟩ : HSet.Set Int) ∧
    HSet.WFS cmpInt (⟨.node 2 .nil .nil false, 1⟩ : HSet.Set Int) ∧
    BSet.WF (BSet.runBOps [BSet.BOp.addS 1]) ∧
    BSet.WF (BSet.runBOps [BSet.BOp.addS 2]) ∧
    (((HSet.Union cmpInt (⟨.node 1 .nil .nil false, 1⟩ : HSet.Set Int)
          ⟨.node 2 .nil .nil false, 1⟩).count =
        (⟨.node 1 .nil .nil false, 1⟩ : HSet.Set Int).count +
          (⟨.node 2 .nil .nil false, 1⟩ : HSet.Set Int).count -
          (HSet.Intersection cmpInt ⟨.node 1 .nil .nil false, 1⟩
            ⟨.node 2 .nil .nil false, 1⟩).count ∧
      HSet.Intersect cmpInt (⟨.node 1 .nil .nil false, 1⟩ : HSet.Set Int)
          ⟨.node 2 .nil .nil false, 1⟩ =
        HSet.Intersect cmpInt ⟨.node 2 .nil .nil false, 1⟩
          ⟨.node 1 .nil .nil false, 1⟩ ∧
      HSet.Disjoint cmpInt (⟨.node 1 .nil .nil false, 1⟩ : HSet.Set Int)
          ⟨.node 2 .nil .nil false, 1⟩ =
        !HSet.Intersect cmpInt ⟨.node 1 .nil .nil false, 1⟩
          ⟨.node 2 .nil .nil false, 1⟩) ∧
     ((BSet.Union (BSet.runBOps [BSet.BOp.addS 1])
          (BSet.runBOps [BSet.BOp.addS 2])).bitcount =
        (BSet.runBOps [BSet.BOp.addS 1]).bitcount +
          (BSet.runBOps [BSet.BOp.addS 2]).bitcount -
          (BSet.Intersection (BSet.runBOps [BSet.BOp.addS 1])
            (BSet.runBOps [BSet.BOp.addS 2])).bitcount ∧
      BSet.Intersect (BSet.runBOps [BSet.BOp.addS 1])
          (BSet.runBOps [BSet.BOp.addS 2]) =
        BSet.Intersect (BSet.runBOps [BSet.BOp.addS 2])
          (BSet.runBOps [BSet.BOp.addS 1]) ∧
      BSet.Disjoint (BSet.runBOps [BSet.BOp.addS 1])
          (BSet.runBOps [BSet.BOp.addS 2]) =
        !BSet.Intersect (BSet.runBOps [BSet.BOp.addS 1])
          (BSet.runBOps [BSet.BOp.addS 2]))) :=
  ⟨lawfulCmpInt, ⟨by decide, by decide⟩, ⟨by decide, by decide⟩,
    BSet.WF_runBOps [BSet.BOp.addS 1], BSet.WF_runBOps [BSet.BOp.addS 2],
    C9_set_algebra cmpInt lawfulCmpInt
      ⟨.node 1 .nil .nil false, 1⟩ ⟨.node 2 .nil .nil false, 1⟩
      ⟨by decide, by decide⟩ ⟨by decide, by decide⟩
      (BSet.runBOps [BSet.BOp.addS 1]) (BSet.runBOps [BSet.BOp.addS 2])
      (BSet.WF_runBOps [BSet.BOp.addS 1])
      (BSet.WF_runBOps [BSet.BOp.addS 2])⟩


variable {α : Type}

/-- The size of a subtree is the length of its in-order listing. -/
theorem size_eq_length (t : Link α) :
    t.size = (iterate_inorder t).length := by
  induction t with
  | nil => rfl
  | node x l r co ihl ihr =>
      simp only [Link.size, iterate_inorder, List.length_append,
        List.length_cons, ihl, ihr]
      omega

/-- The filtering insert grows the subtree by one node exactly when it
reports a node was created. -/
theorem insert_size_flag (c : α → α → Int) (t : Link α) (item : α) :
    (insert c t item).1.size
      = t.size + (if (insert c t item).2 = true then 1 else 0) := by
  induction t with
  | nil => simp [insert, new_ll_rb_node, Link.size]
  | node x l r co ihl ihr =>
      by_cases hc : c x item > 0
      · rcases hp : insert c l item with ⟨t1, f1⟩
        rw [hp] at ihl
        simp only [insert, if_pos hc, hp, fix_up_size, Link.size]
        cases f1 <;> simp at ihl ⊢ <;> omega
      · by_cases hc2 : c x item < 0
        · rcases hp : insert c r item with ⟨t1, f1⟩
          rw [hp] at ihr
          simp only [insert, if_neg hc, if_pos hc2, hp, fix_up_size, Link.size]
          cases f1 <;> simp at ihr ⊢ <;> omega
        · simp only [insert, if_neg hc, if_neg hc2, fix_up_size, Link.size]
          simp

/-- A valid black node satisfies the delete entry invariant for any probe:
both children valid, no red child pair (the right child is always black
under `okN`), and the red-right clause vacuous. -/
theorem dEnt_of_okN_black {c : α → α → Int} {item : α} {t : Link α}
    (h : okN t) (hb : is_red t = false) : dEnt c item t := by
  cases t with
  | nil => trivial
  | node x l r co =>
      obtain ⟨h1, h2, h3, _⟩ := h
      have hco : co = false := hb
      refine ⟨h1, h2, by rw [h3, Bool.and_false], ?_, ?_⟩
      · intro hct
        rw [hco] at hct
        exact Bool.noConfusion hct
      · intro hr
        rw [h3] at hr
        exact Bool.noConfusion hr

/-- Forcing the root black restores full validity from the relaxed
`okd` shape delivered by `delete`. -/
theorem okN_blacken_of_okd {t : Link α} (h : okd t) : okN (blacken t) := by
  cases t with
  | nil => trivial
  | node x l r co =>
      exact ⟨h.1, h.2.1, h.2.2, fun hf => Bool.noConfusion hf⟩

/-- A public mutating operation on the tree facade. -/
inductive TOp (α : Type) where
  | ins (item : α)
  | del (item : α)
deriving Repr, DecidableEq

/-- One public facade operation; `none` models a panic of the underlying
call (`insert` in fact never panics, see `tree_insertO_eq`). -/
def applyOp (c : α → α → Int) (t : ll_rb_tree α) : TOp α → Option (ll_rb_tree α)
  | .ins x => tree_insertO c t x
  | .del x => tree_delete c t x

/-- A whole session: a sequence of public inserts and deletes applied to
the facade, aborted (`none`) as soon as any operation panics. -/
def runOps (c : α → α → Int) : ll_rb_tree α → List (TOp α) → Option (ll_rb_tree α)
  | t, [] => some t
  | t, op :: ops =>
      match applyOp c t op with
      | none => none
      | some t1 => runOps c t1 ops

/-- The same session instrumented with two observation counters: the
number of insert calls made and the number of deletes whose internal
`deleted` flag reported a removal. -/
def runOpsCount (c : α → α → Int) :
    ll_rb_tree α → Nat → Nat → List (TOp α) →
      Option (ll_rb_tree α × Nat × Nat)
  | t, i, d, [] => some (t, i, d)
  | t, i, d, .ins x :: ops =>
      match tree_insertO c t x with
      | none => none
      | some t1 => runOpsCount c t1 (i + 1) d ops
  | t, i, d, .del x :: ops =>
      match deleteO c t.root x with
      | none => none
      | some (root, deleted) =>
          match set_root_black root with
          | none => none
          | some rt =>
              runOpsCount c
                ⟨rt, if deleted then t.count - 1 else t.count,
                  t.keep_duplicates⟩
                i (if deleted then d + 1 else d) ops

/-- The instrumented session computes the same trees as the plain one. -/
theorem runOpsCount_fst {c : α → α → Int} :
    ∀ {ops : List (TOp α)} {t : ll_rb_tree α} {i d : Nat}
      {p : ll_rb_tree α × Nat × Nat},
      runOpsCount c t i d ops = some p → runOps c t ops = some p.1 := by
  intro ops
  induction ops with
  | nil =>
      intro t i d p h
      have h2 : (t, i, d) = p := Option.some_inj.mp h
      rw [runOps, ← h2]
  | cons op ops ih =>
      intro t i d p h
      cases op with
      | ins x =>
          rw [runOpsCount, tree_insertO_eq] at h
          have h2 : runOpsCount c (tree_insert c t x) (i + 1) d ops
              = some p := h
          rw [runOps]
          have ha : applyOp c t (TOp.ins x) = some (tree_insert c t x) :=
            tree_insertO_eq c t x
          rw [ha]
          exact ih h2
      | del x =>
          rw [runOpsCount] at h
          cases hdo : deleteO c t.root x with
          | none =>
              rw [hdo] at h
              exact Option.noConfusion h
          | some pr =>
              obtain ⟨root2, deleted⟩ := pr
              simp only [hdo] at h
              cases hsb : set_root_black root2 with
              | none =>
                  rw [hsb] at h
                  exact Option.noConfusion h
              | some rt =>
                  simp only [hsb] at h
                  rw [runOps]
                  have ha : applyOp c t (TOp.del x)
                      = some ⟨rt, if deleted then t.count - 1 else t.count,
                          t.keep_duplicates⟩ := by
                    show tree_delete c t x = _
                    rw [tree_delete]
                    simp only [hdo, hsb]
                  rw [ha]
                  exact ih h

/-- The facade invariant maintained by every public operation under the
filtering policy: a valid black-rooted, perfectly black-balanced,
strictly ordered root whose in-order listing has exactly `count`
elements. -/
def FInv (c : α → α → Int) (t : ll_rb_tree α) : Prop :=
  t.keep_duplicates = false ∧ okN t.root ∧ is_red t.root = false ∧
    (∃ n, Bal n t.root) ∧ bst c true t.root ∧
    t.count = (iterate_inorder t.root).length

theorem FInv_tree_insert {c : α → α → Int} (L : LawfulCmp c)
    {t : ll_rb_tree α} (h : FInv c t) (item : α) :
    FInv c (tree_insert c t item) := by
  obtain ⟨hkd, hok, hb, ⟨n, hbal⟩, hbst, hcnt⟩ := h
  obtain ⟨⟨k, hok2, hbal2, hb2⟩, _⟩ :=
    tree_insert_shape (c := c) item ⟨n, hok, hbal, hb⟩
  have hkdn : ¬ (t.keep_duplicates = true) := by
    rw [hkd]
    exact fun hf => Bool.noConfusion hf
  have heq : tree_insert c t item
      = ⟨blacken (insert c t.root item).1,
          if (insert c t.root item).2 then t.count + 1 else t.count,
          t.keep_duplicates⟩ := by
    unfold tree_insert
    rw [if_neg hkdn]
  refine ⟨?_, hok2, hb2, ⟨k, hbal2⟩, ?_, ?_⟩
  · rw [heq]
    exact hkd
  · rw [heq]
    exact bst_blacken (bst_insert L hbst item)
  · rw [heq]
    show (if (insert c t.root item).2 = true then t.count + 1 else t.count)
        = (iterate_inorder (blacken (insert c t.root item).1)).length
    rw [blacken_inorder, ← size_eq_length, insert_size_flag,
      size_eq_length, ← hcnt]
    cases hf : (insert c t.root item).2 <;> simp

theorem FInv_tree_delete {c : α → α → Int} (L : LawfulCmp c)
    {t t1 : ll_rb_tree α} {item : α} (h : FInv c t)
    (hdel : tree_delete c t item = some t1) : FInv c t1 := by
  obtain ⟨hkd, hok, hb, ⟨n, hbal⟩, hbst, hcnt⟩ := h
  rw [tree_delete] at hdel
  cases hdo : deleteO c t.root item with
  | none =>
      rw [hdo] at hdel
      exact Option.noConfusion hdel
  | some pr =>
      obtain ⟨root2, deleted⟩ := pr
      simp only [hdo] at hdel
      cases hsb : set_root_black root2 with
      | none =>
          rw [hsb] at hdel
          exact Option.noConfusion hdel
      | some rt =>
          simp only [hsb] at hdel
          have ht1 : (⟨rt, if deleted then t.count - 1 else t.count,
              t.keep_duplicates⟩ : ll_rb_tree α) = t1 :=
            Option.some_inj.mp hdel
          have hdE : dEnt c item t.root := dEnt_of_okN_black hok hb
          obtain ⟨hokd2, ⟨k2, hbal2⟩, _, hbst2, hff, hft⟩ :=
            deleteO_spec L hdo hdE hbal hbst
          have hne : root2 ≠ Link.nil := by
            intro hnil
            rw [hnil] at hsb
            exact Option.noConfusion hsb
          rw [set_root_black_eq_blacken hne] at hsb
          have hrt : rt = blacken root2 := (Option.some_inj.mp hsb).symm
          subst ht1
          refine ⟨hkd, ?_, ?_, ?_, ?_, ?_⟩
          · show okN rt
            rw [hrt]
            exact okN_blacken_of_okd hokd2
          · show is_red rt = false
            rw [hrt]
            exact is_red_blacken root2
          · show ∃ m, Bal m rt
            rw [hrt]
            exact Bal_blacken hbal2
          · show bst c true rt
            rw [hrt]
            exact bst_blacken hbst2
          · show (if deleted = true then t.count - 1 else t.count)
                = (iterate_inorder rt).length
            rw [hrt, blacken_inorder]
            cases deleted with
            | false =>
                rw [if_neg (fun hf => Bool.noConfusion hf), hff rfl]
                exact hcnt
            | true =>
                obtain ⟨pre, z, post, _, hio, hio2⟩ := hft rfl
                rw [if_pos rfl, hio2]
                rw [hio] at hcnt
                simp only [List.length_append, List.length_cons] at hcnt ⊢
                omega

theorem runOps_FInv {c : α → α → Int} (L : LawfulCmp c) :
    ∀ {ops : List (TOp α)} {t t1 : ll_rb_tree α},
      runOps c t ops = some t1 → FInv c t → FInv c t1 := by
  intro ops
  induction ops with
  | nil =>
      intro t t1 h hI
      rw [runOps] at h
      rw [← Option.some_inj.mp h]
      exact hI
  | cons op ops ih =>
      intro t t1 h hI
      rw [runOps] at h
      cases op with
      | ins x =>
          have ha : applyOp c t (TOp.ins x) = some (tree_insert c t x) :=
            tree_insertO_eq c t x
          rw [ha] at h
          exact ih h (FInv_tree_insert L hI x)
      | del x =>
          cases hap : applyOp c t (TOp.del x) with
          | none =>
              rw [hap] at h
              exact Option.noConfusion h
          | some t2 =>
              rw [hap] at h
              exact ih h (FInv_tree_delete L hI hap)

/-- Count bookkeeping for the duplicate-preserving policy: the node count
of the root never exceeds the facade count, and the facade count plus the
removals seen equals the inserts seen (both relative to the starting
counters). -/
theorem runOpsCount_dup {c : α → α → Int} :
    ∀ {ops : List (TOp α)} {t : ll_rb_tree α} {i d : Nat}
      {p : ll_rb_tree α × Nat × Nat},
      runOpsCount c t i d ops = some p →
      t.keep_duplicates = true →
      t.root.size ≤ t.count →
      p.1.root.size ≤ p.1.count ∧
      p.1.count + p.2.2 + i = t.count + p.2.1 + d := by
  intro ops
  induction ops with
  | nil =>
      intro t i d p h hkd hs
      have h2 : (t, i, d) = p := Option.some_inj.mp h
      rw [← h2]
      refine ⟨hs, ?_⟩
      show t.count + d + i = t.count + i + d
      omega
  | cons op ops ih =>
      intro t i d p h hkd hs
      cases op with
      | ins x =>
          rw [runOpsCount, tree_insertO_eq] at h
          have h2 : runOpsCount c (tree_insert c t x) (i + 1) d ops
              = some p := h
          have heq : tree_insert c t x
              = ⟨blacken (insert_keep_duplicates c t.root x),
                  t.count + 1, t.keep_duplicates⟩ := by
            unfold tree_insert
            rw [if_pos hkd]
          have hkd2 : (tree_insert c t x).keep_duplicates = true := by
            rw [heq]
            exact hkd
          have hs2 : (tree_insert c t x).root.size ≤ (tree_insert c t x).count := by
            rw [heq]
            show (blacken (insert_keep_duplicates c t.root x)).size ≤ t.count + 1
            rw [blacken_size, insert_keep_size]
            omega
          obtain ⟨hp1, hp2⟩ := ih h2 hkd2 hs2
          have hcnt : (tree_insert c t x).count = t.count + 1 := by
            rw [heq]
          rw [hcnt] at hp2
          exact ⟨hp1, by omega⟩
      | del x =>
          rw [runOpsCount] at h
          cases hdo : deleteO c t.root x with
          | none =>
              rw [hdo] at h
              exact Option.noConfusion h
          | some pr =>
              obtain ⟨root2, deleted⟩ := pr
              simp only [hdo] at h
              cases hsb : set_root_black root2 with
              | none =>
                  rw [hsb] at h
                  exact Option.noConfusion h
              | some rt =>
                  simp only [hsb] at h
                  have hne : root2 ≠ Link.nil := by
                    intro hnil
                    rw [hnil] at hsb
                    exact Option.noConfusion hsb
                  rw [set_root_black_eq_blacken hne] at hsb
                  have hrt : rt = blacken root2 := (Option.some_inj.mp hsb).symm
                  have hsz := deleteO_size hdo
                  cases deleted with
                  | false =>
                      have hs2 : rt.size ≤ t.count := by
                        rw [hrt, blacken_size, hsz.1 rfl]
                        exact hs
                      obtain ⟨hp1, hp2⟩ := ih h hkd (by simpa using hs2)
                      refine ⟨hp1, ?_⟩
                      have hp2x : p.1.count + p.2.2 + i
                          = t.count + p.2.1 + d := hp2
                      omega
                  | true =>
                      have hlt : root2.size < t.root.size := hsz.2 rfl
                      have hge : 1 ≤ t.count := by omega
                      have hs2 : rt.size ≤ t.count - 1 := by
                        rw [hrt, blacken_size]
                        omega
                      obtain ⟨hp1, hp2⟩ := ih h hkd (by simpa using hs2)
                      refine ⟨hp1, ?_⟩
                      have hp2x : p.1.count + p.2.2 + i
                          = (t.count - 1) + p.2.1 + (d + 1) := hp2
                      omega

/-- C5: over every sequence of public inserts and deletes applied to a
fresh tree, restricted to runs where every operation returns (the
delete panics established separately mean a run may abort): under the
filtering policy (`Make(true)`) `count` equals the number of items held,
and those items are pairwise distinct under the ordering; under the
duplicate-preserving policy (`Make(false)`) `count` plus the number of
successful (flagged) deletes equals the number of insert calls. -/
theorem C5_count_tracks_contents {c : α → α → Int} (L : LawfulCmp c)
    (ops : List (TOp α)) :
    (∀ {t : ll_rb_tree α}, runOps c (Make α true) ops = some t →
      t.count = (iterate_inorder t.root).length ∧
      (iterate_inorder t.root).Pairwise (fun a b => c a b ≠ 0)) ∧
    (∀ {t : ll_rb_tree α} {i d : Nat},
      runOpsCount c (Make α false) 0 0 ops = some (t, i, d) →
      t.count + d = i) := by
  constructor
  · intro t h
    have hI : FInv c t :=
      runOps_FInv L h ⟨rfl, trivial, rfl, ⟨0, Bal.nil⟩, trivial, rfl⟩
    refine ⟨hI.2.2.2.2.2, ?_⟩
    have hp := bst_pairwise_lt L hI.2.2.2.2.1
    exact hp.imp (fun hx => by omega)
  · intro t i d h
    have hd := runOpsCount_dup h rfl (Nat.le_refl 0)
    have h2 : t.count + d + 0 = 0 + i + 0 := hd.2
    omega



/-- C5 witness: concrete runs on fresh trees of both policies; each count
conclusion is obtained from the claim theorem at the concrete run. -/
theorem C5_witness :
    runOps cmpInt (Make Int true) [TOp.ins 5, TOp.ins 3, TOp.ins 5]
      = some ⟨Link.node 5 (Link.node 3 .nil .nil true) .nil false, 2, false⟩ ∧
    (⟨Link.node 5 (Link.node 3 .nil .nil true) .nil false, 2, false⟩ :
        ll_rb_tree Int).count
      = (iterate_inorder (⟨Link.node 5 (Link.node 3 .nil .nil true) .nil false,
          2, false⟩ : ll_rb_tree Int).root).length ∧
    runOpsCount cmpInt (Make Int false) 0 0 [TOp.ins 5, TOp.ins 5]
      = some (⟨Link.node 5 (Link.node 5 .nil .nil true) .nil false, 2, true⟩,
          2, 0) ∧
    (⟨Link.node 5 (Link.node 5 .nil .nil true) .nil false, 2, true⟩ :
        ll_rb_tree Int).count + 0 = 2 := by
  have h1 : runOps cmpInt (Make Int true) [TOp.ins 5, TOp.ins 3, TOp.ins 5]
      = some ⟨Link.node 5 (Link.node 3 .nil .nil true) .nil false, 2, false⟩ := by
    decide
  have h2 : runOpsCount cmpInt (Make Int false) 0 0 [TOp.ins 5, TOp.ins 5]
      = some (⟨Link.node 5 (Link.node 5 .nil .nil true) .nil false, 2, true⟩,
          2, 0) := by
    decide
  exact ⟨h1, ((C5_count_tracks_contents lawfulCmpInt _).1 h1).1, h2,
    (C5_count_tracks_contents lawfulCmpInt _).2 h2⟩

end Mudlark
